import Mathlib

/-!
Interval sets of the nonlinear arithmetic solver (`src/nlsat/nlsat_interval_set.cpp`)

A shallow embedding of the interval-set engine: the interval and interval-set
nodes, the three endpoint comparators, `mk`, `mk_union` (merge pass, compression,
full detection), `subset`, `set_eq` and `peek_in_complement`, followed by the
properties proved about them.

Algebraic numbers (`anum`) are the elements of a linearly ordered field `α`;
`am.compare`, `am.lt` and `am.eq` are the order of `α`.  The remaining services
of the algebraic-number manager (`int_lt`, `int_gt`, `select`, `is_rational`)
and the pseudo-random generator are parameters.
-/

namespace nlsat

/-- Modelled from the spec: the literal type of `nlsat_types.h`, an opaque
variable index together with a sign bit.  Equality compares both. -/
structure literal where
  var : Nat
  sign : Bool
deriving DecidableEq, Repr

/-- Modelled from the spec: `literal::index()`, an injective code of the pair
(variable, sign), so that a literal and its negation have different indices. -/
def literal.index (l : literal) : Nat :=
  2 * l.var + (if l.sign then 1 else 0)

/-- Clause back-references are pointers compared by identity; `none` is the null pointer. -/
abbrev clause_ptr := Option Nat

/-- The record `struct interval`. The endpoint values are stored even when the
matching `inf` flag is set (they are then ignored by the comparators). -/
structure interval (α : Type) where
  m_lower_open : Bool
  m_upper_open : Bool
  m_lower_inf : Bool
  m_upper_inf : Bool
  m_justification : literal
  m_clause : clause_ptr
  m_lower : α
  m_upper : α
deriving DecidableEq, Repr

/-- The node `class interval_set`. `m_addr` is the address of the node (what a
pointer to it holds); `m_num_intervals` is the length of the trailing array. -/
structure interval_set (α : Type) where
  m_addr : Nat
  m_ref_count : Nat
  m_full : Bool
  m_intervals : List (interval α)
deriving DecidableEq, Repr

/-- The field `m_num_intervals`: the number of cells of the trailing array. -/
def interval_set.m_num_intervals {α : Type} (s : interval_set α) : Nat :=
  s.m_intervals.length

/-- A pointer `interval_set const *`: `none` is `nullptr`. -/
abbrev interval_set_ptr (α : Type) := Option (interval_set α)

section defs

variable {α : Type} [LinearOrderedField α]

/-- Pointer comparison `s1 == s2`: both null, or both pointing to the same node.
A node is identified by its address together with its contents, a heap holding
one node per address. -/
def ptr_eq (s1 s2 : interval_set_ptr α) : Bool :=
  decide (s1 = s2)

/-- The constants `sign_neg`, `sign_zero`, `sign_pos` converted to `int`. -/
def sign_neg : Int := -1

/-- See `sign_neg`. -/
def sign_zero : Int := 0

/-- See `sign_neg`. -/
def sign_pos : Int := 1

/-- The three-way comparison `am.compare(a, b)` of two algebraic numbers. -/
def am_compare (a b : α) : Int :=
  if a < b then sign_neg else if a = b then sign_zero else sign_pos

/-- The function `compare_lower_lower`. -/
def compare_lower_lower (i1 i2 : interval α) : Int :=
  if i1.m_lower_inf && i2.m_lower_inf then sign_zero
  else if i1.m_lower_inf then sign_neg
  else if i2.m_lower_inf then sign_pos
  else
    let s := am_compare i1.m_lower i2.m_lower
    if s ≠ 0 then s
    else if i1.m_lower_open == i2.m_lower_open then sign_zero
    else if i1.m_lower_open then sign_pos
    else sign_neg

/-- The function `compare_upper_upper`. -/
def compare_upper_upper (i1 i2 : interval α) : Int :=
  if i1.m_upper_inf && i2.m_upper_inf then sign_zero
  else if i1.m_upper_inf then sign_pos
  else if i2.m_upper_inf then sign_neg
  else
    let s := am_compare i1.m_upper i2.m_upper
    if s ≠ 0 then s
    else if i1.m_upper_open == i2.m_upper_open then sign_zero
    else if i1.m_upper_open then sign_neg
    else sign_pos

/-- The function `compare_upper_lower`. -/
def compare_upper_lower (i1 i2 : interval α) : Int :=
  if i1.m_upper_inf || i2.m_lower_inf then sign_pos
  else
    let s := am_compare i1.m_upper i2.m_lower
    if s ≠ 0 then s
    else if !i1.m_upper_open && !i2.m_lower_open then sign_zero
    else sign_neg

/-- The function `adjacent` (its assertions hold for consecutive intervals of a
well-formed set and are not part of the returned value). -/
def adjacent (curr next : interval α) : Bool :=
  let sign := am_compare curr.m_upper next.m_lower
  if sign = 0 then !curr.m_upper_open || !next.m_lower_open
  else false

/-- The constructor `interval_set_manager::mk`: a one-interval node at the
address `mem` handed out by the allocator. An endpoint value is stored only
when the endpoint is finite; otherwise the cell keeps the default number 0. -/
def mk (mem : Nat) (lower_open lower_inf : Bool) (lower : α)
    (upper_open upper_inf : Bool) (upper : α)
    (justification : literal) (cls : clause_ptr) : interval_set_ptr α :=
  some
    { m_addr := mem
      m_ref_count := 0
      m_full := lower_inf && upper_inf
      m_intervals :=
        [{ m_lower_open := lower_open
           m_lower_inf := lower_inf
           m_upper_open := upper_open
           m_upper_inf := upper_inf
           m_justification := justification
           m_clause := cls
           m_lower := if !lower_inf then lower else 0
           m_upper := if !upper_inf then upper else 0 }] }

/-- The function `mk_empty`. -/
def mk_empty : interval_set_ptr α := none

/-- The nine-argument `push_back`: appends a value-initialised interval to the
buffer and fills in the endpoints and the justification; `m_clause` is not
assigned and stays null. -/
def push_back (buf : List (interval α)) (lower_open lower_inf : Bool) (lower : α)
    (upper_open upper_inf : Bool) (upper : α) (justification : literal) :
    List (interval α) :=
  buf ++
    [{ m_lower_open := lower_open
       m_lower_inf := lower_inf
       m_upper_open := upper_open
       m_upper_inf := upper_inf
       m_justification := justification
       m_clause := none
       m_lower := lower
       m_upper := upper }]

/-- The three-argument `push_back`, which copies an interval into the buffer. -/
def push_back_interval (buf : List (interval α)) (i : interval α) : List (interval α) :=
  push_back buf i.m_lower_open i.m_lower_inf i.m_lower
    i.m_upper_open i.m_upper_inf i.m_upper i.m_justification

/-- The merge pass of `mk_union`, the loop `while (true)`. The second and third
arguments are the cells of `s1` from `i1` on and of `s2` from `i2` on, the
fourth is the buffer `result`. The first argument bounds the number of
iterations; an exhausted bound hands back the buffer as it stands. -/
def union_loop : Nat → List (interval α) → List (interval α) → List (interval α) →
    List (interval α)
  | 0, _, _, result => result
  | _ + 1, [], l2, result => l2.foldl push_back_interval result
  | _ + 1, int1 :: r1, [], result => (int1 :: r1).foldl push_back_interval result
  | fuel + 1, int1 :: r1, int2 :: r2, result =>
    let l1_l2_sign := compare_lower_lower int1 int2
    let u1_u2_sign := compare_upper_upper int1 int2
    if l1_l2_sign ≤ 0 then
      if u1_u2_sign = 0 then
        union_loop fuel r1 r2 (push_back_interval result int1)
      else if u1_u2_sign > 0 then
        union_loop fuel (int1 :: r1) r2 result
      else
        let u1_l2_sign := compare_upper_lower int1 int2
        if u1_l2_sign < 0 then
          union_loop fuel r1 (int2 :: r2) (push_back_interval result int1)
        else if u1_l2_sign = 0 then
          if l1_l2_sign ≠ 0 then
            union_loop fuel r1 (int2 :: r2)
              (push_back result int1.m_lower_open int1.m_lower_inf int1.m_lower
                true false int1.m_upper int1.m_justification)
          else
            union_loop fuel r1 (int2 :: r2) result
        else
          if l1_l2_sign = 0 then
            union_loop fuel r1 (int2 :: r2) result
          else
            union_loop fuel r1 (int2 :: r2)
              (push_back result int1.m_lower_open int1.m_lower_inf int1.m_lower
                (!int2.m_lower_open) false int2.m_lower int1.m_justification)
    else
      if u1_u2_sign = 0 then
        union_loop fuel r1 r2 (push_back_interval result int2)
      else if u1_u2_sign < 0 then
        union_loop fuel r1 (int2 :: r2) result
      else
        let u2_l1_sign := compare_upper_lower int2 int1
        if u2_l1_sign < 0 then
          union_loop fuel (int1 :: r1) r2 (push_back_interval result int2)
        else if u2_l1_sign = 0 then
          union_loop fuel (int1 :: r1) r2
            (push_back result int2.m_lower_open int2.m_lower_inf int2.m_lower
              true false int2.m_upper int2.m_justification)
        else
          union_loop fuel (int1 :: r1) r2
            (push_back result int2.m_lower_open int2.m_lower_inf int2.m_lower
              (!int1.m_lower_open) false int1.m_lower int2.m_justification)

/-- The compression loop of `mk_union`, run in place on the buffer. The buffer
is split at the two cursors: `done` holds the cells below `j`, `curr` is the
cell `result[j]`, `mid` holds the cells strictly between `j` and `i` (already
consumed, their contents no longer used), and the last argument holds the cells
from `i` on. The value returned is the buffer after `result.shrink(j)`. -/
def compress_loop (done : List (interval α)) (curr : interval α) (mid : List (interval α)) :
    List (interval α) → List (interval α)
  | [] => done ++ [curr]
  | next :: rest =>
    if curr.m_justification = next.m_justification && adjacent curr next then
      compress_loop done
        { curr with
          m_upper_inf := next.m_upper_inf
          m_upper_open := next.m_upper_open
          m_upper := next.m_upper }
        (mid ++ [{ next with m_upper := curr.m_upper }]) rest
    else
      match mid with
      | [] => compress_loop (done ++ [curr]) next [] rest
      | next_curr :: mid' =>
        compress_loop (done ++ [curr])
          { next_curr with
            m_lower_inf := next.m_lower_inf
            m_lower_open := next.m_lower_open
            m_lower := next.m_lower
            m_upper_inf := next.m_upper_inf
            m_upper_open := next.m_upper_open
            m_upper := next.m_upper
            m_justification := next.m_justification }
          (mid' ++ [{ next with m_lower := next_curr.m_lower, m_upper := next_curr.m_upper }])
          rest

/-- The loop of the full detection in `mk_union`: it runs over the consecutive
pairs of the buffer while `found_slack` is false. -/
def find_slack : Bool → List (interval α) → Bool
  | true, _ => true
  | false, a :: b :: rest => find_slack (!adjacent a b) (b :: rest)
  | false, _ => false

/-- The function `mk_interval`: a node at address `mem` holding the buffer. -/
def mk_interval (mem : Nat) (buf : List (interval α)) (full : Bool) : interval_set α :=
  { m_addr := mem, m_ref_count := 0, m_full := full, m_intervals := buf }

/-- The function `interval_set_manager::mk_union`. `mem` is the address the
allocator hands out for the new node. The buffer cannot be empty after the
merge pass because each operand has at least one interval; for an empty buffer,
where the code reads `result[0]` out of bounds, the model returns null. -/
def mk_union (mem : Nat) (s1 s2 : interval_set_ptr α) : interval_set_ptr α :=
  if s1 = none || ptr_eq s1 s2 then s2
  else
    match s1, s2 with
    | none, _ => s2
    | _, none => s1
    | some n1, some n2 =>
      if n1.m_full then s1
      else if n2.m_full then s2
      else
        let sz1 := n1.m_num_intervals
        let sz2 := n2.m_num_intervals
        let result := union_loop (sz1 + sz2) n1.m_intervals n2.m_intervals []
        match result with
        | [] => none
        | first :: rest =>
          let result := compress_loop [] first [] rest
          let found_slack :=
            match result.head?, result.getLast? with
            | some r0, some rl => !r0.m_lower_inf || !rl.m_upper_inf
            | _, _ => true
          let found_slack := find_slack found_slack result
          some (mk_interval mem result (!found_slack))

/-- The function `interval_set_manager::is_full`. -/
def is_full (s : interval_set_ptr α) : Bool :=
  match s with
  | none => false
  | some n => n.m_full

/-- The function `interval_set_manager::num_intervals`. -/
def num_intervals (s : interval_set_ptr α) : Nat :=
  match s with
  | none => 0
  | some n => n.m_num_intervals

/-- The two nested loops of `subset`. The flag tells where control stands:
`true` at the head of the outer loop (the lower endpoints are compared first),
`false` at the head of the inner loop after `i2++` on an adjacent interval.
The lists are the cells of `s1` from `i1` on and of `s2` from `i2` on; the
first argument bounds the number of iterations. -/
def subset_loop : Nat → Bool → List (interval α) → List (interval α) → Bool
  | 0, _, _, _ => false
  | fuel + 1, outer, int1 :: r1, int2 :: r2 =>
    if outer && decide (compare_lower_lower int1 int2 < 0) then false
    else
      let u1_u2_sign := compare_upper_upper int1 int2
      if u1_u2_sign = 0 then subset_loop fuel true r1 r2
      else if u1_u2_sign < 0 then subset_loop fuel true r1 (int2 :: r2)
      else
        let u2_l1_sign := compare_upper_lower int2 int1
        if u2_l1_sign < 0 then subset_loop fuel true (int1 :: r1) r2
        else
          match r2 with
          | [] => false
          | next2 :: _ =>
            if !adjacent int2 next2 then false
            else subset_loop fuel false (int1 :: r1) r2
  | _ + 1, _, l1, _ => l1.isEmpty

/-- The function `interval_set_manager::subset`. -/
def subset (s1 s2 : interval_set_ptr α) : Bool :=
  if ptr_eq s1 s2 then true
  else
    match s1, s2 with
    | none, _ => true
    | _, none => false
    | some n1, some n2 =>
      if n2.m_full then true
      else if n1.m_full then false
      else
        subset_loop (n1.m_num_intervals + n2.m_num_intervals + 1) true
          n1.m_intervals n2.m_intervals

/-- The function `interval_set_manager::set_eq`. -/
def set_eq (s1 s2 : interval_set_ptr α) : Bool :=
  match s1, s2 with
  | some n1, some n2 =>
    if n1.m_full || n2.m_full then n1.m_full == n2.m_full
    else subset s1 s2 && subset s2 s1
  | _, _ => ptr_eq s1 s2

/-- The function `check_interval`: the conjunction of its assertions. -/
def check_interval (i : interval α) : Bool :=
  (!i.m_lower_inf || i.m_lower_open) && (!i.m_upper_inf || i.m_upper_open) &&
    (if !i.m_lower_inf && !i.m_upper_inf then
      decide (am_compare i.m_lower i.m_upper ≤ 0) &&
        (!decide (am_compare i.m_lower i.m_upper = 0) ||
          (!i.m_lower_open && !i.m_upper_open))
    else true)

/-- The function `check_no_overlap`: the conjunction of its assertions. -/
def check_no_overlap (curr next : interval α) : Bool :=
  !curr.m_upper_inf && !next.m_lower_inf &&
    decide (am_compare curr.m_upper next.m_lower ≤ 0) &&
    (!decide (am_compare curr.m_upper next.m_lower = 0) ||
      curr.m_upper_open || next.m_lower_open)

/-- The function `check_interval_set`: every interval passes `check_interval`
and every interval but the last passes `check_no_overlap` with its successor. -/
def check_interval_set : List (interval α) → Bool
  | [] => true
  | [curr] => check_interval curr
  | curr :: next :: rest =>
    check_interval curr && check_no_overlap curr next && check_interval_set (next :: rest)

/-- The lower endpoint of `i` admits the number `x`. -/
def interval.lower_ok (i : interval α) (x : α) : Prop :=
  i.m_lower_inf = true ∨ i.m_lower < x ∨ (i.m_lower_open = false ∧ i.m_lower = x)

/-- The upper endpoint of `i` admits the number `x`. -/
def interval.upper_ok (i : interval α) (x : α) : Prop :=
  i.m_upper_inf = true ∨ x < i.m_upper ∨ (i.m_upper_open = false ∧ x = i.m_upper)

/-- The number `x` lies in the interval `i`. -/
def interval.contains (i : interval α) (x : α) : Prop :=
  i.lower_ok x ∧ i.upper_ok x

instance (i : interval α) (x : α) : Decidable (i.contains x) := by
  unfold interval.contains interval.lower_ok interval.upper_ok
  infer_instance

/-- The number `x` lies in some interval of the list. -/
def covers (l : List (interval α)) (x : α) : Prop :=
  ∃ i ∈ l, i.contains x

/-- The number `x` lies in some interval of the set `s`; the null set has none. -/
def set_contains (s : interval_set_ptr α) (x : α) : Prop :=
  match s with
  | none => False
  | some n => covers n.m_intervals x

/-- The intervals of the set `s`; the null set has none. -/
def intervals (s : interval_set_ptr α) : List (interval α) :=
  match s with
  | none => []
  | some n => n.m_intervals

/-- Every consecutive pair of the list is adjacent. -/
def all_adjacent : List (interval α) → Bool
  | a :: b :: rest => adjacent a b && all_adjacent (b :: rest)
  | _ => true

/-- The condition under which the flag `m_full` is to be set: the first lower
endpoint is infinite, the last upper endpoint is infinite, and every
consecutive pair is adjacent. -/
def full_cond (l : List (interval α)) : Bool :=
  match l.head?, l.getLast? with
  | some r0, some rl => r0.m_lower_inf && rl.m_upper_inf && all_adjacent l
  | _, _ => false

/-- A well-formed set: null, or a node with at least one interval whose
intervals are valid, sorted and pairwise disjoint (`check_interval_set`) and
whose flag `m_full` is set exactly under `full_cond`. -/
def well_formed (s : interval_set_ptr α) : Bool :=
  match s with
  | none => true
  | some n =>
    !n.m_intervals.isEmpty && check_interval_set n.m_intervals &&
      (n.m_full == full_cond n.m_intervals)

/-- The services of the algebraic-number manager used by the witness
selection: `int_lt`, `int_gt`, `select` and `is_rational`. -/
structure anum_services (α : Type) where
  int_lt : α → α
  int_gt : α → α
  select : α → α → α
  is_rational : α → Bool

/-- The ways a call of `peek_in_complement` ends: it returns, leaving a value
in `w` and a state in `m_rand`; an assertion fails (debug builds only); or it
reads the interval array outside its bounds. -/
inductive peek_outcome (α : Type) where
  | returned (w : α) (m_rand : Nat → Nat) : peek_outcome α
  | assertion_violation : peek_outcome α
  | out_of_bounds : peek_outcome α

/-- The constant `MAX_RANDOM_DEN_K`. -/
def MAX_RANDOM_DEN_K : Nat := 4

/-- The test `n == 1 || m_rand() % n == 0` together with the state of the
generator after it. The generator `m_rand` is the stream of the numbers it
is going to return; a call returns the first and leaves the rest. -/
def replace_choice (n : Nat) (m_rand : Nat → Nat) : Bool × (Nat → Nat) :=
  if n = 1 then (true, m_rand)
  else (m_rand 0 % n == 0, fun k => m_rand (k + 1))

/-- The loop of `peek_in_complement` that looks for a gap between consecutive
intervals. The list holds the cells from `i - 1` on; the other arguments are
`n`, `w` and the generator. The result tells whether the function returned
from inside the loop, and gives `n`, `w` and the generator at that point. -/
def gap_loop (am : anum_services α) (randomize : Bool) :
    List (interval α) → Nat → α → (Nat → Nat) → Bool × Nat × α × (Nat → Nat)
  | prev :: next :: rest, n, w, m_rand =>
    if prev.m_upper < next.m_lower then
      let c := replace_choice (n + 1) m_rand
      let w := if c.1 then am.select prev.m_upper next.m_lower else w
      if !randomize then (true, n + 1, w, c.2)
      else gap_loop am randomize (next :: rest) (n + 1) w c.2
    else gap_loop am randomize (next :: rest) n w m_rand
  | _, n, w, m_rand => (false, n, w, m_rand)

/-- The loop of `peek_in_complement` that looks for a seam open on both sides.
The list holds the cells from `i - 1` on, the second argument is `i`, the third
is `irrational_i` (`none` for `UINT_MAX`). The result is the rational seam
value with which the function returns, or the final `irrational_i`. -/
def seam_loop (am : anum_services α) : List (interval α) → Nat → Option Nat → α ⊕ Option Nat
  | prev :: next :: rest, i, irrational_i =>
    if prev.m_upper_open && next.m_lower_open then
      if am.is_rational prev.m_upper then Sum.inl prev.m_upper
      else
        seam_loop am (next :: rest) (i + 1)
          (if irrational_i = none then some (i - 1) else irrational_i)
    else seam_loop am (next :: rest) (i + 1) irrational_i
  | _, _, irrational_i => Sum.inr irrational_i

/-- The part of `peek_in_complement` that follows `SASSERT(false)`: the search
for a gap, the return when a candidate region was found, and the search for a
seam. The arguments are the interval array and the values of `n`, `w` and the
generator at that point. -/
def peek_gap_seam (am : anum_services α) (randomize : Bool) (ints : List (interval α))
    (n : Nat) (w : α) (m_rand : Nat → Nat) : peek_outcome α :=
  let g := gap_loop am randomize ints n w m_rand
  if g.1 then peek_outcome.returned g.2.2.1 g.2.2.2
  else if g.2.1 > 0 then peek_outcome.returned g.2.2.1 g.2.2.2
  else
    match seam_loop am ints 1 none with
    | Sum.inl seam => peek_outcome.returned seam g.2.2.2
    | Sum.inr none => peek_outcome.out_of_bounds
    | Sum.inr (some irrational_i) =>
      match ints[irrational_i]? with
      | some cell => peek_outcome.returned cell.m_upper g.2.2.2
      | none => peek_outcome.out_of_bounds

/-- The function `peek_in_complement(s, is_int, w, randomize)`. `debug` tells
whether assertions are compiled in; `m_rand` is the state of the generator and
`w` the value of the output parameter at the call. -/
def peek_in_complement (am : anum_services α) (debug : Bool) (m_rand : Nat → Nat)
    (s : interval_set_ptr α) (is_int : Bool) (w : α) (randomize : Bool) : peek_outcome α :=
  if debug && is_full s then peek_outcome.assertion_violation
  else
    match s with
    | none =>
      if randomize then
        let num : Int := if m_rand 0 % 2 = 0 then 1 else -1
        let den_k := m_rand 1 % MAX_RANDOM_DEN_K
        let den : Int := if is_int then 1 else 2 ^ den_k
        peek_outcome.returned ((num : α) / (den : α)) (fun k => m_rand (k + 2))
      else peek_outcome.returned 0 m_rand
    | some node =>
      match node.m_intervals.head?, node.m_intervals.getLast? with
      | some first, some last =>
        let st1 : Nat × α :=
          if !first.m_lower_inf then (1, am.int_lt first.m_lower) else (0, w)
        if !first.m_lower_inf && !randomize then peek_outcome.returned st1.2 m_rand
        else
          let st2 : Nat × α × (Nat → Nat) :=
            if !last.m_upper_inf then
              let c := replace_choice (st1.1 + 1) m_rand
              (st1.1 + 1, if c.1 then am.int_gt last.m_upper else st1.2, c.2)
            else (st1.1, st1.2, m_rand)
          if !last.m_upper_inf && !randomize then peek_outcome.returned st2.2.1 st2.2.2
          else if debug then peek_outcome.assertion_violation
          else peek_gap_seam am randomize node.m_intervals st2.1 st2.2.1 st2.2.2
      | _, _ => peek_outcome.out_of_bounds

/-- The numerator drawn by `peek_in_complement` for the null set in the
randomized mode, `m_rand() % 2 == 0 ? 1 : -1`, from the first number of the
generator. -/
def random_num (m_rand : Nat → Nat) : Int :=
  if m_rand 0 % 2 = 0 then 1 else -1

/-- The denominator drawn by `peek_in_complement` for the null set in the
randomized mode, `is_int ? 1 : (1 << den_k)` with `den_k = m_rand() %
MAX_RANDOM_DEN_K` taken from the second number of the generator. -/
def random_den (is_int : Bool) (m_rand : Nat → Nat) : Int :=
  if is_int then 1 else 2 ^ (m_rand 1 % MAX_RANDOM_DEN_K)

/-- The first loop of `get_justifications`, over the intervals still to visit.
The bitmap `m_already_visited`, read with the default `false` beyond its size
and grown on writing, is a map from literal indices to Booleans; `js` and
`clauses` are the two output vectors. -/
def collect_justifications :
    List (interval α) → (Nat → Bool) → List literal → List Nat →
      (Nat → Bool) × List literal × List Nat
  | [], m_already_visited, js, clauses => (m_already_visited, js, clauses)
  | i :: rest, m_already_visited, js, clauses =>
    let l := i.m_justification
    let lidx := l.index
    if m_already_visited lidx then collect_justifications rest m_already_visited js clauses
    else
      collect_justifications rest (Function.update m_already_visited lidx true) (js ++ [l])
        (match i.m_clause with
        | some cls => clauses ++ [cls]
        | none => clauses)

/-- The second loop of `get_justifications`, which clears the bitmap at the
index of every justification of the set. -/
def reset_visited : List (interval α) → (Nat → Bool) → (Nat → Bool)
  | [], m_already_visited => m_already_visited
  | i :: rest, m_already_visited =>
    reset_visited rest (Function.update m_already_visited i.m_justification.index false)

/-- The function `get_justifications(s, js, clauses)`: the bitmap after the
call, the literals and the clauses. -/
def get_justifications (m_already_visited : Nat → Bool) (s : interval_set_ptr α) :
    (Nat → Bool) × List literal × List Nat :=
  let r := collect_justifications (intervals s) m_already_visited [] []
  (reset_visited (intervals s) r.1, r.2.1, r.2.2)

/-- Two pointers to nodes with identical contents: both null, or two nodes,
at the same address or not, with the same intervals and the same full flag. -/
def same_contents (s1 s2 : interval_set_ptr α) : Prop :=
  match s1, s2 with
  | none, none => True
  | some n1, some n2 => n1.m_intervals = n2.m_intervals ∧ n1.m_full = n2.m_full
  | _, _ => False

/-- The loop of `interval_set_manager::eq` over the cells of `s1` and of `s2`
from the index `i` on; `am.eq` is equality of numbers. -/
def eq_loop : List (interval α) → List (interval α) → Bool
  | int1 :: r1, int2 :: r2 =>
    if int1.m_lower_inf != int2.m_lower_inf ||
        int1.m_lower_open != int2.m_lower_open ||
        int1.m_upper_inf != int2.m_upper_inf ||
        int1.m_upper_open != int2.m_upper_open ||
        int1.m_justification != int2.m_justification ||
        !decide (int1.m_lower = int2.m_lower) ||
        !decide (int1.m_upper = int2.m_upper) then false
    else eq_loop r1 r2
  | _, _ => true

/-- The function `interval_set_manager::eq`. -/
def eq (s1 s2 : interval_set_ptr α) : Bool :=
  match s1, s2 with
  | some n1, some n2 =>
    if n1.m_num_intervals ≠ n2.m_num_intervals then false
    else eq_loop n1.m_intervals n2.m_intervals
  | _, _ => ptr_eq s1 s2

/-- The nodes held by the allocator, by address; `none` at an address that
holds no node. -/
abbrev node_store (α : Type) := Nat → Option (interval_set α)

/-- The function `interval_set_manager::del`: nothing for the null pointer,
otherwise the node is destroyed and its block handed back to the allocator. -/
def del (store : node_store α) (s : Option Nat) : node_store α :=
  match s with
  | none => store
  | some p => Function.update store p none

/-- The function `inc_ref`: `s->m_ref_count++` on the 31-bit field. The result
is `none` when `s` points to no node. -/
def inc_ref (store : node_store α) (s : Nat) : Option (node_store α) :=
  match store s with
  | none => none
  | some n =>
    some (Function.update store s (some { n with m_ref_count := (n.m_ref_count + 1) % 2 ^ 31 }))

/-- The function `dec_ref`: the assertion `m_ref_count > 0` (when `debug` is
set), the decrement on the 31-bit field, and `del` at zero. The result is
`none` when the assertion fails or `s` points to no node. -/
def dec_ref (debug : Bool) (store : node_store α) (s : Nat) : Option (node_store α) :=
  match store s with
  | none => none
  | some n =>
    if debug && decide (n.m_ref_count = 0) then none
    else
      let n' := { n with m_ref_count := (n.m_ref_count + (2 ^ 31 - 1)) % 2 ^ 31 }
      let store := Function.update store s (some n')
      if n'.m_ref_count = 0 then some (del store (some s)) else some store

/-- The macro `SASSERT(c)` in a build with assertions: the computation goes
on when `c` holds and stops otherwise. -/
def sassert {β : Type} (c : Bool) (k : Option β) : Option β :=
  if c then k else none

/-- The nine-argument `push_back` in a build with assertions: the appended
interval has to pass `check_interval`. -/
def push_back_debug (buf : List (interval α)) (lower_open lower_inf : Bool) (lower : α)
    (upper_open upper_inf : Bool) (upper : α) (justification : literal) :
    Option (List (interval α)) :=
  let buf := push_back buf lower_open lower_inf lower upper_open upper_inf upper justification
  match buf.getLast? with
  | some i => sassert (check_interval i) (some buf)
  | none => none

/-- The three-argument `push_back` in a build with assertions. -/
def push_back_interval_debug (buf : List (interval α)) (i : interval α) :
    Option (List (interval α)) :=
  push_back_debug buf i.m_lower_open i.m_lower_inf i.m_lower
    i.m_upper_open i.m_upper_inf i.m_upper i.m_justification

/-- The loops `while (i < sz) { push_back(m_am, result, s->m_intervals[i]); i++; }`
of `mk_union` in a build with assertions. -/
def copy_rest_debug : List (interval α) → List (interval α) → Option (List (interval α))
  | [], result => some result
  | i :: rest, result =>
    match push_back_interval_debug result i with
    | none => none
    | some result => copy_rest_debug rest result

/-- The condition of the assertion that ends an iteration of the merge pass:
`result.size() <= 1 || check_no_overlap(result[size - 2], result[size - 1])`. -/
def loop_end_check (result : List (interval α)) : Bool :=
  match result.reverse with
  | last :: before :: _ => check_no_overlap before last
  | _ => true

/-- The body of one iteration of the merge pass in a build with assertions, up
to the assertion that ends the iteration: the buffer and the cells of `s1` from
`i1` on and of `s2` from `i2` on after the iteration, or `none` when an
assertion fails. -/
def merge_body_debug (int1 int2 : interval α) (r1 r2 result : List (interval α)) :
    Option (List (interval α) × List (interval α) × List (interval α)) :=
  let l1_l2_sign := compare_lower_lower int1 int2
  let u1_u2_sign := compare_upper_upper int1 int2
  if l1_l2_sign ≤ 0 then
    if u1_u2_sign = 0 then
      (push_back_interval_debug result int1).map (fun result => (result, r1, r2))
    else if u1_u2_sign > 0 then
      some (result, int1 :: r1, r2)
    else
      sassert (decide (u1_u2_sign < 0))
        (let u1_l2_sign := compare_upper_lower int1 int2
        if u1_l2_sign < 0 then
          sassert (decide (l1_l2_sign < 0))
            ((push_back_interval_debug result int1).map (fun result => (result, r1, int2 :: r2)))
        else if u1_l2_sign = 0 then
          sassert (decide (l1_l2_sign ≤ 0))
            (sassert (!int1.m_upper_open && !int2.m_lower_open)
              (sassert (!int2.m_lower_inf)
                (if l1_l2_sign ≠ 0 then
                  sassert (decide (l1_l2_sign < 0))
                    (sassert (!int2.m_lower_open)
                      ((push_back_debug result int1.m_lower_open int1.m_lower_inf int1.m_lower
                        true false int1.m_upper int1.m_justification).map
                          (fun result => (result, r1, int2 :: r2))))
                else
                  sassert (decide (l1_l2_sign = 0)) (some (result, r1, int2 :: r2)))))
        else
          sassert (decide (l1_l2_sign ≤ 0))
            (sassert (decide (u1_u2_sign < 0))
              (sassert (decide (u1_l2_sign > 0))
                (if l1_l2_sign = 0 then some (result, r1, int2 :: r2)
                else
                  sassert (decide (l1_l2_sign < 0))
                    (sassert (decide (u1_u2_sign < 0))
                      (sassert (decide (u1_l2_sign > 0))
                        ((push_back_debug result int1.m_lower_open int1.m_lower_inf
                          int1.m_lower (!int2.m_lower_open) false int2.m_lower
                          int1.m_justification).map
                            (fun result => (result, r1, int2 :: r2)))))))))
  else
    sassert (decide (l1_l2_sign > 0))
      (if u1_u2_sign = 0 then
        (push_back_interval_debug result int2).map (fun result => (result, r1, r2))
      else if u1_u2_sign < 0 then
        some (result, r1, int2 :: r2)
      else
        let u2_l1_sign := compare_upper_lower int2 int1
        if u2_l1_sign < 0 then
          (push_back_interval_debug result int2).map (fun result => (result, int1 :: r1, r2))
        else if u2_l1_sign = 0 then
          sassert (!int1.m_lower_open && !int2.m_upper_open)
            (sassert (!int1.m_lower_inf)
              ((push_back_debug result int2.m_lower_open int2.m_lower_inf int2.m_lower
                true false int2.m_upper int2.m_justification).map
                  (fun result => (result, int1 :: r1, r2))))
        else
          sassert (decide (l1_l2_sign > 0))
            (sassert (decide (u1_u2_sign > 0))
              (sassert (decide (u2_l1_sign > 0))
                ((push_back_debug result int2.m_lower_open int2.m_lower_inf int2.m_lower
                  (!int1.m_lower_open) false int1.m_lower int2.m_justification).map
                    (fun result => (result, int1 :: r1, r2))))))

/-- The merge pass of `mk_union` in a build with assertions; the arguments are
those of `union_loop`, the result is `none` when an assertion fails. -/
def union_loop_debug : Nat → List (interval α) → List (interval α) → List (interval α) →
    Option (List (interval α))
  | 0, _, _, result => some result
  | _ + 1, [], l2, result => copy_rest_debug l2 result
  | _ + 1, int1 :: r1, [], result => copy_rest_debug (int1 :: r1) result
  | fuel + 1, int1 :: r1, int2 :: r2, result =>
    match merge_body_debug int1 int2 r1 r2 result with
    | none => none
    | some (result, l1, l2) =>
      sassert (loop_end_check result) (union_loop_debug fuel l1 l2 result)

/-- The function `adjacent` in a build with assertions: `none` when one of its
four assertions fails. -/
def adjacent_debug (curr next : interval α) : Option Bool :=
  sassert (!curr.m_upper_inf)
    (sassert (!next.m_lower_inf)
      (let sign := am_compare curr.m_upper next.m_lower
      sassert (decide (sign ≠ sign_pos))
        (if sign = 0 then
          sassert (curr.m_upper_open || next.m_lower_open)
            (some (!curr.m_upper_open || !next.m_lower_open))
        else some false)))

/-- The compression loop of `mk_union` in a build with assertions; the
arguments are those of `compress_loop`. `adjacent` is called only for two
cells with the same justification. -/
def compress_loop_debug (done : List (interval α)) (curr : interval α)
    (mid : List (interval α)) : List (interval α) → Option (List (interval α))
  | [] => some (done ++ [curr])
  | next :: rest =>
    match (if curr.m_justification = next.m_justification then adjacent_debug curr next
      else some false) with
    | none => none
    | some true =>
      compress_loop_debug done
        { curr with
          m_upper_inf := next.m_upper_inf
          m_upper_open := next.m_upper_open
          m_upper := next.m_upper }
        (mid ++ [{ next with m_upper := curr.m_upper }]) rest
    | some false =>
      match mid with
      | [] => compress_loop_debug (done ++ [curr]) next [] rest
      | next_curr :: mid' =>
        compress_loop_debug (done ++ [curr])
          { next_curr with
            m_lower_inf := next.m_lower_inf
            m_lower_open := next.m_lower_open
            m_lower := next.m_lower
            m_upper_inf := next.m_upper_inf
            m_upper_open := next.m_upper_open
            m_upper := next.m_upper
            m_justification := next.m_justification }
          (mid' ++ [{ next with m_lower := next_curr.m_lower, m_upper := next_curr.m_upper }])
          rest

/-- The loop of the full detection in a build with assertions. -/
def find_slack_debug : Bool → List (interval α) → Option Bool
  | true, _ => some true
  | false, a :: b :: rest =>
    match adjacent_debug a b with
    | none => none
    | some adj => find_slack_debug (!adj) (b :: rest)
  | false, _ => some false

/-- The function `interval_set_manager::mk_union` in a build with assertions:
`none` when an assertion fails, otherwise the pointer returned. -/
def mk_union_debug (mem : Nat) (s1 s2 : interval_set_ptr α) : Option (interval_set_ptr α) :=
  if s1 = none || ptr_eq s1 s2 then some s2
  else
    match s1, s2 with
    | none, _ => some s2
    | _, none => some s1
    | some n1, some n2 =>
      if n1.m_full then some s1
      else if n2.m_full then some s2
      else
        let sz1 := n1.m_num_intervals
        let sz2 := n2.m_num_intervals
        match union_loop_debug (sz1 + sz2) n1.m_intervals n2.m_intervals [] with
        | none => none
        | some result =>
          sassert (!result.isEmpty)
            (sassert (check_interval_set result)
              (match result with
              | [] => none
              | first :: rest =>
                match compress_loop_debug [] first [] rest with
                | none => none
                | some result =>
                  sassert (check_interval_set result)
                    (sassert (decide (result.length ≥ 1))
                      (let found_slack :=
                        match result.head?, result.getLast? with
                        | some r0, some rl => !r0.m_lower_inf || !rl.m_upper_inf
                        | _, _ => true
                      match find_slack_debug found_slack result with
                      | none => none
                      | some found_slack =>
                        let new_set := mk_interval mem result (!found_slack)
                        sassert (check_interval_set new_set.m_intervals)
                          (some (some new_set))))))

/-- The functions of the C library that `distribution::rand_GD` calls, on a
number type `D` that stands for `double`. -/
structure math_services (D : Type) where
  sqrt : D → D
  log : D → D
  exp : D → D
  cos : D → D

/-- The constant `distribution::RANDOM_PRECISION`. -/
def RANDOM_PRECISION : Nat := 8192

/-- The constant `distribution::PI`, 3.1415926. -/
def distribution_PI {D : Type} [Field D] : D := 31415926 / 10000000

/-- The function `distribution::rand_GD(i, j)`. `gen` is the stream of the
integers that `dis(gen)` is going to return; the result is the value returned
and the stream after the two draws. -/
def rand_GD {D : Type} [Field D] (m : math_services D) (gen : Nat → Nat) (i j : D) :
    D × (Nat → Nat) :=
  let u1 : D := ((gen 0 % RANDOM_PRECISION : Nat) : D) / (RANDOM_PRECISION : D)
  let u2 : D := ((gen 1 % RANDOM_PRECISION : Nat) : D) / (RANDOM_PRECISION : D)
  let r := i + m.sqrt j * m.sqrt (-2 * (m.log u1 / m.log (m.exp 1))) *
    m.cos (2 * distribution_PI * u2)
  (r, fun k => gen (k + 2))

/-- The function `distribution::CDF(z)` of a distribution with mean `m_exp` and
spread `m_var`; `NormSDist` is the function of that name. -/
def CDF {D : Type} [Field D] (NormSDist : D → D) (m_exp m_var z : D) : D :=
  NormSDist ((z - m_exp) / m_var)

/-- The function `distribution::PPF(z)` of a distribution with mean `m_exp` and
spread `m_var`; `normsinv` is the function of that name. -/
def PPF {D : Type} [Field D] (normsinv : D → D) (m_exp m_var z : D) : D :=
  normsinv z * m_var + m_exp

/-- No two consecutive intervals of the list are adjacent and carry the same
justification. -/
def no_fusable_pair (l : List (interval α)) : Prop :=
  ∀ (i : Nat) (a b : interval α), l[i]? = some a → l[i + 1]? = some b →
    ¬(adjacent a b = true ∧ a.m_justification = b.m_justification)

/-- The sets the engine builds: the empty set, the sets returned by `mk` on
arguments that pass its assertion, and the unions of such sets. -/
inductive produced : interval_set_ptr α → Prop where
  | empty : produced mk_empty
  | single (mem : Nat) (lower_open lower_inf : Bool) (lower : α)
      (upper_open upper_inf : Bool) (upper : α) (justification : literal) (cls : clause_ptr)
      (h : check_interval_set
        (intervals (mk mem lower_open lower_inf lower upper_open upper_inf upper
          justification cls)) = true) :
      produced (mk mem lower_open lower_inf lower upper_open upper_inf upper justification cls)
  | union (mem : Nat) (s1 s2 : interval_set_ptr α) (h1 : produced s1) (h2 : produced s2) :
      produced (mk_union mem s1 s2)

end defs

section examples

/-- The interval from `l` to `u` over the rationals, each end open or closed,
justified by the positive literal of variable `j`. -/
def bounded_interval (lower_open : Bool) (l : ℚ) (upper_open : Bool) (u : ℚ) (j : Nat) :
    interval ℚ :=
  { m_lower_open := lower_open
    m_upper_open := upper_open
    m_lower_inf := false
    m_upper_inf := false
    m_justification := ⟨j, false⟩
    m_clause := none
    m_lower := l
    m_upper := u }

/-- The closed interval `[l, u]` justified by the positive literal of variable `j`. -/
def closed_interval (l u : ℚ) (j : Nat) : interval ℚ :=
  bounded_interval false l false u j

/-- A node that is not full, at address `addr`. -/
def plain_set (addr : Nat) (l : List (interval ℚ)) : interval_set_ptr ℚ :=
  some { m_addr := addr, m_ref_count := 0, m_full := false, m_intervals := l }

/-- The set `{[1,2]}` justified by `L1`. -/
def set_A : interval_set_ptr ℚ := plain_set 1 [closed_interval 1 2 1]

/-- The set `{[4,5]}` justified by `L2`. -/
def set_B : interval_set_ptr ℚ := plain_set 2 [closed_interval 4 5 2]

/-- The set `{[0,1), [1,2]}` with both intervals justified by `L1`. -/
def set_S : interval_set_ptr ℚ :=
  plain_set 1 [bounded_interval false 0 true 1 1, closed_interval 1 2 1]

/-- The set `{[0,3]}` justified by `L2`. -/
def set_E : interval_set_ptr ℚ := plain_set 4 [closed_interval 0 3 2]

/-- The set `{[-5,5]}` justified by `L1`. -/
def set_F : interval_set_ptr ℚ := plain_set 7 [closed_interval (-5) 5 1]

/-- Services over the rationals: the largest integer below, the smallest
integer above, the midpoint, and the rationality test. -/
def rational_services : anum_services ℚ :=
  { int_lt := fun a => (⌈a⌉ : ℚ) - 1
    int_gt := fun a => (⌊a⌋ : ℚ) + 1
    select := fun a b => (a + b) / 2
    is_rational := fun _ => true }

/-- The set `{[1,2]}` justified by `L1`, in a second node. -/
def set_A_copy : interval_set_ptr ℚ := plain_set 8 [closed_interval 1 2 1]

/-- A node at address 9 that is full: the interval from minus infinity to
plus infinity justified by `L3`. -/
def set_full : interval_set ℚ :=
  { m_addr := 9
    m_ref_count := 0
    m_full := true
    m_intervals :=
      [{ m_lower_open := true
         m_upper_open := true
         m_lower_inf := true
         m_upper_inf := true
         m_justification := ⟨3, false⟩
         m_clause := none
         m_lower := 0
         m_upper := 0 }] }

/-- The node of `{[1,2]}` justified by `L1`. -/
def node_A : interval_set ℚ :=
  { m_addr := 1, m_ref_count := 0, m_full := false, m_intervals := [closed_interval 1 2 1] }

/-- The interval from `l` to `u` over the rationals, each end open or closed,
justified by the literal `L` with the clause `cls`. -/
def literal_interval (lower_open : Bool) (l : ℚ) (upper_open : Bool) (u : ℚ) (L : literal)
    (cls : clause_ptr) : interval ℚ :=
  { m_lower_open := lower_open
    m_upper_open := upper_open
    m_lower_inf := false
    m_upper_inf := false
    m_justification := L
    m_clause := cls
    m_lower := l
    m_upper := u }

/-- The set `{[1,3]}` justified by `L1`. -/
def set_C : interval_set_ptr ℚ := plain_set 1 [closed_interval 1 3 1]

/-- The set `{[2,4]}` justified by `L2`. -/
def set_D : interval_set_ptr ℚ := plain_set 2 [closed_interval 2 4 2]

/-- The set `{[1,2]}` justified by `L1` with the clause at address 10. -/
def set_A_clause : interval_set_ptr ℚ :=
  plain_set 1 [literal_interval false 1 false 2 ⟨1, false⟩ (some 10)]

/-- The set `{[4,5]}` justified by `L2` with the clause at address 20. -/
def set_B_clause : interval_set_ptr ℚ :=
  plain_set 2 [literal_interval false 4 false 5 ⟨2, false⟩ (some 20)]

/-- The set `{[1,2], [3,4], [5,6]}` whose first two intervals are justified by
`L1` and whose third is justified by `L2`. -/
def set_J : interval_set_ptr ℚ :=
  plain_set 10 [closed_interval 1 2 1, closed_interval 3 4 1, closed_interval 5 6 2]

/-- The interval `(-oo, 0]` justified by `L1`; the value stored for the
infinite endpoint is 0, as `mk` leaves it. -/
def ray_below_zero : interval ℚ :=
  { m_lower_open := true
    m_upper_open := false
    m_lower_inf := true
    m_upper_inf := false
    m_justification := ⟨1, false⟩
    m_clause := none
    m_lower := 0
    m_upper := 0 }

/-- The interval `[2, +oo)` justified by `L2`; the value stored for the
infinite endpoint is 0, as `mk` leaves it. -/
def ray_above_two : interval ℚ :=
  { m_lower_open := false
    m_upper_open := true
    m_lower_inf := false
    m_upper_inf := true
    m_justification := ⟨2, false⟩
    m_clause := none
    m_lower := 2
    m_upper := 0 }

/-- The set `{(-oo, 0], [2, +oo)}` justified by `L1` and `L2`. -/
def set_G : interval_set_ptr ℚ := plain_set 13 [ray_below_zero, ray_above_two]

/-- The set `{[0,1), (1,2]}` justified by `L1` and `L2`: its two intervals
touch at 1 and both are open there. -/
def set_P : interval_set_ptr ℚ :=
  plain_set 14 [bounded_interval false 0 true 1 1, bounded_interval true 1 false 2 2]

/-- A store whose only node is `{[1,2]}` at address 1, with reference count 0. -/
def store_A : node_store ℚ := fun p => if p = 1 then some node_A else none

/-- A store whose only node is `{[1,2]}` at address 1, with reference count 1. -/
def store_B : node_store ℚ :=
  fun p => if p = 1 then some { node_A with m_ref_count := 1 } else none

/-- The set `{(-oo, 1), (1, +oo)}` justified by `L1` and `L2`: every number but
1 is covered. -/
def set_Q : interval_set_ptr ℚ :=
  plain_set 16
    [{ m_lower_open := true
       m_upper_open := true
       m_lower_inf := true
       m_upper_inf := false
       m_justification := ⟨1, false⟩
       m_clause := none
       m_lower := 0
       m_upper := 1 },
     { m_lower_open := true
       m_upper_open := true
       m_lower_inf := false
       m_upper_inf := true
       m_justification := ⟨2, false⟩
       m_clause := none
       m_lower := 1
       m_upper := 0 }]

/-- The node of `{[1,2]}` justified by `L2`, at address 15. -/
def node_A2 : interval_set ℚ :=
  { m_addr := 15, m_ref_count := 0, m_full := false, m_intervals := [closed_interval 1 2 2] }

end examples

section auxiliary

variable {α : Type} [LinearOrderedField α]

/-- Positions on the line between which endpoints fall: below everything, just
below or just above a number, above everything. -/
abbrev cut (α : Type) := WithBot (WithTop (α ×ₗ Bool))

/-- The position just below (`false`) or just above (`true`) the number `v`. -/
def cfin (v : α) (hi : Bool) : cut α :=
  WithBot.some (WithTop.some (toLex (v, hi)))

/-- The position above everything. -/
def ctop : cut α := WithBot.some ⊤

/-- The position of the lower endpoint of an interval. -/
def lcut (i : interval α) : cut α :=
  if i.m_lower_inf then ⊥ else cfin i.m_lower i.m_lower_open

/-- The position of the upper endpoint of an interval. -/
def ucut (i : interval α) : cut α :=
  if i.m_upper_inf then ctop else cfin i.m_upper (!i.m_upper_open)

/-- The cell the nine-argument `push_back` appends. -/
def mk_cell (lower_open lower_inf : Bool) (lower : α) (upper_open upper_inf : Bool) (upper : α)
    (justification : literal) : interval α :=
  { m_lower_open := lower_open
    m_lower_inf := lower_inf
    m_upper_open := upper_open
    m_upper_inf := upper_inf
    m_justification := justification
    m_clause := none
    m_lower := lower
    m_upper := upper }

/-- The cell the three-argument `push_back` appends: a copy without the clause. -/
def copy_cell (i : interval α) : interval α :=
  mk_cell i.m_lower_open i.m_lower_inf i.m_lower i.m_upper_open i.m_upper_inf i.m_upper
    i.m_justification

/-- One iteration of the merge pass on the current intervals: the interval
appended to the buffer (if any), whether `i1` advances, whether `i2` advances. -/
def union_step (int1 int2 : interval α) : Option (interval α) × Bool × Bool :=
  if compare_lower_lower int1 int2 ≤ 0 then
    if compare_upper_upper int1 int2 = 0 then (some (copy_cell int1), true, true)
    else if compare_upper_upper int1 int2 > 0 then (none, false, true)
    else if compare_upper_lower int1 int2 < 0 then (some (copy_cell int1), true, false)
    else if compare_upper_lower int1 int2 = 0 then
      if compare_lower_lower int1 int2 ≠ 0 then
        (some (mk_cell int1.m_lower_open int1.m_lower_inf int1.m_lower true false int1.m_upper
          int1.m_justification), true, false)
      else (none, true, false)
    else if compare_lower_lower int1 int2 = 0 then (none, true, false)
    else
      (some (mk_cell int1.m_lower_open int1.m_lower_inf int1.m_lower (!int2.m_lower_open) false
        int2.m_lower int1.m_justification), true, false)
  else if compare_upper_upper int1 int2 = 0 then (some (copy_cell int2), true, true)
  else if compare_upper_upper int1 int2 < 0 then (none, true, false)
  else if compare_upper_lower int2 int1 < 0 then (some (copy_cell int2), false, true)
  else if compare_upper_lower int2 int1 = 0 then
    (some (mk_cell int2.m_lower_open int2.m_lower_inf int2.m_lower true false int2.m_upper
      int2.m_justification), false, true)
  else
    (some (mk_cell int2.m_lower_open int2.m_lower_inf int2.m_lower (!int1.m_lower_open) false
      int1.m_lower int2.m_justification), false, true)

/-- What a cell emitted by the merge pass has in common with the interval `src`
it is cut from: lower endpoint, justification, no clause, and an upper
endpoint that is a finite one or the one of `src`. -/
def cut_from (e src : interval α) : Prop :=
  lcut e = lcut src ∧ e.m_justification = src.m_justification ∧ e.m_clause = none ∧
    e.m_lower_inf = src.m_lower_inf ∧ e.m_lower_open = src.m_lower_open ∧
    e.m_lower = src.m_lower ∧
    (e.m_upper_inf = true → e.m_upper_open = src.m_upper_open ∧ src.m_upper_inf = true)

/-- Valid, sorted and pairwise disjoint: every interval passes `check_interval`
and ends before every later interval starts. -/
def good (l : List (interval α)) : Prop :=
  (∀ i ∈ l, check_interval i = true) ∧ l.Pairwise (fun a b => ucut a ≤ lcut b)

/-- Every interval of the list starts at or after the position `c`. -/
def lower_bounded (c : cut α) (l : List (interval α)) : Prop :=
  ∀ i ∈ l, c ≤ lcut i

/-- The cell `curr` after the compression fused `next` into it. -/
def fuse_cell (curr next : interval α) : interval α :=
  { curr with
    m_upper_inf := next.m_upper_inf
    m_upper_open := next.m_upper_open
    m_upper := next.m_upper }

/-- The interval `i` in a cell that keeps its own clause field `cl`. -/
def with_clause (i : interval α) (cl : clause_ptr) : interval α :=
  { i with m_clause := cl }

/-- The number `x` lies in an interval of the list whose justification is `j`. -/
def justified_by (l : List (interval α)) (j : literal) (x : α) : Prop :=
  ∃ i ∈ l, i.m_justification = j ∧ i.contains x

/-- No two consecutive intervals are adjacent with the same justification. -/
def compressed (l : List (interval α)) : Prop :=
  l.Chain' (fun a b => ¬(a.m_justification = b.m_justification ∧ adjacent a b = true))

/-- What the loops of `subset` decide from a given position: every number of
the rest of `s1` (in the inner loop, every such number from the start of the
current interval of `s2` on) lies in the rest of `s2`. -/
def subset_goal (outer : Bool) (l1 l2 : List (interval α)) : Prop :=
  ∀ x, (outer = false → ∀ i ∈ l2.head?, lcut i ≤ cfin x false) → covers l1 x → covers l2 x

/-- What the seam loop ends with: a seam value, the index of an interval
followed by a seam, or, with `irrational_i` still unset, the fact that no two
consecutive intervals are both open where they meet. -/
def seam_post (P : α → Prop) (L suf : List (interval α)) (irr : Option Nat) :
    α ⊕ Option Nat → Prop
  | Sum.inl v => P v
  | Sum.inr (some k) => ∃ c, L[k]? = some c ∧ P c.m_upper
  | Sum.inr none => irr = none ∧ List.Chain' (fun prev next =>
      ¬(prev.m_upper_open = true ∧ next.m_lower_open = true)) suf

/-- What is asked of a call of `peek_in_complement`: a returned value has the
property `P`, an assertion fails in debug builds only, and no read is out of
bounds. -/
def peek_post (P : α → Prop) (debug : Bool) : peek_outcome α → Prop
  | peek_outcome.returned w _ => P w
  | peek_outcome.assertion_violation => debug = true
  | peek_outcome.out_of_bounds => False

/-- The list of literals without the later repetitions of each literal. -/
def remove_later_repetitions : List literal → List literal
  | [] => []
  | a :: l => a :: (remove_later_repetitions l).filter (fun b => decide (b ≠ a))

/-- The intervals of a list at which a literal occurs for the first time. -/
def first_literal_intervals : List (interval α) → List (interval α)
  | [] => []
  | i :: l =>
    i :: (first_literal_intervals l).filter
      (fun k => decide (k.m_justification ≠ i.m_justification))

/-- The twelve rows of the emission table of the merge pass, from top to
bottom. -/
inductive table_row where
  | row1 | row2 | row3 | row4 | row5 | row6 | row7 | row8 | row9 | row10 | row11 | row12
deriving DecidableEq

/-- The condition under which a row of the emission table applies, on the
signs `L = L(1,2)`, `U = U(1,2)`, `UL12 = UL(1,2)` and `UL21 = UL(2,1)`. -/
def table_row.applies (L U UL12 UL21 : Int) : table_row → Prop
  | table_row.row1 => L ≤ 0 ∧ U = 0
  | table_row.row2 => L ≤ 0 ∧ U > 0
  | table_row.row3 => L ≤ 0 ∧ U < 0 ∧ UL12 < 0
  | table_row.row4 => L ≤ 0 ∧ U < 0 ∧ UL12 = 0 ∧ L < 0
  | table_row.row5 => L ≤ 0 ∧ U < 0 ∧ UL12 = 0 ∧ L = 0
  | table_row.row6 => L ≤ 0 ∧ U < 0 ∧ UL12 > 0 ∧ L = 0
  | table_row.row7 => L ≤ 0 ∧ U < 0 ∧ UL12 > 0 ∧ L < 0
  | table_row.row8 => L > 0 ∧ U = 0
  | table_row.row9 => L > 0 ∧ U < 0
  | table_row.row10 => L > 0 ∧ U > 0 ∧ UL21 < 0
  | table_row.row11 => L > 0 ∧ U > 0 ∧ UL21 = 0
  | table_row.row12 => L > 0 ∧ U > 0 ∧ UL21 > 0

/-- The interval `i` with its upper endpoint forced open. -/
def upper_forced_open (i : interval α) : interval α :=
  { i with m_upper_open := true }

/-- The part of `i` up to the lower endpoint of `j`: from the lower endpoint
of `i` to the value of the lower endpoint of `j`, the upper endpoint open
exactly when the lower endpoint of `j` is closed, with the justification of
`i`. -/
def head_part (i j : interval α) : interval α :=
  { i with m_upper := j.m_lower, m_upper_inf := false, m_upper_open := !j.m_lower_open }

/-- The action a row of the emission table names: the interval emitted (if
any), whether the cursor of `s1` advances, whether the cursor of `s2`
advances. -/
def table_row.action (i1 i2 : interval α) : table_row → Option (interval α) × Bool × Bool
  | table_row.row1 => (some i1, true, true)
  | table_row.row2 => (none, false, true)
  | table_row.row3 => (some i1, true, false)
  | table_row.row4 => (some (upper_forced_open i1), true, false)
  | table_row.row5 => (none, true, false)
  | table_row.row6 => (none, true, false)
  | table_row.row7 => (some (head_part i1 i2), true, false)
  | table_row.row8 => (some i2, true, true)
  | table_row.row9 => (none, true, false)
  | table_row.row10 => (some i2, false, true)
  | table_row.row11 => (some (upper_forced_open i2), false, true)
  | table_row.row12 => (some (head_part i2 i1), false, true)

/-- The witnesses of the interior gaps of strictly positive width, by
increasing index: the value `select` gives between the two endpoints. -/
def gap_candidates (am : anum_services α) : List (interval α) → List α
  | prev :: next :: rest =>
    (if prev.m_upper < next.m_lower then [am.select prev.m_upper next.m_lower] else []) ++
      gap_candidates am (next :: rest)
  | _ => []

/-- The witnesses of the candidate regions of a non-null set, in the order of
the reservoir rule: the left outer ray when the first lower endpoint is
finite, the right outer ray when the last upper endpoint is finite, then the
interior gaps. -/
def candidate_regions (am : anum_services α) (ints : List (interval α)) : List α :=
  (match ints.head? with
    | some first => if first.m_lower_inf then [] else [am.int_lt first.m_lower]
    | none => []) ++
  (match ints.getLast? with
    | some last => if last.m_upper_inf then [] else [am.int_gt last.m_upper]
    | none => []) ++
  gap_candidates am ints

/-- The reservoir rule over a list of candidates: `n` candidates were seen
before, `w` is the current choice. The next candidate is number `n + 1`; it
replaces the choice when `n + 1 = 1`, without a number drawn, and otherwise
when the number drawn for it is divisible by `n + 1`. -/
def reservoir : List α → Nat → α → (Nat → Nat) → Nat × α × (Nat → Nat)
  | [], n, w, m_rand => (n, w, m_rand)
  | c :: rest, n, w, m_rand =>
    if n + 1 = 1 then reservoir rest (n + 1) c m_rand
    else
      reservoir rest (n + 1) (if m_rand 0 % (n + 1) = 0 then c else w)
        (fun k => m_rand (k + 1))

/-- The values at which two consecutive intervals of the list meet with both
touching sides open, in the order of the list. -/
def seam_values : List (interval α) → List α
  | prev :: next :: rest =>
    (if prev.m_upper_open && next.m_lower_open then [prev.m_upper] else []) ++
      seam_values (next :: rest)
  | _ => []

/-- The index of the first interval of the list that meets its successor with
both touching sides open, the head of the list having the index `k`. -/
def first_seam_index : List (interval α) → Nat → Option Nat
  | prev :: next :: rest, k =>
    if prev.m_upper_open && next.m_lower_open then some k
    else first_seam_index (next :: rest) (k + 1)
  | _, _ => none

/-- The number of iterations of the merge pass of `mk_union`, the iteration
that copies the rest of one operand and leaves the loop included, from the
cells of `s1` from `i1` on and of `s2` from `i2` on; `none` when the loop is
still running after as many iterations as the first argument allows. -/
def union_loop_steps : Nat → List (interval α) → List (interval α) → Option Nat
  | 0, _, _ => none
  | _ + 1, [], _ => some 1
  | _ + 1, _ :: _, [] => some 1
  | fuel + 1, int1 :: r1, int2 :: r2 =>
    (union_loop_steps fuel (if (union_step int1 int2).2.1 then r1 else int1 :: r1)
      (if (union_step int1 int2).2.2 then r2 else int2 :: r2)).map (fun k => k + 1)

end auxiliary

end nlsat

namespace nlsat

set_option linter.unusedSectionVars false

section geometry

variable {α : Type} [LinearOrderedField α]

theorem cfin_le_cfin (a b : α) (p q : Bool) :
    cfin a p ≤ cfin b q ↔ a < b ∨ (a = b ∧ (p = true → q = true)) := by
  unfold cfin
  rw [WithBot.coe_le_coe, WithTop.coe_le_coe, Prod.Lex.le_iff]
  cases p <;> cases q <;> simp

theorem cfin_lt_cfin (a b : α) (p q : Bool) :
    cfin a p < cfin b q ↔ a < b ∨ (a = b ∧ p = false ∧ q = true) := by
  unfold cfin
  rw [WithBot.coe_lt_coe, WithTop.coe_lt_coe, Prod.Lex.lt_iff]
  cases p <;> cases q <;> simp

theorem cfin_eq_cfin (a b : α) (p q : Bool) :
    cfin a p = cfin b q ↔ a = b ∧ p = q := by
  unfold cfin
  rw [WithBot.coe_inj, WithTop.coe_inj]
  constructor
  · intro h
    have := congrArg ofLex h
    simpa using this
  · rintro ⟨rfl, rfl⟩; rfl

theorem cfin_lt_ctop (a : α) (p : Bool) : cfin a p < (ctop : cut α) := by
  unfold cfin ctop
  rw [WithBot.coe_lt_coe]
  exact WithTop.coe_lt_top _

theorem bot_lt_cfin (a : α) (p : Bool) : (⊥ : cut α) < cfin a p := by
  unfold cfin
  exact WithBot.bot_lt_coe _

theorem bot_lt_ctop : (⊥ : cut α) < (ctop : cut α) := by
  unfold ctop
  exact WithBot.bot_lt_coe _

theorem le_ctop (c : cut α) : c ≤ ctop := by
  unfold ctop
  cases c using WithBot.recBotCoe with
  | bot => exact bot_le
  | coe c => rw [WithBot.coe_le_coe]; exact le_top

theorem not_ctop_le_cfin (a : α) (p : Bool) : ¬ (ctop : cut α) ≤ cfin a p :=
  not_le.mpr (cfin_lt_ctop a p)

theorem not_cfin_le_bot (a : α) (p : Bool) : ¬ cfin a p ≤ (⊥ : cut α) :=
  not_le.mpr (bot_lt_cfin a p)

theorem not_ctop_le_bot : ¬ (ctop : cut α) ≤ (⊥ : cut α) :=
  not_le.mpr bot_lt_ctop

theorem not_ctop_lt (c : cut α) : ¬ (ctop : cut α) < c :=
  not_lt.mpr (le_ctop c)

theorem cfin_ne_ctop (a : α) (p : Bool) : cfin a p ≠ (ctop : cut α) :=
  (cfin_lt_ctop a p).ne

theorem cfin_ne_bot (a : α) (p : Bool) : cfin a p ≠ (⊥ : cut α) :=
  (bot_lt_cfin a p).ne'

theorem ctop_ne_bot : (ctop : cut α) ≠ (⊥ : cut α) :=
  bot_lt_ctop.ne'

/-- Every position is the bottom, the top, or next to a number. -/
theorem cut_cases (c : cut α) : c = ⊥ ∨ c = ctop ∨ ∃ a p, c = cfin a p := by
  cases c using WithBot.recBotCoe with
  | bot => exact Or.inl rfl
  | coe c =>
    cases c using WithTop.recTopCoe with
    | top => exact Or.inr (Or.inl rfl)
    | coe c => exact Or.inr (Or.inr ⟨(ofLex c).1, (ofLex c).2, rfl⟩)

theorem lcut_lt_ctop (i : interval α) : lcut i < ctop := by
  unfold lcut
  split_ifs
  · exact bot_lt_ctop
  · exact cfin_lt_ctop _ _

theorem bot_lt_ucut (i : interval α) : ⊥ < ucut i := by
  unfold ucut
  split_ifs
  · exact bot_lt_ctop
  · exact bot_lt_cfin _ _

/-- Nothing lies strictly between the two positions next to a number. -/
theorem lt_cfin_true_iff (c : cut α) (x : α) : c < cfin x true ↔ c ≤ cfin x false := by
  rcases cut_cases c with rfl | rfl | ⟨a, p, rfl⟩
  · simp [bot_lt_cfin]
  · simp only [not_ctop_lt, false_iff]
    exact not_ctop_le_cfin _ _
  · rw [cfin_lt_cfin, cfin_le_cfin]
    cases p <;> simp

theorem cfin_false_lt_iff (c : cut α) (x : α) : cfin x false < c ↔ cfin x true ≤ c := by
  rw [← not_le, ← lt_cfin_true_iff, not_lt]

/-- Between two positions in strict order there is a number. -/
theorem exists_between_cuts (c d : cut α) (h : c < d) :
    ∃ x : α, c ≤ cfin x false ∧ cfin x true ≤ d := by
  rcases cut_cases c with rfl | rfl | ⟨a, p, rfl⟩
  · rcases cut_cases d with rfl | rfl | ⟨b, q, rfl⟩
    · exact absurd h (lt_irrefl _)
    · exact ⟨0, bot_le, le_ctop _⟩
    · refine ⟨b - 1, bot_le, ?_⟩
      rw [cfin_le_cfin]; left; linarith
  · exact absurd h (not_ctop_lt _)
  · rcases cut_cases d with rfl | rfl | ⟨b, q, rfl⟩
    · exact absurd h.le (not_cfin_le_bot _ _)
    · refine ⟨a + 1, ?_, le_ctop _⟩
      rw [cfin_le_cfin]; left; linarith
    · rw [cfin_lt_cfin] at h
      rcases h with h | ⟨rfl, rfl, rfl⟩
      · refine ⟨(a + b) / 2, ?_, ?_⟩
        · rw [cfin_le_cfin]; left; linarith
        · rw [cfin_le_cfin]; left; linarith
      · exact ⟨a, le_refl _, le_refl _⟩

theorem lower_ok_iff (i : interval α) (x : α) : i.lower_ok x ↔ lcut i ≤ cfin x false := by
  unfold interval.lower_ok lcut
  split_ifs with h
  · simp [h]
  · rw [cfin_le_cfin]
    simp only [h, Bool.false_eq_true, false_or]
    cases i.m_lower_open <;> simp

theorem upper_ok_iff (i : interval α) (x : α) : i.upper_ok x ↔ cfin x true ≤ ucut i := by
  unfold interval.upper_ok ucut
  split_ifs with h
  · simp [h, le_ctop]
  · rw [cfin_le_cfin]
    simp only [h, Bool.false_eq_true, false_or]
    cases i.m_upper_open <;> simp

theorem contains_iff (i : interval α) (x : α) :
    i.contains x ↔ lcut i ≤ cfin x false ∧ cfin x true ≤ ucut i := by
  unfold interval.contains
  rw [lower_ok_iff, upper_ok_iff]

theorem am_compare_lt_zero (a b : α) : am_compare a b < 0 ↔ a < b := by
  unfold am_compare sign_neg sign_zero sign_pos
  split_ifs with h1 h2 <;> simp [h1]

theorem am_compare_eq_zero (a b : α) : am_compare a b = 0 ↔ a = b := by
  unfold am_compare sign_neg sign_zero sign_pos
  split_ifs with h1 h2
  · simp [h1.ne]
  · simp [h2]
  · simp [h2]

theorem am_compare_le_zero (a b : α) : am_compare a b ≤ 0 ↔ a ≤ b := by
  unfold am_compare sign_neg sign_zero sign_pos
  split_ifs with h1 h2
  · simp [h1.le]
  · simp [h2]
  · simp only [Int.reduceLE, false_iff, not_le]
    exact lt_of_le_of_ne (not_lt.mp h1) (Ne.symm h2)

theorem compare_lower_lower_lt (i1 i2 : interval α) :
    compare_lower_lower i1 i2 < 0 ↔ lcut i1 < lcut i2 := by
  unfold compare_lower_lower lcut am_compare sign_neg sign_zero sign_pos
  cases h1 : i1.m_lower_inf <;> cases h2 : i2.m_lower_inf <;>
    simp [bot_lt_cfin, cfin_lt_cfin]
  rcases lt_trichotomy i1.m_lower i2.m_lower with h | h | h
  · simp [h]
  · cases i1.m_lower_open <;> cases i2.m_lower_open <;> simp [h]
  · simp [h, not_lt.mpr h.le, h.ne']

theorem compare_lower_lower_eq (i1 i2 : interval α) :
    compare_lower_lower i1 i2 = 0 ↔ lcut i1 = lcut i2 := by
  unfold compare_lower_lower lcut am_compare sign_neg sign_zero sign_pos
  cases h1 : i1.m_lower_inf <;> cases h2 : i2.m_lower_inf <;>
    simp [cfin_ne_bot, (cfin_ne_bot _ _).symm, cfin_eq_cfin]
  rcases lt_trichotomy i1.m_lower i2.m_lower with h | h | h
  · simp [h, h.ne]
  · cases i1.m_lower_open <;> cases i2.m_lower_open <;> simp [h]
  · simp [h, not_lt.mpr h.le, h.ne']

theorem compare_lower_lower_le (i1 i2 : interval α) :
    compare_lower_lower i1 i2 ≤ 0 ↔ lcut i1 ≤ lcut i2 := by
  rw [le_iff_lt_or_eq, le_iff_lt_or_eq, compare_lower_lower_lt, compare_lower_lower_eq]

theorem compare_upper_upper_lt (i1 i2 : interval α) :
    compare_upper_upper i1 i2 < 0 ↔ ucut i1 < ucut i2 := by
  unfold compare_upper_upper ucut am_compare sign_neg sign_zero sign_pos
  cases h1 : i1.m_upper_inf <;> cases h2 : i2.m_upper_inf <;>
    simp [cfin_lt_ctop, cfin_lt_cfin, not_ctop_lt]
  rcases lt_trichotomy i1.m_upper i2.m_upper with h | h | h
  · simp [h]
  · cases i1.m_upper_open <;> cases i2.m_upper_open <;> simp [h]
  · simp [h, not_lt.mpr h.le, h.ne']

theorem compare_upper_upper_eq (i1 i2 : interval α) :
    compare_upper_upper i1 i2 = 0 ↔ ucut i1 = ucut i2 := by
  unfold compare_upper_upper ucut am_compare sign_neg sign_zero sign_pos
  cases h1 : i1.m_upper_inf <;> cases h2 : i2.m_upper_inf <;>
    simp [cfin_ne_ctop, (cfin_ne_ctop _ _).symm, cfin_eq_cfin]
  rcases lt_trichotomy i1.m_upper i2.m_upper with h | h | h
  · simp [h, h.ne]
  · cases i1.m_upper_open <;> cases i2.m_upper_open <;> simp [h]
  · simp [h, not_lt.mpr h.le, h.ne']

theorem compare_upper_upper_gt (i1 i2 : interval α) :
    0 < compare_upper_upper i1 i2 ↔ ucut i2 < ucut i1 := by
  rw [← not_le, le_iff_lt_or_eq, compare_upper_upper_lt, compare_upper_upper_eq,
    ← le_iff_lt_or_eq, not_le]

theorem compare_upper_lower_lt (i1 i2 : interval α) :
    compare_upper_lower i1 i2 < 0 ↔ ucut i1 ≤ lcut i2 := by
  unfold compare_upper_lower ucut lcut am_compare sign_neg sign_zero sign_pos
  cases h1 : i1.m_upper_inf <;> cases h2 : i2.m_lower_inf <;>
    simp [cfin_le_cfin, not_cfin_le_bot, not_ctop_le_cfin, not_ctop_le_bot, cfin_ne_bot, ctop_ne_bot]
  rcases lt_trichotomy i1.m_upper i2.m_lower with h | h | h
  · simp [h]
  · cases i1.m_upper_open <;> cases i2.m_lower_open <;> simp [h]
  · simp [h, not_lt.mpr h.le, h.ne']

theorem compare_upper_lower_eq (i1 i2 : interval α) :
    compare_upper_lower i1 i2 = 0 ↔
      i1.m_upper_inf = false ∧ i2.m_lower_inf = false ∧ i1.m_upper = i2.m_lower ∧
        i1.m_upper_open = false ∧ i2.m_lower_open = false := by
  unfold compare_upper_lower am_compare sign_neg sign_zero sign_pos
  cases h1 : i1.m_upper_inf <;> cases h2 : i2.m_lower_inf <;> simp
  rcases lt_trichotomy i1.m_upper i2.m_lower with h | h | h
  · simp [h, h.ne]
  · cases i1.m_upper_open <;> cases i2.m_lower_open <;> simp [h]
  · simp [h, not_lt.mpr h.le, h.ne']

theorem check_no_overlap_iff (curr next : interval α) :
    check_no_overlap curr next = true ↔ ucut curr ≤ lcut next := by
  unfold check_no_overlap ucut lcut
  cases h1 : curr.m_upper_inf <;> cases h2 : next.m_lower_inf <;>
    simp [cfin_le_cfin, not_cfin_le_bot, not_ctop_le_cfin, not_ctop_le_bot, cfin_ne_bot, ctop_ne_bot,
      am_compare_le_zero, am_compare_eq_zero]
  rcases lt_trichotomy curr.m_upper next.m_lower with h | h | h
  · simp [h, h.le, h.ne]
  · cases curr.m_upper_open <;> cases next.m_lower_open <;> simp [h]
  · simp [h, not_lt.mpr h.le, h.ne', not_le.mpr h]

theorem check_interval_iff (i : interval α) :
    check_interval i = true ↔
      (i.m_lower_inf = true → i.m_lower_open = true) ∧
        (i.m_upper_inf = true → i.m_upper_open = true) ∧ lcut i < ucut i := by
  unfold check_interval ucut lcut
  cases h1 : i.m_lower_inf <;> cases h2 : i.m_upper_inf <;>
    simp [cfin_lt_cfin, bot_lt_cfin, cfin_lt_ctop, bot_lt_ctop, am_compare_le_zero,
      am_compare_eq_zero]
  rcases lt_trichotomy i.m_lower i.m_upper with h | h | h
  · simp [h, h.le, h.ne]
  · cases i.m_upper_open <;> cases i.m_lower_open <;> simp [h]
  · simp [h, not_lt.mpr h.le, h.ne', not_le.mpr h]

theorem adjacent_iff_of_no_overlap (curr next : interval α)
    (h : ucut curr ≤ lcut next) : adjacent curr next = true ↔ ucut curr = lcut next := by
  revert h
  unfold adjacent ucut lcut
  cases h1 : curr.m_upper_inf <;> cases h2 : next.m_lower_inf <;>
    simp [cfin_le_cfin, cfin_eq_cfin, not_cfin_le_bot, not_ctop_le_cfin, not_ctop_le_bot, cfin_ne_bot, ctop_ne_bot,
      am_compare_eq_zero]
  rcases lt_trichotomy curr.m_upper next.m_lower with h | h | h
  · simp [h, h.ne]
  · cases curr.m_upper_open <;> cases next.m_lower_open <;> simp [h]
  · simp [h, not_lt.mpr h.le, h.ne']

end geometry

section merge

variable {α : Type} [LinearOrderedField α]

theorem push_back_interval_eq (buf : List (interval α)) (i : interval α) :
    push_back_interval buf i = buf ++ [copy_cell i] := rfl

theorem foldl_push_back_interval (l buf : List (interval α)) :
    l.foldl push_back_interval buf = buf ++ l.map copy_cell := by
  induction l generalizing buf with
  | nil => simp
  | cons a l ih => simp [List.foldl, ih, push_back_interval_eq]

/-- The buffer only grows at its end. -/
theorem union_loop_acc (fuel : Nat) (l1 l2 result : List (interval α)) :
    union_loop fuel l1 l2 result = result ++ union_loop fuel l1 l2 [] := by
  induction fuel generalizing l1 l2 result with
  | zero => simp [union_loop]
  | succ fuel ih =>
    cases l1 with
    | nil => simp [union_loop, foldl_push_back_interval]
    | cons int1 r1 =>
      cases l2 with
      | nil => simp [union_loop, foldl_push_back_interval, push_back_interval_eq]
      | cons int2 r2 =>
        simp only [union_loop, push_back_interval_eq, push_back]
        split_ifs <;>
          first
          | exact ih _ _ _
          | (rw [ih _ _ (result ++ _), ih _ _ ([] ++ _)]; simp)

/-- One turn of the merge loop in terms of `union_step`. -/
theorem union_loop_cons_cons (fuel : Nat) (int1 int2 : interval α) (r1 r2 : List (interval α)) :
    union_loop (fuel + 1) (int1 :: r1) (int2 :: r2) [] =
      (union_step int1 int2).1.toList ++
        union_loop fuel (if (union_step int1 int2).2.1 then r1 else int1 :: r1)
          (if (union_step int1 int2).2.2 then r2 else int2 :: r2) [] := by
  have key : ∀ e : interval α, ∀ l1 l2 : List (interval α),
      union_loop fuel l1 l2 [e] = e :: union_loop fuel l1 l2 [] := by
    intro e l1 l2
    rw [union_loop_acc]; rfl
  by_cases h1 : compare_lower_lower int1 int2 ≤ 0 <;>
  by_cases h2 : compare_upper_upper int1 int2 = 0 <;>
  by_cases h3 : compare_upper_upper int1 int2 > 0 <;>
  by_cases h3' : compare_upper_upper int1 int2 < 0 <;>
  by_cases h4 : compare_upper_lower int1 int2 < 0 <;>
  by_cases h5 : compare_upper_lower int1 int2 = 0 <;>
  by_cases h6 : compare_lower_lower int1 int2 = 0 <;>
  by_cases h7 : compare_upper_lower int2 int1 < 0 <;>
  by_cases h8 : compare_upper_lower int2 int1 = 0 <;>
  simp [union_loop, union_step, push_back_interval_eq, push_back, copy_cell, mk_cell, key,
    h1, h2, h3, h3', h4, h5, h6, h7, h8]

theorem lcut_mk_cell (lo li : Bool) (l : α) (uo ui : Bool) (u : α) (j : literal) :
    lcut (mk_cell lo li l uo ui u j) = if li then ⊥ else cfin l lo := rfl

theorem ucut_mk_cell (lo li : Bool) (l : α) (uo ui : Bool) (u : α) (j : literal) :
    ucut (mk_cell lo li l uo ui u j) = if ui then ctop else cfin u (!uo) := rfl

theorem lcut_copy_cell (i : interval α) : lcut (copy_cell i) = lcut i := rfl

theorem ucut_copy_cell (i : interval α) : ucut (copy_cell i) = ucut i := rfl

theorem check_interval_copy_cell (i : interval α) :
    check_interval (copy_cell i) = check_interval i := rfl

theorem cut_from_copy_cell (i : interval α) : cut_from (copy_cell i) i :=
  ⟨rfl, rfl, rfl, rfl, rfl, rfl, fun h => ⟨rfl, h⟩⟩

/-- The case analysis of one merge iteration, in terms of endpoint positions. -/
theorem union_step_cases (i1 i2 : interval α) :
    (lcut i1 ≤ lcut i2 ∧ ucut i1 = ucut i2 ∧
        union_step i1 i2 = (some (copy_cell i1), true, true)) ∨
    (lcut i1 ≤ lcut i2 ∧ ucut i2 < ucut i1 ∧ union_step i1 i2 = (none, false, true)) ∨
    (lcut i1 ≤ lcut i2 ∧ ucut i1 < ucut i2 ∧ ucut i1 ≤ lcut i2 ∧
        union_step i1 i2 = (some (copy_cell i1), true, false)) ∨
    (lcut i1 < lcut i2 ∧ ucut i1 < ucut i2 ∧ lcut i2 < ucut i1 ∧
        ∃ e, union_step i1 i2 = (some e, true, false) ∧ cut_from e i1 ∧ ucut e = lcut i2) ∨
    (lcut i1 = lcut i2 ∧ ucut i1 < ucut i2 ∧ union_step i1 i2 = (none, true, false)) ∨
    (lcut i2 < lcut i1 ∧ ucut i1 = ucut i2 ∧
        union_step i1 i2 = (some (copy_cell i2), true, true)) ∨
    (lcut i2 < lcut i1 ∧ ucut i1 < ucut i2 ∧ union_step i1 i2 = (none, true, false)) ∨
    (lcut i2 < lcut i1 ∧ ucut i2 < ucut i1 ∧ ucut i2 ≤ lcut i1 ∧
        union_step i1 i2 = (some (copy_cell i2), false, true)) ∨
    (lcut i2 < lcut i1 ∧ ucut i2 < ucut i1 ∧ lcut i1 < ucut i2 ∧
        ∃ e, union_step i1 i2 = (some e, false, true) ∧ cut_from e i2 ∧ ucut e = lcut i1) := by
  by_cases h1 : compare_lower_lower i1 i2 ≤ 0
  · have hl := (compare_lower_lower_le i1 i2).mp h1
    by_cases h2 : compare_upper_upper i1 i2 = 0
    · left
      exact ⟨hl, (compare_upper_upper_eq i1 i2).mp h2, by simp [union_step, h1, h2]⟩
    by_cases h3 : compare_upper_upper i1 i2 > 0
    · right; left
      exact ⟨hl, (compare_upper_upper_gt i1 i2).mp h3, by simp [union_step, h1, h2, h3]⟩
    have hu : ucut i1 < ucut i2 := by
      rw [← compare_upper_upper_lt]; omega
    by_cases h4 : compare_upper_lower i1 i2 < 0
    · right; right; left
      exact ⟨hl, hu, (compare_upper_lower_lt i1 i2).mp h4, by simp [union_step, h1, h2, h3, h4]⟩
    have hul : lcut i2 < ucut i1 := by
      rw [compare_upper_lower_lt] at h4
      exact not_le.mp h4
    by_cases h6 : compare_lower_lower i1 i2 = 0
    · right; right; right; right; left
      refine ⟨(compare_lower_lower_eq i1 i2).mp h6, hu, ?_⟩
      by_cases h5 : compare_upper_lower i1 i2 = 0 <;> simp [union_step, h1, h2, h3, h4, h5, h6]
    have hll : lcut i1 < lcut i2 := lt_of_le_of_ne hl (fun h => h6 ((compare_lower_lower_eq i1 i2).mpr h))
    right; right; right; left
    refine ⟨hll, hu, hul, ?_⟩
    by_cases h5 : compare_upper_lower i1 i2 = 0
    · refine ⟨mk_cell i1.m_lower_open i1.m_lower_inf i1.m_lower true false i1.m_upper
          i1.m_justification, by simp [union_step, h1, h2, h3, h4, h5, h6], ?_, ?_⟩
      · exact ⟨rfl, rfl, rfl, rfl, rfl, rfl, fun h => by simp [mk_cell] at h⟩
      · obtain ⟨-, e2, e3, -, e5⟩ := (compare_upper_lower_eq i1 i2).mp h5
        simp [ucut_mk_cell, lcut, e2, e3, e5]
    · refine ⟨mk_cell i1.m_lower_open i1.m_lower_inf i1.m_lower (!i2.m_lower_open) false
          i2.m_lower i1.m_justification, by simp [union_step, h1, h2, h3, h4, h5, h6], ?_, ?_⟩
      · exact ⟨rfl, rfl, rfl, rfl, rfl, rfl, fun h => by simp [mk_cell] at h⟩
      · have e2 : i2.m_lower_inf = false := by
          by_contra hc
          simp only [Bool.not_eq_false] at hc
          simp [lcut, hc] at hll
        simp [ucut_mk_cell, lcut, e2]
  · have hl : lcut i2 < lcut i1 := by
      rw [compare_lower_lower_le] at h1
      exact not_le.mp h1
    right; right; right; right; right
    by_cases h2 : compare_upper_upper i1 i2 = 0
    · left
      exact ⟨hl, (compare_upper_upper_eq i1 i2).mp h2, by simp [union_step, h1, h2]⟩
    by_cases h3 : compare_upper_upper i1 i2 < 0
    · right; left
      exact ⟨hl, (compare_upper_upper_lt i1 i2).mp h3, by simp [union_step, h1, h2, h3]⟩
    have hu : ucut i2 < ucut i1 := by
      rw [← compare_upper_upper_gt]; omega
    by_cases h4 : compare_upper_lower i2 i1 < 0
    · right; right; left
      exact ⟨hl, hu, (compare_upper_lower_lt i2 i1).mp h4, by simp [union_step, h1, h2, h3, h4]⟩
    have hul : lcut i1 < ucut i2 := by
      rw [compare_upper_lower_lt] at h4
      exact not_le.mp h4
    right; right; right
    refine ⟨hl, hu, hul, ?_⟩
    by_cases h5 : compare_upper_lower i2 i1 = 0
    · refine ⟨mk_cell i2.m_lower_open i2.m_lower_inf i2.m_lower true false i2.m_upper
          i2.m_justification, by simp [union_step, h1, h2, h3, h4, h5], ?_, ?_⟩
      · exact ⟨rfl, rfl, rfl, rfl, rfl, rfl, fun h => by simp [mk_cell] at h⟩
      · obtain ⟨-, e2, e3, -, e5⟩ := (compare_upper_lower_eq i2 i1).mp h5
        simp [ucut_mk_cell, lcut, e2, e3, e5]
    · refine ⟨mk_cell i2.m_lower_open i2.m_lower_inf i2.m_lower (!i1.m_lower_open) false
          i1.m_lower i2.m_justification, by simp [union_step, h1, h2, h3, h4, h5], ?_, ?_⟩
      · exact ⟨rfl, rfl, rfl, rfl, rfl, rfl, fun h => by simp [mk_cell] at h⟩
      · have e2 : i1.m_lower_inf = false := by
          by_contra hc
          simp only [Bool.not_eq_false] at hc
          simp [lcut, hc] at hl
        simp [ucut_mk_cell, lcut, e2]

theorem contains_copy_cell (i : interval α) (x : α) :
    (copy_cell i).contains x ↔ i.contains x := by
  rw [contains_iff, contains_iff, lcut_copy_cell, ucut_copy_cell]

/-- An interval whose endpoints enclose those of another contains its numbers. -/
theorem contains_of_cuts (i j : interval α) (x : α) (h1 : lcut i ≤ lcut j)
    (h2 : ucut j ≤ ucut i) (hx : j.contains x) : i.contains x := by
  rw [contains_iff] at hx ⊢
  exact ⟨le_trans h1 hx.1, le_trans hx.2 h2⟩

/-- The prefix of `i` that ends where `j` starts, together with `j`, covers
what `i` and `j` cover. -/
theorem contains_head_part (e i j : interval α) (x : α) (h1 : lcut e = lcut i)
    (h2 : ucut e = lcut j) (h3 : lcut j ≤ ucut i) (h4 : ucut i ≤ ucut j) :
    (e.contains x ∨ j.contains x) ↔ (i.contains x ∨ j.contains x) := by
  simp only [contains_iff]
  constructor
  · rintro (⟨ha, hb⟩ | h)
    · left
      exact ⟨h1 ▸ ha, le_trans hb (h2 ▸ h3)⟩
    · exact Or.inr h
  · rintro (⟨ha, hb⟩ | h)
    · rcases le_or_lt (cfin x true) (lcut j) with hc | hc
      · left
        exact ⟨h1.symm ▸ ha, h2.symm ▸ hc⟩
      · right
        exact ⟨(lt_cfin_true_iff _ _).mp hc, le_trans hb h4⟩
    · exact Or.inr h

theorem union_step_progress (i1 i2 : interval α) :
    (union_step i1 i2).2.1 = true ∨ (union_step i1 i2).2.2 = true := by
  rcases union_step_cases i1 i2 with ⟨-, -, h⟩ | ⟨-, -, h⟩ | ⟨-, -, -, h⟩ | ⟨-, -, -, e, h, -⟩ |
    ⟨-, -, h⟩ | ⟨-, -, h⟩ | ⟨-, -, h⟩ | ⟨-, -, -, h⟩ | ⟨-, -, -, e, h, -⟩ <;> simp [h]

/-- One merge iteration keeps the numbers covered by the two current intervals:
they are covered by the emitted cell or by a current interval that stays. -/
theorem union_step_sem (i1 i2 : interval α) (x : α) :
    ((∃ e, (union_step i1 i2).1 = some e ∧ e.contains x) ∨
        ((union_step i1 i2).2.1 = false ∧ i1.contains x) ∨
        ((union_step i1 i2).2.2 = false ∧ i2.contains x)) ↔
      (i1.contains x ∨ i2.contains x) := by
  rcases union_step_cases i1 i2 with ⟨hl, hu, h⟩ | ⟨hl, hu, h⟩ | ⟨hl, hu, hul, h⟩ |
    ⟨hl, hu, hul, e, h, hc, he⟩ | ⟨hl, hu, h⟩ | ⟨hl, hu, h⟩ | ⟨hl, hu, h⟩ | ⟨hl, hu, hul, h⟩ |
    ⟨hl, hu, hul, e, h, hc, he⟩
  · simp only [h, Option.some.injEq, exists_eq_left', Bool.true_eq_false, false_and, or_false,
      contains_copy_cell]
    exact ⟨Or.inl, fun hx => hx.elim id (contains_of_cuts _ _ _ hl hu.symm.le)⟩
  · simp only [h, exists_false, false_or, Bool.true_eq_false, false_and, or_false, true_and,
      reduceCtorEq, false_and]
    exact ⟨Or.inl, fun hx => hx.elim id (contains_of_cuts _ _ _ hl hu.le)⟩
  · simp only [h, Option.some.injEq, exists_eq_left', Bool.true_eq_false, false_and, false_or,
      contains_copy_cell, true_and]
  · simp only [h, Option.some.injEq, exists_eq_left', Bool.true_eq_false, false_and, false_or,
      true_and]
    exact contains_head_part e i1 i2 x hc.1 he hul.le hu.le
  · simp only [h, exists_false, false_or, Bool.true_eq_false, false_and, or_false, true_and,
      reduceCtorEq, false_and]
    exact ⟨Or.inr, fun hx => hx.elim (contains_of_cuts _ _ _ hl.symm.le hu.le) id⟩
  · simp only [h, Option.some.injEq, exists_eq_left', Bool.true_eq_false, false_and, or_false,
      contains_copy_cell]
    exact ⟨Or.inr, fun hx => hx.elim (contains_of_cuts _ _ _ hl.le hu.le) id⟩
  · simp only [h, exists_false, false_or, Bool.true_eq_false, false_and, or_false, true_and,
      reduceCtorEq, false_and]
    exact ⟨Or.inr, fun hx => hx.elim (contains_of_cuts _ _ _ hl.le hu.le) id⟩
  · simp only [h, Option.some.injEq, exists_eq_left', Bool.true_eq_false, false_and, or_false,
      contains_copy_cell, true_and]
    exact or_comm
  · simp only [h, Option.some.injEq, exists_eq_left', Bool.true_eq_false, false_and, or_false,
      true_and]
    rw [contains_head_part e i2 i1 x hc.1 he hul.le hu.le]
    exact or_comm

/-- The cell emitted by one merge iteration: it is cut from one of the two
current intervals, is not empty, and ends before what remains to be merged. -/
theorem union_step_emit (i1 i2 e : interval α) (a1 a2 : Bool)
    (h : union_step i1 i2 = (some e, a1, a2)) (hv1 : lcut i1 < ucut i1)
    (hv2 : lcut i2 < ucut i2) :
    ((cut_from e i1 ∧ ucut e ≤ ucut i1 ∧ lcut i1 ≤ lcut i2) ∨
        (cut_from e i2 ∧ ucut e ≤ ucut i2 ∧ lcut i2 ≤ lcut i1)) ∧
      lcut e < ucut e ∧
      (if a1 then ucut e ≤ ucut i1 else ucut e ≤ lcut i1) ∧
      (if a2 then ucut e ≤ ucut i2 else ucut e ≤ lcut i2) := by
  rcases union_step_cases i1 i2 with ⟨hl, hu, h'⟩ | ⟨hl, hu, h'⟩ | ⟨hl, hu, hul, h'⟩ |
    ⟨hl, hu, hul, e', h', hc, he⟩ | ⟨hl, hu, h'⟩ | ⟨hl, hu, h'⟩ | ⟨hl, hu, h'⟩ |
    ⟨hl, hu, hul, h'⟩ | ⟨hl, hu, hul, e', h', hc, he⟩ <;>
    rw [h'] at h <;> simp only [Prod.mk.injEq, Option.some.injEq, reduceCtorEq, false_and] at h
  · obtain ⟨rfl, rfl, rfl⟩ := h
    exact ⟨Or.inl ⟨cut_from_copy_cell _, le_refl _, hl⟩, hv1, le_refl _, hu.le⟩
  · obtain ⟨rfl, rfl, rfl⟩ := h
    exact ⟨Or.inl ⟨cut_from_copy_cell _, le_refl _, hl⟩, hv1, le_refl _, hul⟩
  · obtain ⟨rfl, rfl, rfl⟩ := h
    refine ⟨Or.inl ⟨hc, he ▸ hul.le, hl.le⟩, ?_, ?_, ?_⟩
    · rw [hc.1, he]; exact hl
    · simp only [if_true]; exact he ▸ hul.le
    · simp only [Bool.false_eq_true, if_false]; exact he.le
  · obtain ⟨rfl, rfl, rfl⟩ := h
    exact ⟨Or.inr ⟨cut_from_copy_cell _, le_refl _, hl.le⟩, hv2, hu.symm.le, le_refl _⟩
  · obtain ⟨rfl, rfl, rfl⟩ := h
    exact ⟨Or.inr ⟨cut_from_copy_cell _, le_refl _, hl.le⟩, hv2, hul, le_refl _⟩
  · obtain ⟨rfl, rfl, rfl⟩ := h
    refine ⟨Or.inr ⟨hc, he ▸ hul.le, hl.le⟩, ?_, ?_, ?_⟩
    · rw [hc.1, he]; exact hl
    · simp only [Bool.false_eq_true, if_false]; exact he.le
    · simp only [if_true]; exact he ▸ hul.le

theorem lcut_lt_ucut (i : interval α) (h : check_interval i = true) : lcut i < ucut i :=
  ((check_interval_iff i).mp h).2.2

theorem good_nil : good ([] : List (interval α)) :=
  ⟨fun _ h => absurd h (List.not_mem_nil _), List.Pairwise.nil⟩

theorem good_cons_iff (a : interval α) (l : List (interval α)) :
    good (a :: l) ↔ check_interval a = true ∧ lower_bounded (ucut a) l ∧ good l := by
  unfold good lower_bounded
  rw [List.pairwise_cons]
  constructor
  · rintro ⟨h1, h2, h3⟩
    exact ⟨h1 a (List.mem_cons_self _ _), h2, fun i hi => h1 i (List.mem_cons_of_mem _ hi), h3⟩
  · rintro ⟨h1, h2, h3, h4⟩
    refine ⟨fun i hi => ?_, h2, h4⟩
    rcases List.mem_cons.mp hi with rfl | hi
    · exact h1
    · exact h3 i hi

theorem good_tail (a : interval α) (l : List (interval α)) (h : good (a :: l)) : good l :=
  ((good_cons_iff a l).mp h).2.2

theorem lower_bounded_mono (c d : cut α) (l : List (interval α)) (h : c ≤ d)
    (hl : lower_bounded d l) : lower_bounded c l :=
  fun i hi => le_trans h (hl i hi)

/-- In a good list a bound on the first interval bounds all of them. -/
theorem lower_bounded_cons (c : cut α) (a : interval α) (l : List (interval α))
    (hg : good (a :: l)) (h : c ≤ lcut a) : lower_bounded c (a :: l) := by
  obtain ⟨hv, hb, -⟩ := (good_cons_iff a l).mp hg
  intro i hi
  rcases List.mem_cons.mp hi with rfl | hi
  · exact h
  · exact le_trans h (le_trans (lcut_lt_ucut _ hv).le (hb i hi))

theorem check_interval_set_iff (l : List (interval α)) :
    check_interval_set l = true ↔ good l := by
  induction l with
  | nil => simp [check_interval_set, good_nil]
  | cons a l ih =>
    cases l with
    | nil =>
      simp [check_interval_set, good_cons_iff, good_nil, lower_bounded]
    | cons b l =>
      rw [good_cons_iff, ← ih]
      simp only [check_interval_set, Bool.and_eq_true, check_no_overlap_iff]
      constructor
      · rintro ⟨⟨h1, h2⟩, h3⟩
        exact ⟨h1, lower_bounded_cons _ _ _ (ih.mp h3) h2, h3⟩
      · rintro ⟨h1, h2, h3⟩
        exact ⟨⟨h1, h2 b (List.mem_cons_self _ _)⟩, h3⟩

theorem good_map_copy_cell (l : List (interval α)) (h : good l) : good (l.map copy_cell) := by
  induction l with
  | nil => exact good_nil
  | cons a l ih =>
    obtain ⟨h1, h2, h3⟩ := (good_cons_iff a l).mp h
    rw [List.map_cons, good_cons_iff]
    refine ⟨h1, ?_, ih h3⟩
    intro i hi
    obtain ⟨j, hj, rfl⟩ := List.mem_map.mp hi
    exact h2 j hj

theorem lower_bounded_map_copy_cell (c : cut α) (l : List (interval α))
    (h : lower_bounded c l) : lower_bounded c (l.map copy_cell) := by
  intro i hi
  obtain ⟨j, hj, rfl⟩ := List.mem_map.mp hi
  exact h j hj

theorem covers_map_copy_cell (l : List (interval α)) (x : α) :
    covers (l.map copy_cell) x ↔ covers l x := by
  unfold covers
  constructor
  · rintro ⟨i, hi, hx⟩
    obtain ⟨j, hj, rfl⟩ := List.mem_map.mp hi
    exact ⟨j, hj, (contains_copy_cell j x).mp hx⟩
  · rintro ⟨j, hj, hx⟩
    exact ⟨copy_cell j, List.mem_map.mpr ⟨j, hj, rfl⟩, (contains_copy_cell j x).mpr hx⟩

theorem covers_nil (x : α) : covers ([] : List (interval α)) x ↔ False := by
  simp [covers]

theorem covers_cons (a : interval α) (l : List (interval α)) (x : α) :
    covers (a :: l) x ↔ a.contains x ∨ covers l x := by
  simp [covers]

theorem covers_append (l1 l2 : List (interval α)) (x : α) :
    covers (l1 ++ l2) x ↔ covers l1 x ∨ covers l2 x := by
  simp [covers, or_and_right, exists_or]

theorem union_loop_nil_left (fuel : Nat) (l2 : List (interval α)) (h : 1 ≤ fuel) :
    union_loop fuel [] l2 [] = l2.map copy_cell := by
  obtain ⟨n, rfl⟩ : ∃ n, fuel = n + 1 := ⟨fuel - 1, by omega⟩
  simp [union_loop, foldl_push_back_interval]

theorem union_loop_nil_right (fuel : Nat) (l1 : List (interval α)) (h : 1 ≤ fuel) :
    union_loop fuel l1 [] [] = l1.map copy_cell := by
  obtain ⟨n, rfl⟩ : ∃ n, fuel = n + 1 := ⟨fuel - 1, by omega⟩
  cases l1 <;> simp [union_loop, foldl_push_back_interval, push_back_interval_eq]

/-- Each merge iteration consumes an interval of one operand at least. -/
theorem union_step_length (int1 int2 : interval α) (r1 r2 : List (interval α)) :
    (if (union_step int1 int2).2.1 then r1 else int1 :: r1).length +
        (if (union_step int1 int2).2.2 then r2 else int2 :: r2).length ≤
      r1.length + r2.length + 1 := by
  rcases union_step_progress int1 int2 with hp | hp
  · cases h2 : (union_step int1 int2).2.2 <;> (simp [hp]; try omega)
  · cases h1 : (union_step int1 int2).2.1 <;> (simp [hp]; try omega)

/-- The bound on the iterations of the merge pass is never reached: from a
state with at most `fuel` intervals left, any larger bound gives the same buffer. -/
theorem union_loop_fuel (fuel k : Nat) (l1 l2 result : List (interval α))
    (hf : 1 ≤ fuel) (hlen : l1.length + l2.length ≤ fuel) :
    union_loop (fuel + k) l1 l2 result = union_loop fuel l1 l2 result := by
  rw [union_loop_acc (fuel + k), union_loop_acc fuel]
  congr 1
  induction fuel generalizing l1 l2 with
  | zero => omega
  | succ fuel ih =>
    cases l1 with
    | nil => rw [union_loop_nil_left _ _ hf, union_loop_nil_left _ _ (by omega)]
    | cons int1 r1 =>
      cases l2 with
      | nil => rw [union_loop_nil_right _ _ hf, union_loop_nil_right _ _ (by omega)]
      | cons int2 r2 =>
        simp only [List.length_cons] at hlen
        have hp := union_step_length int1 int2 r1 r2
        rw [Nat.add_right_comm, union_loop_cons_cons, union_loop_cons_cons,
          ih _ _ (by omega) (by omega)]

/-- The merge pass covers exactly what its two operands cover. -/
theorem union_loop_covers (fuel : Nat) (l1 l2 : List (interval α)) (x : α)
    (hf : 1 ≤ fuel) (hlen : l1.length + l2.length ≤ fuel) :
    covers (union_loop fuel l1 l2 []) x ↔ covers l1 x ∨ covers l2 x := by
  induction fuel generalizing l1 l2 with
  | zero => omega
  | succ fuel ih =>
    cases l1 with
    | nil => rw [union_loop_nil_left _ _ hf, covers_map_copy_cell]; simp [covers_nil]
    | cons int1 r1 =>
      cases l2 with
      | nil => rw [union_loop_nil_right _ _ hf, covers_map_copy_cell]; simp [covers_nil]
      | cons int2 r2 =>
        simp only [List.length_cons] at hlen
        have hp := union_step_length int1 int2 r1 r2
        have hs := union_step_sem int1 int2 x
        rw [union_loop_cons_cons, covers_append, ih _ _ (by omega) (by omega)]
        simp only [covers_cons]
        rw [or_or_or_comm, ← hs]
        cases h1 : (union_step int1 int2).2.1 <;> cases h2 : (union_step int1 int2).2.2 <;>
          cases h3 : (union_step int1 int2).1 <;>
          simp [covers, or_assoc, or_comm, or_left_comm]

theorem check_interval_of_cut_from (e src : interval α) (hc : cut_from e src)
    (hs : check_interval src = true) (hlt : lcut e < ucut e) : check_interval e = true := by
  obtain ⟨-, -, -, h4, h5, -, h7⟩ := hc
  obtain ⟨s1, s2, -⟩ := (check_interval_iff src).mp hs
  rw [check_interval_iff]
  refine ⟨fun h => ?_, fun h => ?_, hlt⟩
  · rw [h5]; exact s1 (h4 ▸ h)
  · obtain ⟨h8, h9⟩ := h7 h
    rw [h8]; exact s2 h9

theorem good_ite (a : Bool) (i : interval α) (r : List (interval α)) (h : good (i :: r)) :
    good (if a then r else i :: r) := by
  cases a
  · exact h
  · exact good_tail i r h

theorem lower_bounded_ite (a : Bool) (c : cut α) (i : interval α) (r : List (interval α))
    (h : lower_bounded c (i :: r)) : lower_bounded c (if a then r else i :: r) := by
  cases a
  · exact h
  · exact fun j hj => h j (List.mem_cons_of_mem _ hj)

theorem lower_bounded_ite_emit (a : Bool) (d : cut α) (i : interval α) (r : List (interval α))
    (hg : good (i :: r)) (h : if a then d ≤ ucut i else d ≤ lcut i) :
    lower_bounded d (if a then r else i :: r) := by
  cases a
  · exact lower_bounded_cons d i r hg h
  · exact lower_bounded_mono d (ucut i) r h ((good_cons_iff i r).mp hg).2.1

theorem mem_ite_cons (a : Bool) (i j : interval α) (r : List (interval α))
    (h : j ∈ (if a then r else i :: r)) : j ∈ i :: r := by
  cases a
  · exact h
  · exact List.mem_cons_of_mem _ h

/-- The merge pass on two good lists: its output is good, starts no earlier
than its operands, and each of its cells is cut from an operand interval. -/
theorem union_loop_spec (fuel : Nat) (l1 l2 : List (interval α)) (c : cut α)
    (hf : 1 ≤ fuel) (hlen : l1.length + l2.length ≤ fuel) (hg1 : good l1) (hg2 : good l2)
    (hb1 : lower_bounded c l1) (hb2 : lower_bounded c l2) :
    good (union_loop fuel l1 l2 []) ∧ lower_bounded c (union_loop fuel l1 l2 []) ∧
      ∀ e ∈ union_loop fuel l1 l2 [], ∃ src, (src ∈ l1 ∨ src ∈ l2) ∧ cut_from e src ∧
        ucut e ≤ ucut src := by
  induction fuel generalizing l1 l2 c with
  | zero => omega
  | succ fuel ih =>
    cases l1 with
    | nil =>
      rw [union_loop_nil_left _ _ hf]
      refine ⟨good_map_copy_cell _ hg2, lower_bounded_map_copy_cell _ _ hb2, fun e he => ?_⟩
      obtain ⟨j, hj, rfl⟩ := List.mem_map.mp he
      exact ⟨j, Or.inr hj, cut_from_copy_cell j, le_refl _⟩
    | cons int1 r1 =>
      cases l2 with
      | nil =>
        rw [union_loop_nil_right _ _ hf]
        refine ⟨good_map_copy_cell _ hg1, lower_bounded_map_copy_cell _ _ hb1, fun e he => ?_⟩
        obtain ⟨j, hj, rfl⟩ := List.mem_map.mp he
        exact ⟨j, Or.inl hj, cut_from_copy_cell j, le_refl _⟩
      | cons int2 r2 =>
        simp only [List.length_cons] at hlen
        have hp := union_step_length int1 int2 r1 r2
        have hv1 := ((good_cons_iff _ _).mp hg1).1
        have hv2 := ((good_cons_iff _ _).mp hg2).1
        rw [union_loop_cons_cons]
        rcases hstep : union_step int1 int2 with ⟨_ | e, a1, a2⟩
        · simp only [hstep] at hp
          simp only [Option.toList, List.nil_append]
          obtain ⟨k1, k2, k3⟩ := ih _ _ c (by omega) (by omega) (good_ite a1 _ _ hg1)
            (good_ite a2 _ _ hg2) (lower_bounded_ite a1 _ _ _ hb1)
            (lower_bounded_ite a2 _ _ _ hb2)
          refine ⟨k1, k2, fun e he => ?_⟩
          obtain ⟨src, hsrc, hcf⟩ := k3 e he
          exact ⟨src, hsrc.imp (mem_ite_cons _ _ _ _) (mem_ite_cons _ _ _ _), hcf⟩
        · simp only [hstep] at hp
          simp only [Option.toList, List.singleton_append]
          obtain ⟨hsrc, hlt, he1, he2⟩ := union_step_emit int1 int2 e a1 a2 hstep
            (lcut_lt_ucut _ hv1) (lcut_lt_ucut _ hv2)
          obtain ⟨k1, k2, k3⟩ := ih _ _ (ucut e) (by omega) (by omega) (good_ite a1 _ _ hg1)
            (good_ite a2 _ _ hg2) (lower_bounded_ite_emit a1 _ _ _ hg1 he1)
            (lower_bounded_ite_emit a2 _ _ _ hg2 he2)
          have hve : check_interval e = true := by
            rcases hsrc with ⟨hc, -, -⟩ | ⟨hc, -, -⟩
            · exact check_interval_of_cut_from e int1 hc hv1 hlt
            · exact check_interval_of_cut_from e int2 hc hv2 hlt
          have hge : good (e :: union_loop fuel (if a1 = true then r1 else int1 :: r1)
              (if a2 = true then r2 else int2 :: r2) []) :=
            (good_cons_iff _ _).mpr ⟨hve, k2, k1⟩
          have hce : c ≤ lcut e := by
            rcases hsrc with ⟨hc, -, -⟩ | ⟨hc, -, -⟩
            · rw [hc.1]; exact hb1 _ (List.mem_cons_self _ _)
            · rw [hc.1]; exact hb2 _ (List.mem_cons_self _ _)
          refine ⟨hge, lower_bounded_cons c e _ hge hce, fun e' he' => ?_⟩
          rcases List.mem_cons.mp he' with rfl | he'
          · rcases hsrc with ⟨hc, hu, -⟩ | ⟨hc, hu, -⟩
            · exact ⟨int1, Or.inl (List.mem_cons_self _ _), hc, hu⟩
            · exact ⟨int2, Or.inr (List.mem_cons_self _ _), hc, hu⟩
          · obtain ⟨src, hsrc', hcf⟩ := k3 e' he'
            exact ⟨src, hsrc'.imp (mem_ite_cons _ _ _ _) (mem_ite_cons _ _ _ _), hcf⟩

end merge

section compress

variable {α : Type} [LinearOrderedField α]

theorem compress_loop_acc (done : List (interval α)) (curr : interval α)
    (mid rest : List (interval α)) :
    compress_loop done curr mid rest = done ++ compress_loop [] curr mid rest := by
  induction rest generalizing done curr mid with
  | nil => simp [compress_loop]
  | cons next rest ih =>
    simp only [compress_loop]
    split_ifs with h
    · exact ih _ _ _
    · cases mid with
      | nil =>
        simp only []
        rw [ih (done ++ [curr]), ih ([] ++ [curr])]
        simp
      | cons next_curr mid' =>
        simp only []
        rw [ih (done ++ [curr]), ih ([] ++ [curr])]
        simp

/-- One turn of the compression loop. -/
theorem compress_loop_cons (curr next : interval α) (mid rest : List (interval α)) :
    (curr.m_justification = next.m_justification ∧ adjacent curr next = true ∧
        ∃ mid', compress_loop [] curr mid (next :: rest) =
          compress_loop [] (fuse_cell curr next) mid' rest) ∨
      (¬(curr.m_justification = next.m_justification ∧ adjacent curr next = true) ∧
        ∃ cl mid', compress_loop [] curr mid (next :: rest) =
          curr :: compress_loop [] (with_clause next cl) mid' rest) := by
  by_cases h : curr.m_justification = next.m_justification ∧ adjacent curr next = true
  · left
    have h' : (decide (curr.m_justification = next.m_justification) && adjacent curr next)
        = true := by
      simpa using h
    refine ⟨h.1, h.2, mid ++ [{ next with m_upper := curr.m_upper }], ?_⟩
    simp only [compress_loop]
    rw [if_pos h']
    rfl
  · right
    refine ⟨h, ?_⟩
    have h' : ¬((decide (curr.m_justification = next.m_justification) && adjacent curr next)
        = true) := by
      simpa using h
    cases mid with
    | nil =>
      refine ⟨next.m_clause, [], ?_⟩
      rw [compress_loop, if_neg h']
      rw [compress_loop_acc]
      rfl
    | cons next_curr mid' =>
      refine ⟨next_curr.m_clause,
        mid' ++ [{ next with m_lower := next_curr.m_lower, m_upper := next_curr.m_upper }], ?_⟩
      rw [compress_loop, if_neg h']
      rw [compress_loop_acc]
      rfl

theorem lcut_with_clause (i : interval α) (cl : clause_ptr) :
    lcut (with_clause i cl) = lcut i := rfl

theorem ucut_with_clause (i : interval α) (cl : clause_ptr) :
    ucut (with_clause i cl) = ucut i := rfl

theorem check_interval_with_clause (i : interval α) (cl : clause_ptr) :
    check_interval (with_clause i cl) = check_interval i := rfl

theorem contains_with_clause (i : interval α) (cl : clause_ptr) (x : α) :
    (with_clause i cl).contains x ↔ i.contains x := Iff.rfl

theorem lcut_fuse_cell (curr next : interval α) : lcut (fuse_cell curr next) = lcut curr := rfl

theorem ucut_fuse_cell (curr next : interval α) : ucut (fuse_cell curr next) = ucut next := rfl

theorem check_interval_fuse_cell (curr next : interval α) (h1 : check_interval curr = true)
    (h2 : check_interval next = true) (h3 : ucut curr ≤ lcut next) :
    check_interval (fuse_cell curr next) = true := by
  obtain ⟨a1, -, a3⟩ := (check_interval_iff curr).mp h1
  obtain ⟨-, b2, b3⟩ := (check_interval_iff next).mp h2
  rw [check_interval_iff]
  exact ⟨a1, b2, lt_of_lt_of_le a3 (le_trans h3 b3.le)⟩

/-- Fusing two intervals with no gap between them loses and adds no number. -/
theorem contains_fuse_cell (curr next : interval α) (x : α) (h1 : lcut curr < ucut curr)
    (h2 : lcut next < ucut next) (h3 : ucut curr = lcut next) :
    (fuse_cell curr next).contains x ↔ curr.contains x ∨ next.contains x := by
  simp only [contains_iff, lcut_fuse_cell, ucut_fuse_cell]
  constructor
  · rintro ⟨ha, hb⟩
    rcases le_or_lt (cfin x true) (ucut curr) with hc | hc
    · exact Or.inl ⟨ha, hc⟩
    · right
      rw [h3] at hc
      exact ⟨(lt_cfin_true_iff _ _).mp hc, hb⟩
  · rintro (⟨ha, hb⟩ | ⟨ha, hb⟩)
    · exact ⟨ha, le_trans hb (h3 ▸ h2.le)⟩
    · exact ⟨le_trans h1.le (h3 ▸ ha), hb⟩

theorem justified_by_mono (l1 l2 : List (interval α)) (j : literal) (x : α)
    (h : ∀ i ∈ l1, i ∈ l2) (hx : justified_by l1 j x) : justified_by l2 j x := by
  obtain ⟨i, hi, hj, hc⟩ := hx
  exact ⟨i, h i hi, hj, hc⟩

/-- The compression of a good buffer: the result is good and compressed, starts
like the buffer, covers what the buffer covers, and each of its cells is
covered by buffer cells of the same justification. -/
theorem compress_loop_spec (rest : List (interval α)) (curr : interval α)
    (mid : List (interval α)) (hg : good (curr :: rest)) :
    good (compress_loop [] curr mid rest) ∧
      (∃ o tl, compress_loop [] curr mid rest = o :: tl ∧ lcut o = lcut curr ∧
        o.m_justification = curr.m_justification) ∧
      compressed (compress_loop [] curr mid rest) ∧
      (∀ x, covers (curr :: rest) x → covers (compress_loop [] curr mid rest) x) ∧
      (∀ o ∈ compress_loop [] curr mid rest, ∀ x, o.contains x →
        justified_by (curr :: rest) o.m_justification x) := by
  induction rest generalizing curr mid with
  | nil =>
    simp only [compress_loop, List.nil_append]
    refine ⟨hg, ⟨curr, [], rfl, rfl, rfl⟩, List.chain'_singleton _, fun x h => h, ?_⟩
    intro o ho x hx
    rw [List.mem_singleton] at ho
    subst ho
    exact ⟨o, List.mem_cons_self _ _, rfl, hx⟩
  | cons next rest ih =>
    obtain ⟨hv1, hb1, hg1⟩ := (good_cons_iff _ _).mp hg
    obtain ⟨hv2, hb2, hg2⟩ := (good_cons_iff _ _).mp hg1
    have hno : ucut curr ≤ lcut next := hb1 next (List.mem_cons_self _ _)
    rcases compress_loop_cons curr next mid rest with ⟨hj, hadj, mid', heq⟩ |
      ⟨hnot, cl, mid', heq⟩
    · rw [heq]
      have hcut : ucut curr = lcut next := (adjacent_iff_of_no_overlap _ _ hno).mp hadj
      have hgf : good (fuse_cell curr next :: rest) :=
        (good_cons_iff _ _).mpr ⟨check_interval_fuse_cell _ _ hv1 hv2 hno, hb2, hg2⟩
      obtain ⟨k1, ⟨o, tl, k2, k3, k4⟩, k5, k6, k7⟩ := ih (fuse_cell curr next) mid' hgf
      refine ⟨k1, ⟨o, tl, k2, k3, k4⟩, k5, fun x hx => k6 x ?_, fun o' ho' x hx => ?_⟩
      · rw [covers_cons, covers_cons] at hx
        rw [covers_cons, contains_fuse_cell _ _ _ (lcut_lt_ucut _ hv1) (lcut_lt_ucut _ hv2) hcut]
        tauto
      · obtain ⟨i, hi, hij, hic⟩ := k7 o' ho' x hx
        rcases List.mem_cons.mp hi with rfl | hi
        · rcases (contains_fuse_cell _ _ _ (lcut_lt_ucut _ hv1) (lcut_lt_ucut _ hv2) hcut).mp hic
            with hc | hc
          · exact ⟨curr, List.mem_cons_self _ _, hij, hc⟩
          · exact ⟨next, List.mem_cons_of_mem _ (List.mem_cons_self _ _), hj ▸ hij, hc⟩
        · exact ⟨i, List.mem_cons_of_mem _ (List.mem_cons_of_mem _ hi), hij, hic⟩
    · rw [heq]
      have hgn : good (with_clause next cl :: rest) := (good_cons_iff _ _).mpr ⟨hv2, hb2, hg2⟩
      obtain ⟨k1, ⟨o, tl, k2, k3, k4⟩, k5, k6, k7⟩ := ih (with_clause next cl) mid' hgn
      have hle : ucut curr ≤ lcut o := by rw [k3]; exact hno
      refine ⟨?_, ⟨curr, _, rfl, rfl, rfl⟩, ?_, fun x hx => ?_, fun o' ho' x hx => ?_⟩
      · refine (good_cons_iff _ _).mpr ⟨hv1, ?_, k1⟩
        rw [k2] at k1 ⊢
        exact lower_bounded_cons _ _ _ k1 hle
      · unfold compressed at k5 ⊢
        rw [k2] at k5 ⊢
        refine List.Chain'.cons ?_ k5
        rintro ⟨hj, hadj⟩
        apply hnot
        refine ⟨hj.trans k4, ?_⟩
        rw [adjacent_iff_of_no_overlap _ _ hno]
        rw [adjacent_iff_of_no_overlap _ _ hle, k3] at hadj
        exact hadj
      · rw [covers_cons] at hx ⊢
        rcases hx with hx | hx
        · exact Or.inl hx
        · exact Or.inr (k6 x ((covers_cons (with_clause next cl) rest x).mpr
            ((covers_cons next rest x).mp hx)))
      · rcases List.mem_cons.mp ho' with rfl | ho'
        · exact ⟨o', List.mem_cons_self _ _, rfl, hx⟩
        · obtain ⟨i, hi, hij, hic⟩ := k7 o' ho' x hx
          rcases List.mem_cons.mp hi with rfl | hi
          · exact ⟨next, List.mem_cons_of_mem _ (List.mem_cons_self _ _), hij, hic⟩
          · exact ⟨i, List.mem_cons_of_mem _ (List.mem_cons_of_mem _ hi), hij, hic⟩

end compress

section full

variable {α : Type} [LinearOrderedField α]

theorem find_slack_eq (b : Bool) (l : List (interval α)) :
    find_slack b l = (b || !all_adjacent l) := by
  induction l generalizing b with
  | nil => cases b <;> simp [find_slack, all_adjacent]
  | cons a l ih =>
    cases l with
    | nil => cases b <;> simp [find_slack, all_adjacent]
    | cons c l =>
      cases b
      · simp only [find_slack, ih, all_adjacent, Bool.false_or, Bool.not_and]
      · simp [find_slack]

/-- The full detection of `mk_union` computes `full_cond`. -/
theorem full_detection_eq (l : List (interval α)) :
    (!find_slack
        (match l.head?, l.getLast? with
        | some r0, some rl => !r0.m_lower_inf || !rl.m_upper_inf
        | _, _ => true) l) = full_cond l := by
  rw [find_slack_eq]
  unfold full_cond
  cases h1 : l.head? <;> cases h2 : l.getLast? <;> simp

theorem lcut_eq_bot_iff (i : interval α) : lcut i = ⊥ ↔ i.m_lower_inf = true := by
  unfold lcut
  cases i.m_lower_inf <;> simp [cfin_ne_bot]

theorem ucut_eq_ctop_iff (i : interval α) : ucut i = ctop ↔ i.m_upper_inf = true := by
  unfold ucut
  cases i.m_upper_inf <;> simp [cfin_ne_ctop]

theorem cfin_false_lt_true (x : α) : cfin x false < cfin x true := by
  rw [cfin_lt_cfin]; right; exact ⟨rfl, rfl, rfl⟩

/-- A number lies in no interval that starts after it. -/
theorem not_contains_of_le_lcut (i : interval α) (x : α) (h : cfin x true ≤ lcut i) :
    ¬ i.contains x := by
  rw [contains_iff]
  rintro ⟨h1, -⟩
  exact absurd (lt_of_lt_of_le (cfin_false_lt_true x) (le_trans h h1)) (lt_irrefl _)

/-- A number lies in no interval that ends before it. -/
theorem not_contains_of_ucut_le (i : interval α) (x : α) (h : ucut i ≤ cfin x false) :
    ¬ i.contains x := by
  rw [contains_iff]
  rintro ⟨-, h1⟩
  exact absurd (lt_of_lt_of_le (cfin_false_lt_true x) (le_trans h1 h)) (lt_irrefl _)

theorem not_covers_of_lower_bounded (l : List (interval α)) (x : α)
    (h : lower_bounded (cfin x true) l) : ¬ covers l x := by
  rintro ⟨i, hi, hx⟩
  exact not_contains_of_le_lcut i x (h i hi) hx

/-- In a good list every interval ends no later than the last one. -/
theorem ucut_le_last (l : List (interval α)) (rl : interval α) (hg : good l)
    (hl : l.getLast? = some rl) : ∀ i ∈ l, ucut i ≤ ucut rl := by
  induction l with
  | nil => simp at hl
  | cons a l ih =>
    obtain ⟨hv, hb, hg'⟩ := (good_cons_iff _ _).mp hg
    cases l with
    | nil =>
      simp only [List.getLast?_singleton, Option.some.injEq] at hl
      subst hl
      intro i hi
      rw [List.mem_singleton] at hi
      rw [hi]
    | cons b l =>
      rw [List.getLast?_cons_cons] at hl
      intro i hi
      rcases List.mem_cons.mp hi with rfl | hi
      · have h1 := hb b (List.mem_cons_self _ _)
        have h2 := ih hg' hl b (List.mem_cons_self _ _)
        have hvb := ((good_cons_iff _ _).mp hg').1
        exact le_trans h1 (le_trans (lcut_lt_ucut _ hvb).le h2)
      · exact ih hg' hl i hi

/-- A run of adjacent intervals covers every number between its two ends. -/
theorem covers_of_all_adjacent (l : List (interval α)) (a rl : interval α) (x : α)
    (hg : good (a :: l)) (hl : (a :: l).getLast? = some rl)
    (hadj : all_adjacent (a :: l) = true) (h1 : lcut a ≤ cfin x false)
    (h2 : cfin x true ≤ ucut rl) : covers (a :: l) x := by
  induction l generalizing a with
  | nil =>
    simp only [List.getLast?_singleton, Option.some.injEq] at hl
    subst hl
    exact ⟨a, List.mem_cons_self _ _, (contains_iff _ _).mpr ⟨h1, h2⟩⟩
  | cons b l ih =>
    obtain ⟨hv, hb, hg'⟩ := (good_cons_iff _ _).mp hg
    rw [List.getLast?_cons_cons] at hl
    simp only [all_adjacent, Bool.and_eq_true] at hadj
    have hno := hb b (List.mem_cons_self _ _)
    have hcut := (adjacent_iff_of_no_overlap _ _ hno).mp hadj.1
    rw [covers_cons]
    rcases le_or_lt (cfin x true) (ucut a) with hc | hc
    · exact Or.inl ((contains_iff _ _).mpr ⟨h1, hc⟩)
    · right
      rw [hcut] at hc
      exact ih b hg' hl hadj.2 ((lt_cfin_true_iff _ _).mp hc)

/-- A good list that covers every number between its two ends has no gap. -/
theorem all_adjacent_of_covers (l : List (interval α)) (a rl : interval α)
    (hg : good (a :: l)) (hl : (a :: l).getLast? = some rl)
    (h : ∀ x, lcut a ≤ cfin x false → cfin x true ≤ ucut rl → covers (a :: l) x) :
    all_adjacent (a :: l) = true := by
  induction l generalizing a with
  | nil => simp [all_adjacent]
  | cons b l ih =>
    obtain ⟨hv, hb, hg'⟩ := (good_cons_iff _ _).mp hg
    obtain ⟨hvb, hbb, -⟩ := (good_cons_iff _ _).mp hg'
    rw [List.getLast?_cons_cons] at hl
    have hno := hb b (List.mem_cons_self _ _)
    have hlast : ucut b ≤ ucut rl := ucut_le_last _ rl hg' hl b (List.mem_cons_self _ _)
    simp only [all_adjacent, Bool.and_eq_true]
    constructor
    · rw [adjacent_iff_of_no_overlap _ _ hno]
      by_contra hne
      obtain ⟨x, hx1, hx2⟩ := exists_between_cuts _ _ (lt_of_le_of_ne hno hne)
      have hcov := h x (le_trans (lcut_lt_ucut _ hv).le hx1)
        (le_trans hx2 (le_trans (lcut_lt_ucut _ hvb).le hlast))
      rw [covers_cons] at hcov
      rcases hcov with hc | hc
      · exact not_contains_of_ucut_le a x hx1 hc
      · exact not_covers_of_lower_bounded _ x (lower_bounded_cons _ b l hg' hx2) hc
    · refine ih b hg' hl (fun x hx1 hx2 => ?_)
      have hcov := h x (le_trans (lcut_lt_ucut _ hv).le (le_trans hno hx1)) hx2
      rw [covers_cons] at hcov
      rcases hcov with hc | hc
      · exact absurd hc (not_contains_of_ucut_le a x (le_trans hno hx1))
      · exact hc

/-- For a good list the condition of the flag says that every number is covered. -/
theorem full_cond_iff (l : List (interval α)) (hg : good l) :
    full_cond l = true ↔ ∀ x, covers l x := by
  cases l with
  | nil =>
    simp only [full_cond, List.head?_nil, Bool.false_eq_true, false_iff, not_forall]
    exact ⟨0, by simp [covers]⟩
  | cons a l =>
    obtain ⟨rl, hrl⟩ : ∃ rl, (a :: l).getLast? = some rl :=
      ⟨(a :: l).getLast (List.cons_ne_nil _ _), List.getLast?_eq_getLast _ _⟩
    have hfc : full_cond (a :: l) =
        (a.m_lower_inf && rl.m_upper_inf && all_adjacent (a :: l)) := by
      unfold full_cond
      rw [hrl]
      rfl
    rw [hfc]
    simp only [Bool.and_eq_true]
    constructor
    · rintro ⟨⟨h1, h2⟩, h3⟩ x
      refine covers_of_all_adjacent l a rl x hg hrl h3 ?_ ?_
      · rw [(lcut_eq_bot_iff a).mpr h1]; exact bot_le
      · rw [(ucut_eq_ctop_iff rl).mpr h2]; exact le_ctop _
    · intro h
      refine ⟨⟨?_, ?_⟩, all_adjacent_of_covers l a rl hg hrl (fun x _ _ => h x)⟩
      · rw [← lcut_eq_bot_iff]
        by_contra hne
        obtain ⟨x, -, hx⟩ := exists_between_cuts ⊥ (lcut a)
          (lt_of_le_of_ne bot_le (Ne.symm hne))
        exact not_covers_of_lower_bounded _ x (lower_bounded_cons _ a l hg hx) (h x)
      · rw [← ucut_eq_ctop_iff]
        by_contra hne
        obtain ⟨x, hx, -⟩ := exists_between_cuts (ucut rl) ctop
          (lt_of_le_of_ne (le_ctop _) hne)
        obtain ⟨i, hi, hc⟩ := h x
        exact not_contains_of_ucut_le i x (le_trans (ucut_le_last _ rl hg hrl i hi) hx) hc

end full

section union

variable {α : Type} [LinearOrderedField α]

theorem set_contains_iff (s : interval_set_ptr α) (x : α) :
    set_contains s x ↔ covers (intervals s) x := by
  cases s <;> simp [set_contains, intervals, covers]

theorem well_formed_some_iff (n : interval_set α) :
    well_formed (some n) = true ↔
      n.m_intervals ≠ [] ∧ good n.m_intervals ∧ n.m_full = full_cond n.m_intervals := by
  simp only [well_formed, Bool.and_eq_true, Bool.not_eq_true', List.isEmpty_eq_false,
    check_interval_set_iff, beq_iff_eq, and_assoc]

/-- A valid interval contains a number. -/
theorem exists_contains (i : interval α) (h : check_interval i = true) : ∃ x, i.contains x := by
  obtain ⟨x, h1, h2⟩ := exists_between_cuts _ _ (lcut_lt_ucut i h)
  exact ⟨x, (contains_iff _ _).mpr ⟨h1, h2⟩⟩

theorem exists_covers (l : List (interval α)) (hne : l ≠ []) (hg : good l) :
    ∃ x, covers l x := by
  cases l with
  | nil => exact absurd rfl hne
  | cons a l =>
    obtain ⟨x, hx⟩ := exists_contains a ((good_cons_iff _ _).mp hg).1
    exact ⟨x, a, List.mem_cons_self _ _, hx⟩

/-- The full set covers every number. -/
theorem covers_of_full (n : interval_set α) (h : well_formed (some n) = true)
    (hf : n.m_full = true) (x : α) : covers n.m_intervals x := by
  obtain ⟨-, hg, hfull⟩ := (well_formed_some_iff n).mp h
  exact (full_cond_iff _ hg).mp (hfull ▸ hf) x

/-- What `mk_union` returns when it runs the merge pass, that is for two
different non-null nodes none of which is full. -/
theorem mk_union_merge (mem : Nat) (n1 n2 : interval_set α)
    (h1 : well_formed (some n1) = true) (h2 : well_formed (some n2) = true)
    (hp : ptr_eq (some n1) (some n2) = false) (hf1 : n1.m_full = false)
    (hf2 : n2.m_full = false) :
    ∃ r, mk_union mem (some n1) (some n2) = some r ∧ r.m_addr = mem ∧ r.m_ref_count = 0 ∧
      r.m_intervals ≠ [] ∧ good r.m_intervals ∧ r.m_full = full_cond r.m_intervals ∧
      compressed r.m_intervals ∧
      (∀ x, covers r.m_intervals x ↔ covers n1.m_intervals x ∨ covers n2.m_intervals x) ∧
      (∀ o ∈ r.m_intervals, ∀ x, o.contains x →
        justified_by (n1.m_intervals ++ n2.m_intervals) o.m_justification x) ∧
      (∃ first rest, union_loop (n1.m_num_intervals + n2.m_num_intervals) n1.m_intervals
          n2.m_intervals [] = first :: rest ∧
        r.m_intervals = compress_loop [] first [] rest) := by
  obtain ⟨hne1, hg1, -⟩ := (well_formed_some_iff n1).mp h1
  obtain ⟨hne2, hg2, -⟩ := (well_formed_some_iff n2).mp h2
  have hlen1 : 1 ≤ n1.m_intervals.length := List.length_pos.mpr hne1
  have hfuel : 1 ≤ n1.m_num_intervals + n2.m_num_intervals := by
    unfold interval_set.m_num_intervals; omega
  have hlen : n1.m_intervals.length + n2.m_intervals.length ≤
      n1.m_num_intervals + n2.m_num_intervals := le_refl _
  obtain ⟨kg, -, kj⟩ := union_loop_spec _ _ _ ⊥ hfuel hlen hg1 hg2 (fun _ _ => bot_le)
    (fun _ _ => bot_le)
  have kc := fun x => union_loop_covers _ _ _ x hfuel hlen
  obtain ⟨x0, hx0⟩ := exists_covers _ hne1 hg1
  rcases hout : union_loop (n1.m_num_intervals + n2.m_num_intervals) n1.m_intervals
    n2.m_intervals [] with _ | ⟨first, rest⟩
  · have := (kc x0).mpr (Or.inl hx0)
    rw [hout] at this
    exact absurd this (by simp [covers])
  · rw [hout] at kg kj kc
    obtain ⟨c1, ⟨o, tl, c2, -, -⟩, c3, c4, c5⟩ := compress_loop_spec rest first [] kg
    refine ⟨mk_interval mem (compress_loop [] first [] rest)
      (full_cond (compress_loop [] first [] rest)), ?_, rfl, rfl, ?_, c1, rfl, c3, ?_, ?_,
      ⟨first, rest, rfl, rfl⟩⟩
    · unfold mk_union
      rw [if_neg (by simp [hp])]
      simp only [hf1, hf2, Bool.false_eq_true, if_false, hout, full_detection_eq]
    · show compress_loop [] first [] rest ≠ []
      rw [c2]; exact List.cons_ne_nil _ _
    · intro x
      show covers (compress_loop [] first [] rest) x ↔ _
      rw [← kc x]
      constructor
      · rintro ⟨o', ho', hx⟩
        obtain ⟨i, hi, -, hic⟩ := c5 o' ho' x hx
        exact ⟨i, hi, hic⟩
      · exact c4 x
    · intro o' ho' x hx
      obtain ⟨e, he, hej, hec⟩ := c5 o' ho' x hx
      obtain ⟨src, hsrc, hcf, hu⟩ := kj e he
      refine ⟨src, List.mem_append.mpr hsrc, hcf.2.1.symm.trans hej, ?_⟩
      exact contains_of_cuts src e x hcf.1.symm.le hu hec

/-- The shape of the result of `mk_union` on well-formed operands: one of the
operands in the cases decided before the merge pass, a merged node otherwise. -/
theorem mk_union_cases (mem : Nat) (s1 s2 : interval_set_ptr α) :
    (s1 = none ∧ mk_union mem s1 s2 = s2) ∨
    (s1 = s2 ∧ mk_union mem s1 s2 = s2) ∨
    (s2 = none ∧ mk_union mem s1 s2 = s1) ∨
    (is_full s1 = true ∧ mk_union mem s1 s2 = s1) ∨
    (is_full s2 = true ∧ mk_union mem s1 s2 = s2) ∨
    (∃ n1 n2, s1 = some n1 ∧ s2 = some n2 ∧ ptr_eq s1 s2 = false ∧ n1.m_full = false ∧
      n2.m_full = false) := by
  cases s1 with
  | none => left; exact ⟨rfl, by simp [mk_union]⟩
  | some n1 =>
    by_cases hp : some n1 = s2
    · right; left
      exact ⟨hp, by simp [mk_union, ptr_eq, hp]⟩
    cases s2 with
    | none => right; right; left; exact ⟨rfl, by simp [mk_union, ptr_eq]⟩
    | some n2 =>
      have hp' : ptr_eq (some n1) (some n2) = false := by simpa [ptr_eq] using hp
      cases hf1 : n1.m_full
      · cases hf2 : n2.m_full
        · right; right; right; right; right
          exact ⟨n1, n2, rfl, rfl, hp', hf1, hf2⟩
        · right; right; right; right; left
          refine ⟨hf2, ?_⟩
          unfold mk_union
          rw [if_neg (by simp [hp'])]
          simp [hf1, hf2]
      · right; right; right; left
        refine ⟨hf1, ?_⟩
        unfold mk_union
        rw [if_neg (by simp [hp'])]
        simp [hf1]

end union

section subset_proofs

variable {α : Type} [LinearOrderedField α]

/-- One turn of the loops of `subset`, in terms of endpoint positions. -/
theorem subset_loop_cons_cons (fuel : Nat) (outer : Bool) (int1 int2 : interval α)
    (r1 r2 : List (interval α)) :
    subset_loop (fuel + 1) outer (int1 :: r1) (int2 :: r2) =
      if outer = true ∧ lcut int1 < lcut int2 then false
      else if ucut int1 = ucut int2 then subset_loop fuel true r1 r2
      else if ucut int1 < ucut int2 then subset_loop fuel true r1 (int2 :: r2)
      else if ucut int2 ≤ lcut int1 then subset_loop fuel true (int1 :: r1) r2
      else
        match r2 with
        | [] => false
        | next2 :: _ =>
          if adjacent int2 next2 = true then subset_loop fuel false (int1 :: r1) r2
          else false := by
  simp only [subset_loop, Bool.and_eq_true, decide_eq_true_eq, compare_lower_lower_lt,
    compare_upper_upper_eq, compare_upper_upper_lt, compare_upper_lower_lt]
  split_ifs <;> first | rfl | (cases r2 <;> simp_all)

/-- The bound on the iterations of the loops of `subset` is never reached: any
bound above the number of intervals left gives the same answer. -/
theorem subset_loop_fuel (fuel k : Nat) (outer : Bool) (l1 l2 : List (interval α))
    (hlen : l1.length + l2.length < fuel) :
    subset_loop (fuel + k) outer l1 l2 = subset_loop fuel outer l1 l2 := by
  induction fuel generalizing outer l1 l2 with
  | zero => omega
  | succ fuel ih =>
    cases l1 with
    | nil =>
      rw [Nat.add_right_comm]
      cases l2 <;> simp [subset_loop]
    | cons int1 r1 =>
      cases l2 with
      | nil =>
        rw [Nat.add_right_comm]
        simp [subset_loop]
      | cons int2 r2 =>
        simp only [List.length_cons] at hlen
        rw [Nat.add_right_comm, subset_loop_cons_cons, subset_loop_cons_cons,
          ih true r1 r2 (by omega),
          ih true r1 (int2 :: r2) (by simp only [List.length_cons]; omega),
          ih true (int1 :: r1) r2 (by simp only [List.length_cons]; omega)]
        cases r2 with
        | nil => rfl
        | cons next2 r2' =>
          simp only []
          rw [ih false (int1 :: r1) (next2 :: r2')
            (by simp only [List.length_cons] at hlen ⊢; omega)]

theorem subset_goal_cons (outer : Bool) (l1 : List (interval α)) (int2 : interval α)
    (r2 : List (interval α)) :
    subset_goal outer l1 (int2 :: r2) ↔
      ∀ x, (outer = false → lcut int2 ≤ cfin x false) → covers l1 x → covers (int2 :: r2) x := by
  simp [subset_goal]

theorem subset_goal_true (l1 l2 : List (interval α)) :
    subset_goal true l1 l2 ↔ ∀ x, covers l1 x → covers l2 x := by
  simp [subset_goal]

/-- An interval that starts before every interval of a good list has a number
the list does not cover. -/
theorem exists_uncovered_start (int1 int2 : interval α) (r2 : List (interval α))
    (hv1 : lcut int1 < ucut int1) (hg2 : good (int2 :: r2)) (h : lcut int1 < lcut int2) :
    ∃ x, int1.contains x ∧ ¬ covers (int2 :: r2) x := by
  obtain ⟨x, hx1, hx2⟩ := exists_between_cuts _ _ (lt_min h hv1)
  rw [le_min_iff] at hx2
  exact ⟨x, (contains_iff _ _).mpr ⟨hx1, hx2.2⟩,
    not_covers_of_lower_bounded _ x (lower_bounded_cons _ _ _ hg2 hx2.1)⟩

/-- An interval that reaches beyond `int2`, when the rest of the list starts
strictly after the end of `int2`, has a number the list does not cover. -/
theorem exists_uncovered_gap (int1 int2 : interval α) (r2 : List (interval α)) (d : cut α)
    (h1 : lcut int1 < ucut int2) (h2 : ucut int2 < ucut int1) (hv2 : lcut int2 < ucut int2)
    (hd : ucut int2 < d) (hlb : lower_bounded d r2) :
    ∃ x, int1.contains x ∧ lcut int2 ≤ cfin x false ∧ ¬ covers (int2 :: r2) x := by
  obtain ⟨x, hx1, hx2⟩ := exists_between_cuts _ _ (lt_min h2 hd)
  rw [le_min_iff] at hx2
  refine ⟨x, (contains_iff _ _).mpr ⟨le_trans h1.le hx1, hx2.1⟩, le_trans hv2.le hx1, ?_⟩
  rw [covers_cons]
  rintro (hc | hc)
  · exact not_contains_of_ucut_le _ x hx1 hc
  · exact not_covers_of_lower_bounded _ x (lower_bounded_mono _ _ _ hx2.2 hlb) hc

/-- The loops of `subset` decide `subset_goal`. -/
theorem subset_loop_spec (fuel : Nat) (outer : Bool) (l1 l2 : List (interval α))
    (hfuel : l1.length + l2.length < fuel) (hg1 : good l1) (hg2 : good l2)
    (hpre : outer = false → ∃ int1 r1 int2 r2, l1 = int1 :: r1 ∧ l2 = int2 :: r2 ∧
      lcut int1 < lcut int2 ∧ lcut int2 < ucut int1) :
    subset_loop fuel outer l1 l2 = true ↔ subset_goal outer l1 l2 := by
  induction fuel generalizing outer l1 l2 with
  | zero => omega
  | succ fuel ih =>
    cases l1 with
    | nil =>
      have : subset_loop (fuel + 1) outer [] l2 = true := by
        cases l2 <;> simp [subset_loop]
      rw [this]
      simp [subset_goal, covers]
    | cons int1 r1 =>
      obtain ⟨hv1, hb1, hg1'⟩ := (good_cons_iff _ _).mp hg1
      have hlt1 := lcut_lt_ucut _ hv1
      cases l2 with
      | nil =>
        have : subset_loop (fuel + 1) outer (int1 :: r1) [] = false := by
          simp [subset_loop]
        rw [this]
        simp only [Bool.false_eq_true, false_iff, subset_goal]
        intro h
        obtain ⟨x, hx⟩ := exists_contains int1 hv1
        have := h x (by simp) ⟨int1, List.mem_cons_self _ _, hx⟩
        simp [covers] at this
      | cons int2 r2 =>
        obtain ⟨hv2, hb2, hg2'⟩ := (good_cons_iff _ _).mp hg2
        have hlt2 := lcut_lt_ucut _ hv2
        simp only [List.length_cons] at hfuel
        rw [subset_loop_cons_cons, subset_goal_cons]
        by_cases hc0 : outer = true ∧ lcut int1 < lcut int2
        · rw [if_pos hc0]
          simp only [Bool.false_eq_true, false_iff]
          intro h
          obtain ⟨x, hx, hnx⟩ := exists_uncovered_start int1 int2 r2 hlt1 hg2 hc0.2
          exact hnx (h x (by simp [hc0.1]) ⟨int1, List.mem_cons_self _ _, hx⟩)
        rw [if_neg hc0]
        have hpre' : outer = false → lcut int1 < lcut int2 ∧ lcut int2 < ucut int1 := by
          intro ho
          obtain ⟨a, _, b, _, e1, e2, h1, h2⟩ := hpre ho
          simp only [List.cons.injEq] at e1 e2
          rw [e1.1, e2.1]
          exact ⟨h1, h2⟩
        have hlow : ∀ x, (outer = false → lcut int2 ≤ cfin x false) →
            lcut int1 ≤ cfin x false → lcut int2 ≤ cfin x false := by
          intro x hguard hx
          cases outer with
          | false => exact hguard rfl
          | true =>
            have : lcut int2 ≤ lcut int1 := not_lt.mp (fun h => hc0 ⟨rfl, h⟩)
            exact le_trans this hx
        have hlate : ∀ i ∈ r1, ∀ x, i.contains x → lcut int2 ≤ cfin x false ∧
            ucut int1 ≤ cfin x false := by
          intro i hi x hx
          have h1 : ucut int1 ≤ cfin x false := le_trans (hb1 i hi) ((contains_iff _ _).mp hx).1
          refine ⟨?_, h1⟩
          cases ho : outer with
          | false => exact le_trans (hpre' ho).2.le h1
          | true =>
            have : lcut int2 ≤ lcut int1 := not_lt.mp (fun h => hc0 ⟨ho, h⟩)
            exact le_trans this (le_trans hlt1.le h1)
        by_cases hc1 : ucut int1 = ucut int2
        · rw [if_pos hc1, ih true r1 r2 (by omega) hg1' hg2' (by simp), subset_goal_true]
          constructor
          · intro h x hguard hx
            rw [covers_cons] at hx ⊢
            rcases hx with hx | hx
            · left
              rw [contains_iff] at hx ⊢
              exact ⟨hlow x hguard hx.1, hc1 ▸ hx.2⟩
            · exact Or.inr (h x hx)
          · intro h x hx
            obtain ⟨i, hi, hix⟩ := hx
            obtain ⟨k1, k2⟩ := hlate i hi x hix
            have := h x (fun _ => k1) ⟨i, List.mem_cons_of_mem _ hi, hix⟩
            rw [covers_cons] at this
            rcases this with hc | hc
            · exact absurd hc (not_contains_of_ucut_le _ x (hc1 ▸ k2))
            · exact hc
        rw [if_neg hc1]
        by_cases hc2 : ucut int1 < ucut int2
        · rw [if_pos hc2, ih true r1 (int2 :: r2) (by simp only [List.length_cons]; omega)
            hg1' hg2 (by simp), subset_goal_true]
          constructor
          · intro h x hguard hx
            rw [covers_cons] at hx
            rcases hx with hx | hx
            · rw [covers_cons]
              left
              rw [contains_iff] at hx ⊢
              exact ⟨hlow x hguard hx.1, le_trans hx.2 hc2.le⟩
            · exact h x hx
          · intro h x hx
            obtain ⟨i, hi, hix⟩ := hx
            exact h x (fun _ => (hlate i hi x hix).1) ⟨i, List.mem_cons_of_mem _ hi, hix⟩
        rw [if_neg hc2]
        have hu : ucut int2 < ucut int1 := lt_of_le_of_ne (not_lt.mp hc2) (Ne.symm hc1)
        by_cases hc3 : ucut int2 ≤ lcut int1
        · rw [if_pos hc3]
          have ho : outer = true := by
            cases ho : outer with
            | true => rfl
            | false =>
              exact absurd (lt_of_lt_of_le (lt_trans (hpre' ho).1 hlt2) hc3) (lt_irrefl _)
          subst ho
          rw [ih true (int1 :: r1) r2 (by simp only [List.length_cons]; omega) hg1 hg2'
            (by simp), subset_goal_true]
          have hdis : ∀ x, covers (int1 :: r1) x → ¬ int2.contains x := by
            rintro x ⟨i, hi, hix⟩
            apply not_contains_of_ucut_le
            exact le_trans hc3 (le_trans (lower_bounded_cons _ _ _ hg1 (le_refl _) i hi)
              ((contains_iff _ _).mp hix).1)
          constructor
          · intro h x _ hx
            rw [covers_cons]
            exact Or.inr (h x hx)
          · intro h x hx
            have := h x (by simp) hx
            rw [covers_cons] at this
            exact this.resolve_left (hdis x hx)
        rw [if_neg hc3]
        have hov : lcut int1 < ucut int2 := not_le.mp hc3
        cases r2 with
        | nil =>
          simp only [Bool.false_eq_true, false_iff]
          intro h
          obtain ⟨x, hx, hx2, hnx⟩ := exists_uncovered_gap int1 int2 [] (ucut int1) hov hu hlt2
            hu (fun _ hi => absurd hi (List.not_mem_nil _))
          exact hnx (h x (fun _ => hx2) ⟨int1, List.mem_cons_self _ _, hx⟩)
        | cons next2 r2' =>
          have hno : ucut int2 ≤ lcut next2 := hb2 next2 (List.mem_cons_self _ _)
          simp only []
          by_cases hadj : adjacent int2 next2 = true
          · rw [if_pos hadj]
            have hcut := (adjacent_iff_of_no_overlap _ _ hno).mp hadj
            rw [ih false (int1 :: r1) (next2 :: r2')
              (by simp only [List.length_cons] at hfuel ⊢; omega)
              hg1 hg2' (fun _ => ⟨int1, r1, next2, r2', rfl, rfl, hcut ▸ hov, hcut ▸ hu⟩),
              subset_goal_cons]
            constructor
            · intro h x hguard hx
              rcases le_or_lt (cfin x true) (ucut int2) with hc | hc
              · rw [covers_cons]
                left
                obtain ⟨i, hi, hix⟩ := hx
                rcases List.mem_cons.mp hi with rfl | hi
                · exact (contains_iff _ _).mpr ⟨hlow x hguard ((contains_iff _ _).mp hix).1, hc⟩
                · have k := (hlate i hi x hix).2
                  exact absurd (lt_of_lt_of_le (cfin_false_lt_true x)
                    (le_trans hc (le_trans hu.le k))) (lt_irrefl _)
              · rw [covers_cons]
                right
                exact h x (fun _ => hcut ▸ (lt_cfin_true_iff _ _).mp hc) hx
            · intro h x hguard hx
              have hx2 : lcut next2 ≤ cfin x false := hguard rfl
              have := h x (fun _ => le_trans hlt2.le (hcut ▸ hx2)) hx
              rw [covers_cons] at this
              exact this.resolve_left (not_contains_of_ucut_le _ x (hcut ▸ hx2))
          · rw [if_neg hadj]
            simp only [Bool.false_eq_true, false_iff]
            intro h
            have hne : ucut int2 ≠ lcut next2 :=
              fun he => hadj ((adjacent_iff_of_no_overlap _ _ hno).mpr he)
            obtain ⟨x, hx, hx2, hnx⟩ := exists_uncovered_gap int1 int2 (next2 :: r2')
              (lcut next2) hov hu hlt2 (lt_of_le_of_ne hno hne)
              (lower_bounded_cons _ _ _ hg2' (le_refl _))
            exact hnx (h x (fun _ => hx2) ⟨int1, List.mem_cons_self _ _, hx⟩)

/-- A well-formed set that is not full leaves some number uncovered. -/
theorem not_covers_of_not_full (n : interval_set α) (h : well_formed (some n) = true)
    (hf : n.m_full = false) : ¬ ∀ x, covers n.m_intervals x := by
  obtain ⟨-, hg, hfull⟩ := (well_formed_some_iff n).mp h
  rw [← full_cond_iff _ hg, ← hfull, hf]
  simp

/-- The function `subset` decides the inclusion of the covered numbers. -/
theorem subset_spec (s1 s2 : interval_set_ptr α) (h1 : well_formed s1 = true)
    (h2 : well_formed s2 = true) :
    subset s1 s2 = true ↔ ∀ x, set_contains s1 x → set_contains s2 x := by
  by_cases hp : s1 = s2
  · subst hp
    simp [subset, ptr_eq]
  have hp' : ptr_eq s1 s2 = false := by simpa [ptr_eq] using hp
  cases s1 with
  | none => simp [subset, hp', set_contains]
  | some n1 =>
    obtain ⟨hne1, hg1, -⟩ := (well_formed_some_iff n1).mp h1
    cases s2 with
    | none =>
      simp only [subset, hp', Bool.false_eq_true, if_false, set_contains, false_iff]
      intro h
      obtain ⟨x, hx⟩ := exists_covers _ hne1 hg1
      exact h x hx
    | some n2 =>
      obtain ⟨hne2, hg2, -⟩ := (well_formed_some_iff n2).mp h2
      simp only [subset, hp', Bool.false_eq_true, if_false, set_contains]
      cases hf2 : n2.m_full
      · cases hf1 : n1.m_full
        · simp only [Bool.false_eq_true, if_false]
          rw [subset_loop_spec _ true _ _ (by unfold interval_set.m_num_intervals; omega) hg1 hg2
            (by simp), subset_goal_true]
        · simp only [Bool.false_eq_true, if_false, if_true, false_iff]
          intro h
          exact not_covers_of_not_full n2 h2 hf2 (fun x => h x (covers_of_full n1 h1 hf1 x))
      · simp only [if_true, true_iff]
        exact fun x _ => covers_of_full n2 h2 hf2 x

/-- The function `set_eq` decides the equality of the covered numbers. -/
theorem set_eq_spec (s1 s2 : interval_set_ptr α) (h1 : well_formed s1 = true)
    (h2 : well_formed s2 = true) :
    set_eq s1 s2 = true ↔ ∀ x, set_contains s1 x ↔ set_contains s2 x := by
  cases s1 with
  | none =>
    cases s2 with
    | none => simp [set_eq, ptr_eq]
    | some n2 =>
      obtain ⟨hne2, hg2, -⟩ := (well_formed_some_iff n2).mp h2
      simp only [set_eq, ptr_eq, reduceCtorEq, decide_False, Bool.false_eq_true, set_contains,
        false_iff, not_forall]
      obtain ⟨x, hx⟩ := exists_covers _ hne2 hg2
      exact ⟨x, fun h => h hx⟩
  | some n1 =>
    obtain ⟨hne1, hg1, -⟩ := (well_formed_some_iff n1).mp h1
    cases s2 with
    | none =>
      simp only [set_eq, ptr_eq, reduceCtorEq, decide_False, Bool.false_eq_true, set_contains,
        false_iff, not_forall]
      obtain ⟨x, hx⟩ := exists_covers _ hne1 hg1
      exact ⟨x, fun h => h.mp hx⟩
    | some n2 =>
      simp only [set_eq, set_contains]
      cases hf1 : n1.m_full <;> cases hf2 : n2.m_full
      · simp only [Bool.or_self, Bool.false_eq_true, if_false, Bool.and_eq_true,
          subset_spec _ _ h1 h2, subset_spec _ _ h2 h1, set_contains]
        exact ⟨fun h x => ⟨h.1 x, h.2 x⟩, fun h => ⟨fun x => (h x).mp, fun x => (h x).mpr⟩⟩
      · simp only [Bool.or_true, if_true, beq_iff_eq, Bool.false_eq_true, false_iff,
          reduceCtorEq]
        intro h
        exact not_covers_of_not_full n1 h1 hf1 (fun x => (h x).mpr (covers_of_full n2 h2 hf2 x))
      · simp only [Bool.or_false, if_true, beq_iff_eq, Bool.true_eq_false, false_iff,
          reduceCtorEq]
        intro h
        exact not_covers_of_not_full n2 h2 hf2 (fun x => (h x).mp (covers_of_full n1 h1 hf1 x))
      · simp only [Bool.or_self, if_true, beq_self_eq_true, true_iff]
        exact fun x => ⟨fun _ => covers_of_full n2 h2 hf2 x, fun _ => covers_of_full n1 h1 hf1 x⟩

end subset_proofs

section peek_proofs

variable {α : Type} [LinearOrderedField α]

/-- A property of the consecutive pairs of a list holds along each of its
final segments. -/
theorem chain_of_pairs (L : List (interval α)) (R : interval α → interval α → Prop)
    (h : ∀ pre prev next rest, L = pre ++ prev :: next :: rest → R prev next) :
    ∀ pre suf, L = pre ++ suf → List.Chain' R suf := by
  intro pre suf
  induction suf generalizing pre with
  | nil => intro _; exact List.chain'_nil
  | cons a suf ih =>
    intro hL
    cases suf with
    | nil => exact List.chain'_singleton _
    | cons b suf =>
      rw [List.chain'_cons]
      refine ⟨h pre a b suf hL, ih (pre ++ [a]) ?_⟩
      rw [hL]; simp

theorem pair_of_chain (L : List (interval α)) (R : interval α → interval α → Prop)
    (hc : List.Chain' R L) (pre : List (interval α)) (prev next : interval α)
    (rest : List (interval α)) (hL : L = pre ++ prev :: next :: rest) : R prev next := by
  rw [hL] at hc
  exact (List.chain'_cons.mp (List.Chain'.right_of_append hc)).1

/-- A number between two consecutive intervals of a good list lies in none of
its intervals. -/
theorem not_covers_between (pre : List (interval α)) (prev next : interval α)
    (rest : List (interval α)) (x : α) (hg : good (pre ++ prev :: next :: rest))
    (h1 : ucut prev ≤ cfin x false) (h2 : cfin x true ≤ lcut next) :
    ¬ covers (pre ++ prev :: next :: rest) x := by
  obtain ⟨hv, hp⟩ := hg
  rw [List.pairwise_append] at hp
  obtain ⟨-, hp2, hp3⟩ := hp
  have hgs : good (prev :: next :: rest) :=
    ⟨fun i hi => hv i (List.mem_append_right _ hi), hp2⟩
  have hvp : lcut prev < ucut prev :=
    lcut_lt_ucut _ (hv prev (List.mem_append_right _ (List.mem_cons_self _ _)))
  rw [covers_append, covers_cons]
  rintro (⟨i, hi, hix⟩ | hc | hc)
  · have := hp3 i hi prev (List.mem_cons_self _ _)
    exact not_contains_of_ucut_le i x (le_trans this (le_trans hvp.le h1)) hix
  · exact not_contains_of_ucut_le prev x h1 hc
  · exact not_covers_of_lower_bounded _ x
      (lower_bounded_cons _ _ _ (good_tail _ _ hgs) h2) hc

theorem no_overlap_of_good (pre : List (interval α)) (prev next : interval α)
    (rest : List (interval α)) (hg : good (pre ++ prev :: next :: rest)) :
    ucut prev ≤ lcut next := by
  obtain ⟨-, hp⟩ := hg
  rw [List.pairwise_append] at hp
  exact (List.pairwise_cons.mp hp.2.1).1 next (List.mem_cons_self _ _)

theorem finite_of_no_overlap (prev next : interval α) (h : ucut prev ≤ lcut next) :
    ucut prev = cfin prev.m_upper (!prev.m_upper_open) ∧
      lcut next = cfin next.m_lower next.m_lower_open := by
  unfold ucut lcut at h ⊢
  cases h1 : prev.m_upper_inf <;> cases h2 : next.m_lower_inf <;>
    simp [h1, h2, not_ctop_le_cfin, not_cfin_le_bot, not_ctop_le_bot, cfin_ne_bot, ctop_ne_bot]
      at h ⊢

theorem getElem?_append_length (pre : List (interval α)) (a : interval α)
    (l : List (interval α)) : (pre ++ a :: l)[pre.length]? = some a := by
  induction pre with
  | nil => simp
  | cons b pre ih => simpa using ih

/-- The gap loop keeps in `w` a number outside the set, as soon as `n` is
positive; it leaves `n` at zero only when no two consecutive intervals are
apart. -/
theorem gap_loop_spec (am : anum_services α) (randomize : Bool) (P : α → Prop)
    (hsel : ∀ a b, a < b → a < am.select a b ∧ am.select a b < b)
    (suf : List (interval α)) (n : Nat) (w : α) (m_rand : Nat → Nat)
    (hc : List.Chain' (fun prev next => ∀ x, prev.m_upper < x → x < next.m_lower → P x) suf)
    (hw : 0 < n → P w) :
    (0 < (gap_loop am randomize suf n w m_rand).2.1 →
        P (gap_loop am randomize suf n w m_rand).2.2.1) ∧
      ((gap_loop am randomize suf n w m_rand).1 = true →
        0 < (gap_loop am randomize suf n w m_rand).2.1) ∧
      ((gap_loop am randomize suf n w m_rand).2.1 = 0 →
        n = 0 ∧ List.Chain' (fun prev next => ¬ prev.m_upper < next.m_lower) suf) := by
  induction suf generalizing n w m_rand with
  | nil =>
    simp only [gap_loop]
    exact ⟨hw, fun h => absurd h (by simp), fun h => ⟨h, List.chain'_nil⟩⟩
  | cons prev suf ih =>
    cases suf with
    | nil =>
      simp only [gap_loop]
      exact ⟨hw, fun h => absurd h (by simp), fun h => ⟨h, List.chain'_singleton _⟩⟩
    | cons next rest =>
      rw [List.chain'_cons] at hc
      simp only [gap_loop]
      by_cases hlt : prev.m_upper < next.m_lower
      · rw [if_pos hlt]
        have hw' : 0 < n + 1 → P (if (replace_choice (n + 1) m_rand).1 = true then
            am.select prev.m_upper next.m_lower else w) := by
          intro _
          split_ifs with hch
          · exact hc.1 _ (hsel _ _ hlt).1 (hsel _ _ hlt).2
          · apply hw
            by_contra h0
            have : n = 0 := by omega
            subst this
            simp [replace_choice] at hch
        cases randomize with
        | false =>
          simp only [Bool.not_false, if_true]
          exact ⟨hw', fun _ => Nat.succ_pos _, fun h => absurd h (Nat.succ_ne_zero _)⟩
        | true =>
          simp only [Bool.not_true, Bool.false_eq_true, if_false]
          obtain ⟨k1, k2, k3⟩ := ih (n + 1) _ (replace_choice (n + 1) m_rand).2 hc.2 hw'
          exact ⟨k1, k2, fun h => absurd (k3 h).1 (Nat.succ_ne_zero _)⟩
      · rw [if_neg hlt]
        obtain ⟨k1, k2, k3⟩ := ih n w m_rand hc.2 hw
        refine ⟨k1, k2, fun h => ⟨(k3 h).1, ?_⟩⟩
        rw [List.chain'_cons]
        exact ⟨hlt, (k3 h).2⟩

theorem seam_loop_spec (am : anum_services α) (P : α → Prop) (L : List (interval α))
    (suf pre : List (interval α)) (irr : Option Nat) (hL : L = pre ++ suf)
    (hc : List.Chain' (fun prev next =>
      prev.m_upper_open = true → next.m_lower_open = true → P prev.m_upper) suf)
    (hirr : ∀ k, irr = some k → ∃ c, L[k]? = some c ∧ P c.m_upper) :
    seam_post P L suf irr (seam_loop am suf (pre.length + 1) irr) := by
  induction suf generalizing pre irr with
  | nil =>
    simp only [seam_loop]
    cases irr with
    | none => exact ⟨rfl, List.chain'_nil⟩
    | some k => exact hirr k rfl
  | cons prev suf ih =>
    cases suf with
    | nil =>
      simp only [seam_loop]
      cases irr with
      | none => exact ⟨rfl, List.chain'_singleton _⟩
      | some k => exact hirr k rfl
    | cons next rest =>
      rw [List.chain'_cons] at hc
      have hL' : L = (pre ++ [prev]) ++ next :: rest := by rw [hL]; simp
      have hlen : (pre ++ [prev]).length + 1 = pre.length + 1 + 1 := by simp
      simp only [seam_loop]
      by_cases ho : (prev.m_upper_open && next.m_lower_open) = true
      · rw [if_pos ho]
        rw [Bool.and_eq_true] at ho
        have hP := hc.1 ho.1 ho.2
        by_cases hr : am.is_rational prev.m_upper = true
        · rw [if_pos hr]
          exact hP
        · rw [if_neg hr]
          have hirr' : ∀ k, (if irr = none then some (pre.length + 1 - 1) else irr) = some k →
              ∃ c, L[k]? = some c ∧ P c.m_upper := by
            intro k hk
            cases irr with
            | none =>
              simp only [if_true, Option.some.injEq] at hk
              refine ⟨prev, ?_, hP⟩
              rw [hL, ← hk, Nat.add_sub_cancel]
              exact getElem?_append_length _ _ _
            | some k' =>
              simp only [reduceCtorEq, if_false, Option.some.injEq] at hk
              exact hirr k (by rw [hk])
          have key := ih (pre ++ [prev])
            (if irr = none then some (pre.length + 1 - 1) else irr) hL' hc.2 hirr'
          rw [hlen] at key
          revert key
          cases seam_loop am (next :: rest) (pre.length + 1 + 1)
              (if irr = none then some (pre.length + 1 - 1) else irr) with
          | inl v => exact id
          | inr o =>
            cases o with
            | some k => exact id
            | none =>
              rintro ⟨hnone, -⟩
              cases irr <;> simp at hnone
      · rw [if_neg ho]
        have key := ih (pre ++ [prev]) irr hL' hc.2 hirr
        rw [hlen] at key
        revert key
        cases seam_loop am (next :: rest) (pre.length + 1 + 1) irr with
        | inl v => exact id
        | inr o =>
          cases o with
          | some k => exact id
          | none =>
            rintro ⟨hnone, hch⟩
            refine ⟨hnone, ?_⟩
            rw [List.chain'_cons]
            rw [Bool.and_eq_true] at ho
            exact ⟨ho, hch⟩

/-- A number below the finite lower endpoint of the first interval is outside the set. -/
theorem not_covers_below_first (L : List (interval α)) (first : interval α) (x : α)
    (hg : good L) (hh : L.head? = some first) (hf : first.m_lower_inf = false)
    (hx : x < first.m_lower) : ¬ covers L x := by
  cases L with
  | nil => simp [covers]
  | cons a l =>
    simp only [List.head?_cons, Option.some.injEq] at hh
    subst hh
    apply not_covers_of_lower_bounded
    apply lower_bounded_cons _ _ _ hg
    unfold lcut
    rw [hf, if_neg (by simp), cfin_le_cfin]
    exact Or.inl hx

/-- A number above the finite upper endpoint of the last interval is outside the set. -/
theorem not_covers_above_last (L : List (interval α)) (last : interval α) (x : α)
    (hg : good L) (hh : L.getLast? = some last) (hf : last.m_upper_inf = false)
    (hx : last.m_upper < x) : ¬ covers L x := by
  rintro ⟨i, hi, hc⟩
  apply not_contains_of_ucut_le i x _ hc
  refine le_trans (ucut_le_last L last hg hh i hi) ?_
  unfold ucut
  rw [hf, if_neg (by simp), cfin_le_cfin]
  exact Or.inl hx

theorem gap_chain (L : List (interval α)) (hg : good L) :
    List.Chain' (fun prev next => ∀ x, prev.m_upper < x → x < next.m_lower → ¬ covers L x) L := by
  refine chain_of_pairs L _ (fun pre prev next rest hL x h1 h2 => ?_) [] L rfl
  rw [hL] at hg ⊢
  obtain ⟨e1, e2⟩ := finite_of_no_overlap prev next (no_overlap_of_good _ _ _ _ hg)
  apply not_covers_between _ _ _ _ _ hg
  · rw [e1, cfin_le_cfin]; exact Or.inl h1
  · rw [e2, cfin_le_cfin]; exact Or.inl h2

/-- Consecutive intervals of a good list that are not apart end and start at
the same number. -/
theorem touching_of_no_gap (prev next : interval α) (h : ucut prev ≤ lcut next)
    (hn : ¬ prev.m_upper < next.m_lower) : prev.m_upper = next.m_lower := by
  obtain ⟨e1, e2⟩ := finite_of_no_overlap prev next h
  rw [e1, e2, cfin_le_cfin] at h
  rcases h with h | h
  · exact absurd h hn
  · exact h.1

theorem seam_chain (L : List (interval α)) (hg : good L)
    (hn : List.Chain' (fun prev next => ¬ prev.m_upper < next.m_lower) L) :
    List.Chain' (fun prev next =>
      prev.m_upper_open = true → next.m_lower_open = true → ¬ covers L prev.m_upper) L := by
  refine chain_of_pairs L _ (fun pre prev next rest hL h1 h2 => ?_) [] L rfl
  have hnp := pair_of_chain L _ hn pre prev next rest hL
  rw [hL] at hg ⊢
  have hno := no_overlap_of_good _ _ _ _ hg
  obtain ⟨e1, e2⟩ := finite_of_no_overlap prev next hno
  have heq := touching_of_no_gap prev next hno hnp
  apply not_covers_between _ _ _ _ _ hg
  · rw [e1, h1]; exact le_refl _
  · rw [e2, h2, heq]

theorem all_adjacent_of_chain (L : List (interval α))
    (h : List.Chain' (fun prev next => adjacent prev next = true) L) :
    all_adjacent L = true := by
  induction L with
  | nil => rfl
  | cons a L ih =>
    cases L with
    | nil => rfl
    | cons b L =>
      rw [List.chain'_cons] at h
      simp only [all_adjacent, Bool.and_eq_true]
      exact ⟨h.1, ih h.2⟩

theorem all_adjacent_of_no_seam (L : List (interval α)) (hg : good L)
    (hn : List.Chain' (fun prev next => ¬ prev.m_upper < next.m_lower) L)
    (hs : List.Chain' (fun prev next =>
      ¬(prev.m_upper_open = true ∧ next.m_lower_open = true)) L) :
    all_adjacent L = true := by
  apply all_adjacent_of_chain
  refine chain_of_pairs L _ (fun pre prev next rest hL => ?_) [] L rfl
  have hnp := pair_of_chain L _ hn pre prev next rest hL
  have hsp := pair_of_chain L _ hs pre prev next rest hL
  rw [hL] at hg
  have hno := no_overlap_of_good _ _ _ _ hg
  have heq := touching_of_no_gap prev next hno hnp
  unfold adjacent
  simp only [am_compare_eq_zero, heq, if_true]
  cases h1 : prev.m_upper_open <;> cases h2 : next.m_lower_open <;> simp [h1, h2] at hsp ⊢

/-- The search for a gap and for a seam ends with a number outside the set. -/
theorem peek_gap_seam_sound (am : anum_services α) (randomize debug : Bool)
    (hsel : ∀ a b, a < b → a < am.select a b ∧ am.select a b < b)
    (L : List (interval α)) (first last : interval α) (n : Nat) (w : α) (m_rand : Nat → Nat)
    (hg : good L) (hh : L.head? = some first) (hl : L.getLast? = some last)
    (hfull : full_cond L = false) (hw : 0 < n → ¬ covers L w)
    (hn : n = 0 → first.m_lower_inf = true ∧ last.m_upper_inf = true) :
    peek_post (fun x => ¬ covers L x) debug (peek_gap_seam am randomize L n w m_rand) := by
  obtain ⟨k1, k2, k3⟩ := gap_loop_spec am randomize (fun x => ¬ covers L x) hsel L n w m_rand
    (gap_chain L hg) hw
  unfold peek_gap_seam
  simp only []
  by_cases h1 : (gap_loop am randomize L n w m_rand).1 = true
  · rw [if_pos h1]
    exact k1 (k2 h1)
  rw [if_neg h1]
  by_cases h2 : (gap_loop am randomize L n w m_rand).2.1 > 0
  · rw [if_pos h2]
    exact k1 h2
  rw [if_neg h2]
  obtain ⟨hn0, hnogap⟩ := k3 (by omega)
  have key := seam_loop_spec am (fun x => ¬ covers L x) L L [] none rfl
    (seam_chain L hg hnogap) (fun k hk => by simp at hk)
  simp only [List.length_nil, zero_add] at key
  revert key
  cases seam_loop am L 1 none with
  | inl v => exact id
  | inr o =>
    cases o with
    | some k =>
      rintro ⟨c, hc, hP⟩
      simp only [hc]
      exact hP
    | none =>
      rintro ⟨-, hs⟩
      have hadj := all_adjacent_of_no_seam L hg hnogap hs
      have : full_cond L = true := by
        unfold full_cond
        rw [hh, hl]
        simp [(hn hn0).1, (hn hn0).2, hadj]
      rw [this] at hfull
      exact absurd hfull (by simp)

/-- The witness selection on a non-null, well-formed set that is not full. -/
theorem peek_some_sound (am : anum_services α) (debug : Bool) (m_rand : Nat → Nat)
    (node : interval_set α) (is_int : Bool) (w : α) (randomize : Bool)
    (hwf : well_formed (some node) = true) (hnf : node.m_full = false)
    (hlt : ∀ a, am.int_lt a < a) (hgt : ∀ a, a < am.int_gt a)
    (hsel : ∀ a b, a < b → a < am.select a b ∧ am.select a b < b) :
    peek_post (fun x => ¬ covers node.m_intervals x) debug
      (peek_in_complement am debug m_rand (some node) is_int w randomize) := by
  obtain ⟨hne, hg, hfull⟩ := (well_formed_some_iff node).mp hwf
  rw [hnf] at hfull
  obtain ⟨first, hh⟩ : ∃ first, node.m_intervals.head? = some first := by
    cases hL : node.m_intervals with
    | nil => exact absurd hL hne
    | cons a l => exact ⟨a, rfl⟩
  obtain ⟨last, hl⟩ : ∃ last, node.m_intervals.getLast? = some last :=
    ⟨node.m_intervals.getLast hne, List.getLast?_eq_getLast _ _⟩
  have hP1 : first.m_lower_inf = false → ¬ covers node.m_intervals (am.int_lt first.m_lower) :=
    fun h => not_covers_below_first _ first _ hg hh h (hlt _)
  have hP2 : last.m_upper_inf = false → ¬ covers node.m_intervals (am.int_gt last.m_upper) :=
    fun h => not_covers_above_last _ last _ hg hl h (hgt _)
  have hgs := fun n w r hw hn => peek_gap_seam_sound am randomize debug hsel node.m_intervals
    first last n w r hg hh hl hfull.symm hw hn
  unfold peek_in_complement
  simp only [is_full, hnf, Bool.and_false, Bool.false_eq_true, if_false, hh, hl]
  cases hli : first.m_lower_inf <;> cases hui : last.m_upper_inf <;> cases randomize <;>
    cases debug <;>
    simp only [Bool.not_false, Bool.not_true, Bool.and_self, Bool.and_true, Bool.and_false,
      Bool.false_eq_true, if_true, if_false, replace_choice, zero_add,
      Nat.reduceAdd, OfNat.ofNat_ne_one, Nat.succ_ne_self]
  all_goals first
    | exact hP1 hli
    | exact hP2 hui
    | rfl
    | (apply hgs
       · intro _
         split_ifs
         · exact hP2 hui
         · exact hP1 hli
       · intro h; exact absurd h (by norm_num))
    | (apply hgs
       · intro _; exact hP1 hli
       · intro h; exact absurd h (by norm_num))
    | (apply hgs
       · intro _; exact hP2 hui
       · intro h; exact absurd h (by norm_num))
    | (apply hgs
       · intro h; exact absurd h (by norm_num)
       · intro _; exact ⟨hli, hui⟩)

end peek_proofs

section claims

variable {α : Type} [LinearOrderedField α]

/-- The union covers what its operands cover. -/
theorem mk_union_covers (mem : Nat) (s1 s2 : interval_set_ptr α)
    (h1 : well_formed s1 = true) (h2 : well_formed s2 = true) (x : α) :
    set_contains (mk_union mem s1 s2) x ↔ set_contains s1 x ∨ set_contains s2 x := by
  rcases mk_union_cases mem s1 s2 with ⟨rfl, h⟩ | ⟨rfl, h⟩ | ⟨rfl, h⟩ | ⟨hf, h⟩ | ⟨hf, h⟩ |
    ⟨n1, n2, rfl, rfl, hp, hf1, hf2⟩
  · rw [h]; simp [set_contains]
  · rw [h]; simp
  · rw [h]; simp [set_contains]
  · rw [h]
    cases s1 with
    | none => simp [is_full] at hf
    | some n1 =>
      refine ⟨Or.inl, fun _ => ?_⟩
      exact covers_of_full n1 h1 hf x
  · rw [h]
    cases s2 with
    | none => simp [is_full] at hf
    | some n2 =>
      refine ⟨Or.inr, fun _ => ?_⟩
      exact covers_of_full n2 h2 hf x
  · obtain ⟨r, hr, -, -, -, -, -, -, hc, -⟩ := mk_union_merge mem n1 n2 h1 h2 hp hf1 hf2
    rw [hr]
    exact hc x

/-- The union of two well-formed sets is well-formed. -/
theorem mk_union_wf (mem : Nat) (s1 s2 : interval_set_ptr α)
    (h1 : well_formed s1 = true) (h2 : well_formed s2 = true) :
    well_formed (mk_union mem s1 s2) = true := by
  rcases mk_union_cases mem s1 s2 with ⟨rfl, h⟩ | ⟨rfl, h⟩ | ⟨rfl, h⟩ | ⟨hf, h⟩ | ⟨hf, h⟩ |
    ⟨n1, n2, rfl, rfl, hp, hf1, hf2⟩
  · rw [h]; exact h2
  · rw [h]; exact h2
  · rw [h]; exact h1
  · rw [h]; exact h1
  · rw [h]; exact h2
  · obtain ⟨r, hr, -, -, hne, hg, hfull, -⟩ := mk_union_merge mem n1 n2 h1 h2 hp hf1 hf2
    rw [hr]
    exact (well_formed_some_iff r).mpr ⟨hne, hg, hfull⟩

/-- C1: for well-formed `s1` and `s2` (null and full included), a number lies in
some interval of `mk_union(s1, s2)` if and only if it lies in some interval of
`s1` or in some interval of `s2`. -/
theorem mk_union_contains (mem : Nat) (s1 s2 : interval_set_ptr α)
    (h1 : well_formed s1 = true) (h2 : well_formed s2 = true) (x : α) :
    set_contains (mk_union mem s1 s2) x ↔ set_contains s1 x ∨ set_contains s2 x :=
  mk_union_covers mem s1 s2 h1 h2 x

/-- Witness of C1 on the sets `{[1,2]}` and `{[4,5]}` at the number 1. -/
theorem mk_union_contains_witness :
    well_formed set_A = true ∧ well_formed set_B = true ∧
      (set_contains (mk_union 3 set_A set_B) 1 ↔ set_contains set_A 1 ∨ set_contains set_B 1) :=
  ⟨by decide, by decide, mk_union_contains 3 set_A set_B (by decide) (by decide) 1⟩

/-- C2: for well-formed `s1` and `s2`, every number of an interval `I` of
`mk_union(s1, s2)` lies in an interval of `s1` or of `s2` that carries the very
justification of `I`: the same literal, hence the same index and the same sign. -/
theorem mk_union_justified (mem : Nat) (s1 s2 : interval_set_ptr α)
    (h1 : well_formed s1 = true) (h2 : well_formed s2 = true) (I : interval α)
    (hI : I ∈ intervals (mk_union mem s1 s2)) (x : α) (hx : I.contains x) :
    ∃ i, (i ∈ intervals s1 ∨ i ∈ intervals s2) ∧
      i.m_justification = I.m_justification ∧
      i.m_justification.index = I.m_justification.index ∧
      i.m_justification.sign = I.m_justification.sign ∧ i.contains x := by
  rcases mk_union_cases mem s1 s2 with ⟨rfl, h⟩ | ⟨rfl, h⟩ | ⟨rfl, h⟩ | ⟨hf, h⟩ | ⟨hf, h⟩ |
    ⟨n1, n2, rfl, rfl, hp, hf1, hf2⟩
  · rw [h] at hI; exact ⟨I, Or.inr hI, rfl, rfl, rfl, hx⟩
  · rw [h] at hI; exact ⟨I, Or.inr hI, rfl, rfl, rfl, hx⟩
  · rw [h] at hI; exact ⟨I, Or.inl hI, rfl, rfl, rfl, hx⟩
  · rw [h] at hI; exact ⟨I, Or.inl hI, rfl, rfl, rfl, hx⟩
  · rw [h] at hI; exact ⟨I, Or.inr hI, rfl, rfl, rfl, hx⟩
  · obtain ⟨r, hr, -, -, -, -, -, -, -, hj, -⟩ := mk_union_merge mem n1 n2 h1 h2 hp hf1 hf2
    rw [hr] at hI
    obtain ⟨i, hi, hij, hic⟩ := hj I hI x hx
    exact ⟨i, List.mem_append.mp hi, hij, by rw [hij], by rw [hij], hic⟩

/-- Witness of C2: the interval `[1,2]` of the union of `{[1,2]}` and `{[4,5]}`
at the number 1. -/
theorem mk_union_justified_witness :
    well_formed set_A = true ∧ well_formed set_B = true ∧
      closed_interval 1 2 1 ∈ intervals (mk_union 3 set_A set_B) ∧
      (closed_interval 1 2 1).contains 1 ∧
      ∃ i, (i ∈ intervals set_A ∨ i ∈ intervals set_B) ∧
        i.m_justification = (closed_interval 1 2 1).m_justification ∧
        i.m_justification.index = (closed_interval 1 2 1).m_justification.index ∧
        i.m_justification.sign = (closed_interval 1 2 1).m_justification.sign ∧
        i.contains 1 :=
  ⟨by decide, by decide, by decide, by decide,
    mk_union_justified 3 set_A set_B (by decide) (by decide) (closed_interval 1 2 1)
      (by decide) 1 (by decide)⟩

/-- C3: `mk_union` preserves well-formedness. For well-formed `s1` and `s2` the
result is well-formed; in particular its intervals pass `check_interval_set`:
each is valid, and each ends at a finite number below the finite number where
the next starts, or at the same number with one of the two sides open. -/
theorem mk_union_well_formed (mem : Nat) (s1 s2 : interval_set_ptr α)
    (h1 : well_formed s1 = true) (h2 : well_formed s2 = true) :
    well_formed (mk_union mem s1 s2) = true ∧
      check_interval_set (intervals (mk_union mem s1 s2)) = true := by
  have key : well_formed (mk_union mem s1 s2) = true := mk_union_wf mem s1 s2 h1 h2
  refine ⟨key, ?_⟩
  cases hr : mk_union mem s1 s2 with
  | none => rfl
  | some r =>
    rw [hr] at key
    exact (check_interval_set_iff _).mpr ((well_formed_some_iff r).mp key).2.1

/-- Witness of C3 on the sets `{[1,2]}` and `{[4,5]}`. -/
theorem mk_union_well_formed_witness :
    well_formed set_A = true ∧ well_formed set_B = true ∧
      well_formed (mk_union 3 set_A set_B) = true ∧
      check_interval_set (intervals (mk_union 3 set_A set_B)) = true :=
  ⟨by decide, by decide, mk_union_well_formed 3 set_A set_B (by decide) (by decide)⟩

/-- C4: the flag `m_full` of a set built by the engine is set if and only if
every number lies in some interval of the set, and if and only if the first
lower endpoint is infinite, the last upper endpoint is infinite and every
consecutive pair of intervals is adjacent. -/
theorem produced_full_iff (s : interval_set_ptr α) (h : produced s) :
    (is_full s = true ↔ ∀ x, set_contains s x) ∧
      (is_full s = true ↔ full_cond (intervals s) = true) := by
  have hwf : well_formed s = true := by
    induction h with
    | empty => rfl
    | single mem lo li l uo ui u j cls h =>
      simp only [mk, intervals] at h
      simp only [mk, well_formed, h, List.isEmpty_cons, Bool.not_false, Bool.true_and,
        full_cond, List.head?_cons, List.getLast?_singleton, all_adjacent, Bool.and_true,
        beq_self_eq_true]
    | union mem s1 s2 _ _ ih1 ih2 => exact mk_union_wf mem s1 s2 ih1 ih2
  cases s with
  | none =>
    simp only [is_full, Bool.false_eq_true, set_contains, false_iff, not_forall, not_false_eq_true,
      exists_const, intervals, full_cond, List.head?_nil, true_and]
  | some n =>
    obtain ⟨-, hg, hfull⟩ := (well_formed_some_iff n).mp hwf
    have h2 : is_full (some n) = true ↔ full_cond (intervals (some n)) = true := by
      simp only [is_full, intervals, hfull]
    refine ⟨?_, h2⟩
    rw [h2]
    exact full_cond_iff _ hg

/-- Witness of C4: the set `{[1,2]}` built by `mk`. -/
theorem produced_full_iff_witness :
    (is_full (mk 1 false false (1 : ℚ) false false 2 ⟨1, false⟩ none) = true ↔
        ∀ x, set_contains (mk 1 false false (1 : ℚ) false false 2 ⟨1, false⟩ none) x) ∧
      (is_full (mk 1 false false (1 : ℚ) false false 2 ⟨1, false⟩ none) = true ↔
        full_cond (intervals (mk 1 false false (1 : ℚ) false false 2 ⟨1, false⟩ none)) = true) :=
  produced_full_iff _ (produced.single 1 false false 1 false false 2 ⟨1, false⟩ none (by decide))

/-- In a compressed list no two consecutive intervals are adjacent with equal
justifications. -/
theorem no_fusable_pair_of_compressed (l : List (interval α)) (hc : compressed l) :
    no_fusable_pair l := by
  intro i a b ha hb
  induction l generalizing i with
  | nil => simp at ha
  | cons c l ih =>
    cases l with
    | nil => simp at hb
    | cons d l =>
      unfold compressed at hc
      rw [List.chain'_cons] at hc
      cases i with
      | zero =>
        simp only [List.getElem?_cons_zero, Option.some.injEq, zero_add,
          List.getElem?_cons_succ] at ha hb
        subst ha hb
        exact fun h => hc.1 ⟨h.2, h.1⟩
      | succ i =>
        simp only [List.getElem?_cons_succ] at ha hb
        exact ih hc.2 i ha (by simpa using hb)

/-- For well-formed operands in which no two consecutive intervals are adjacent
with equal justifications, the same holds of `mk_union(s1, s2)`: a shortcut
returns an operand as it is, and the merge path ends with the compression
sweep. -/
theorem mk_union_no_fusable_pair (mem : Nat) (s1 s2 : interval_set_ptr α)
    (h1 : well_formed s1 = true) (h2 : well_formed s2 = true)
    (hc1 : no_fusable_pair (intervals s1)) (hc2 : no_fusable_pair (intervals s2)) :
    no_fusable_pair (intervals (mk_union mem s1 s2)) := by
  rcases mk_union_cases mem s1 s2 with ⟨-, h⟩ | ⟨-, h⟩ | ⟨-, h⟩ | ⟨-, h⟩ | ⟨-, h⟩ |
    ⟨n1, n2, rfl, rfl, hp, hf1, hf2⟩
  · rw [h]; exact hc2
  · rw [h]; exact hc2
  · rw [h]; exact hc1
  · rw [h]; exact hc1
  · rw [h]; exact hc2
  · obtain ⟨r, hr, -, -, -, -, -, hc, -⟩ := mk_union_merge mem n1 n2 h1 h2 hp hf1 hf2
    rw [hr]
    exact no_fusable_pair_of_compressed r.m_intervals hc

/-- A set built by `mk_empty`, `mk` and `mk_union` is well formed and has no two
consecutive intervals that are adjacent with equal justifications. -/
theorem produced_no_fusable_pair (s : interval_set_ptr α) (h : produced s) :
    well_formed s = true ∧ no_fusable_pair (intervals s) := by
  induction h with
  | empty =>
    refine ⟨rfl, ?_⟩
    intro i a b ha
    simp [mk_empty, intervals] at ha
  | single mem lo li l uo ui u j cls h =>
    refine ⟨?_, ?_⟩
    · simp only [mk, intervals] at h
      simp only [mk, well_formed, h, List.isEmpty_cons, Bool.not_false, Bool.true_and,
        full_cond, List.head?_cons, List.getLast?_singleton, all_adjacent, Bool.and_true,
        beq_self_eq_true]
    · intro i a b _ hb
      simp [mk, intervals] at hb
  | union mem s1 s2 _ _ ih1 ih2 =>
    exact ⟨mk_union_wf mem s1 s2 ih1.1 ih2.1,
      mk_union_no_fusable_pair mem s1 s2 ih1.1 ih2.1 ih1.2 ih2.2⟩

/-- C5: for all `s1` and `s2` built by `mk_empty`, `mk` and `mk_union`, which are
well formed, the result of `mk_union(s1, s2)` is compressed: there is no index
`i` such that the intervals `i` and `i+1` of the result are adjacent and carry
equal justifications. The non-null, non-full operands of the statement are
among them, and so are the null and the full ones. -/
theorem mk_union_compressed (mem : Nat) (s1 s2 : interval_set_ptr α)
    (h1 : produced s1) (h2 : produced s2) :
    well_formed s1 = true ∧ well_formed s2 = true ∧
      no_fusable_pair (intervals (mk_union mem s1 s2)) :=
  ⟨(produced_no_fusable_pair s1 h1).1, (produced_no_fusable_pair s2 h2).1,
    mk_union_no_fusable_pair mem s1 s2 (produced_no_fusable_pair s1 h1).1
      (produced_no_fusable_pair s2 h2).1 (produced_no_fusable_pair s1 h1).2
      (produced_no_fusable_pair s2 h2).2⟩

/-- Witness of C5 on a run of three: `{[0,1), [2,3]}`, itself the union of
`{[0,1)}` and `{[2,3]}`, and `{[1,2)}`, all justified by `L1`, are non-null and
non-full, and their union is the one interval `[0,3]`. -/
theorem mk_union_compressed_witness :
    produced (mk_union 3 (mk 1 false false (0 : ℚ) true false 1 ⟨1, false⟩ none)
        (mk 2 false false 2 false false 3 ⟨1, false⟩ none)) ∧
      produced (mk 4 false false (1 : ℚ) true false 2 ⟨1, false⟩ none) ∧
      intervals (mk_union 3 (mk 1 false false (0 : ℚ) true false 1 ⟨1, false⟩ none)
          (mk 2 false false 2 false false 3 ⟨1, false⟩ none)) =
        [bounded_interval false 0 true 1 1, closed_interval 2 3 1] ∧
      is_full (mk_union 3 (mk 1 false false (0 : ℚ) true false 1 ⟨1, false⟩ none)
          (mk 2 false false 2 false false 3 ⟨1, false⟩ none)) = false ∧
      is_full (mk 4 false false (1 : ℚ) true false 2 ⟨1, false⟩ none) = false ∧
      intervals (mk_union 5
          (mk_union 3 (mk 1 false false (0 : ℚ) true false 1 ⟨1, false⟩ none)
            (mk 2 false false 2 false false 3 ⟨1, false⟩ none))
          (mk 4 false false 1 true false 2 ⟨1, false⟩ none)) = [closed_interval 0 3 1] ∧
      no_fusable_pair (intervals (mk_union 5
          (mk_union 3 (mk 1 false false (0 : ℚ) true false 1 ⟨1, false⟩ none)
            (mk 2 false false 2 false false 3 ⟨1, false⟩ none))
          (mk 4 false false 1 true false 2 ⟨1, false⟩ none))) :=
  ⟨produced.union 3 _ _
      (produced.single 1 false false 0 true false 1 ⟨1, false⟩ none (by decide))
      (produced.single 2 false false 2 false false 3 ⟨1, false⟩ none (by decide)),
    produced.single 4 false false 1 true false 2 ⟨1, false⟩ none (by decide),
    by decide, by decide, by decide, by decide,
    (mk_union_compressed 5 _ _
      (produced.union 3 _ _
        (produced.single 1 false false 0 true false 1 ⟨1, false⟩ none (by decide))
        (produced.single 2 false false 2 false false 3 ⟨1, false⟩ none (by decide)))
      (produced.single 4 false false 1 true false 2 ⟨1, false⟩ none (by decide))).2.2⟩

/-- C6: for well-formed `s1` and `s2` (null and full included), `subset(s1, s2)`
is true if and only if every number contained in some interval of `s1` is
contained in some interval of `s2`. -/
theorem subset_iff (s1 s2 : interval_set_ptr α) (h1 : well_formed s1 = true)
    (h2 : well_formed s2 = true) :
    subset s1 s2 = true ↔ ∀ x, set_contains s1 x → set_contains s2 x :=
  subset_spec s1 s2 h1 h2

/-- Witness of C6 on the sets `{[1,2]}` and `{[0,3]}`. -/
theorem subset_iff_witness :
    well_formed set_A = true ∧ well_formed set_E = true ∧
      (subset set_A set_E = true ↔ ∀ x, set_contains set_A x → set_contains set_E x) :=
  ⟨by decide, by decide, subset_iff set_A set_E (by decide) (by decide)⟩

/-- C8: for well-formed `s1` and `s2`, each operand is a subset of the union. -/
theorem subset_mk_union (mem : Nat) (s1 s2 : interval_set_ptr α)
    (h1 : well_formed s1 = true) (h2 : well_formed s2 = true) :
    subset s1 (mk_union mem s1 s2) = true ∧ subset s2 (mk_union mem s1 s2) = true := by
  have hw := mk_union_wf mem s1 s2 h1 h2
  rw [subset_spec _ _ h1 hw, subset_spec _ _ h2 hw]
  exact ⟨fun x hx => (mk_union_covers mem s1 s2 h1 h2 x).mpr (Or.inl hx),
    fun x hx => (mk_union_covers mem s1 s2 h1 h2 x).mpr (Or.inr hx)⟩

/-- Witness of C8 on the sets `{[1,2]}` and `{[4,5]}`. -/
theorem subset_mk_union_witness :
    well_formed set_A = true ∧ well_formed set_B = true ∧
      subset set_A (mk_union 3 set_A set_B) = true ∧
      subset set_B (mk_union 3 set_A set_B) = true :=
  ⟨by decide, by decide, subset_mk_union 3 set_A set_B (by decide) (by decide)⟩

/-- C9: for well-formed `s1` and `s2`, the unions taken in the two orders are
equal as sets of numbers: `set_eq(mk_union(s1, s2), mk_union(s2, s1))` is true,
whatever the addresses of the two results. -/
theorem set_eq_mk_union_comm (mem mem' : Nat) (s1 s2 : interval_set_ptr α)
    (h1 : well_formed s1 = true) (h2 : well_formed s2 = true) :
    set_eq (mk_union mem s1 s2) (mk_union mem' s2 s1) = true := by
  rw [set_eq_spec _ _ (mk_union_wf mem s1 s2 h1 h2) (mk_union_wf mem' s2 s1 h2 h1)]
  intro x
  rw [mk_union_covers mem s1 s2 h1 h2 x, mk_union_covers mem' s2 s1 h2 h1 x]
  exact or_comm

/-- Witness of C9 on the sets `{[1,2]}` and `{[0,3]}`. -/
theorem set_eq_mk_union_comm_witness :
    well_formed set_A = true ∧ well_formed set_E = true ∧
      set_eq (mk_union 5 set_A set_E) (mk_union 6 set_E set_A) = true :=
  ⟨by decide, by decide, set_eq_mk_union_comm 5 6 set_A set_E (by decide) (by decide)⟩

/-- C10: for well-formed `s1` and `s2` (null and full included), `set_eq(s1, s2)`
is true if and only if the two sets contain the same numbers, and it has the
value of `subset(s1, s2) && subset(s2, s1)`. -/
theorem set_eq_iff (s1 s2 : interval_set_ptr α) (h1 : well_formed s1 = true)
    (h2 : well_formed s2 = true) :
    (set_eq s1 s2 = true ↔ ∀ x, set_contains s1 x ↔ set_contains s2 x) ∧
      set_eq s1 s2 = (subset s1 s2 && subset s2 s1) := by
  refine ⟨set_eq_spec s1 s2 h1 h2, ?_⟩
  rw [Bool.eq_iff_iff, set_eq_spec s1 s2 h1 h2, Bool.and_eq_true, subset_spec _ _ h1 h2,
    subset_spec _ _ h2 h1]
  exact ⟨fun h => ⟨fun x => (h x).mp, fun x => (h x).mpr⟩, fun h x => ⟨h.1 x, h.2 x⟩⟩

/-- Witness of C10 on the sets `{[1,2]}` and `{[0,3]}`. -/
theorem set_eq_iff_witness :
    well_formed set_A = true ∧ well_formed set_E = true ∧
      (set_eq set_A set_E = true ↔ ∀ x, set_contains set_A x ↔ set_contains set_E x) ∧
      set_eq set_A set_E = (subset set_A set_E && subset set_E set_A) :=
  ⟨by decide, by decide, set_eq_iff set_A set_E (by decide) (by decide)⟩

/-- C7: on a well-formed set that is not full (null included), for either
value of `is_int` and of `randomize` and every state of the generator,
whenever `peek_in_complement` returns, the value it leaves in `w` lies in no
interval of the set; in a build without assertions it always returns. This
assumes that `int_lt` is below its argument, `int_gt` above, and `select`
between its two arguments. -/
theorem peek_in_complement_outside (am : anum_services α) (debug : Bool) (m_rand : Nat → Nat)
    (s : interval_set_ptr α) (is_int : Bool) (w : α) (randomize : Bool)
    (hwf : well_formed s = true) (hnf : is_full s = false)
    (hlt : ∀ a, am.int_lt a < a) (hgt : ∀ a, a < am.int_gt a)
    (hsel : ∀ a b, a < b → a < am.select a b ∧ am.select a b < b) :
    (∀ w' r, peek_in_complement am debug m_rand s is_int w randomize =
        peek_outcome.returned w' r → ¬ set_contains s w') ∧
      (debug = false → ∃ w' r, peek_in_complement am debug m_rand s is_int w randomize =
        peek_outcome.returned w' r) := by
  have key : peek_post (fun x => ¬ set_contains s x) debug
      (peek_in_complement am debug m_rand s is_int w randomize) := by
    cases s with
    | none =>
      unfold peek_in_complement
      simp only [is_full, Bool.and_false, Bool.false_eq_true, if_false]
      split_ifs <;> exact fun h => h
    | some node => exact peek_some_sound am debug m_rand node is_int w randomize hwf hnf hlt hgt hsel
  revert key
  cases peek_in_complement am debug m_rand s is_int w randomize with
  | returned w' r =>
    intro key
    refine ⟨fun w'' r' h => ?_, fun _ => ⟨w', r, rfl⟩⟩
    simp only [peek_outcome.returned.injEq] at h
    rw [← h.1]
    exact key
  | assertion_violation =>
    intro key
    refine ⟨fun _ _ h => by simp at h, fun h => ?_⟩
    have : debug = true := key
    rw [this] at h
    exact absurd h (by simp)
  | out_of_bounds => exact fun key => key.elim

/-- Witness of C7 on the set `{[-5,5]}` with `is_int` set, in the
deterministic mode, in a build without assertions. -/
theorem peek_in_complement_outside_witness :
    well_formed set_F = true ∧ is_full set_F = false ∧
      ((∀ w' r, peek_in_complement rational_services false (fun _ => 0) set_F true 0 false =
          peek_outcome.returned w' r → ¬ set_contains set_F w') ∧
        (false = false → ∃ w' r,
          peek_in_complement rational_services false (fun _ => 0) set_F true 0 false =
            peek_outcome.returned w' r)) :=
  ⟨by decide, by decide,
    peek_in_complement_outside rational_services false (fun _ => 0) set_F true 0 false
      (by decide) (by decide)
      (fun a => by
        have := Int.ceil_lt_add_one a
        simp only [rational_services]
        linarith)
      (fun a => by
        have := Int.lt_floor_add_one a
        simp only [rational_services]
        linarith)
      (fun a b h => by
        simp only [rational_services]
        constructor <;> linarith)⟩

end claims

section claims_identities

variable {α : Type} [LinearOrderedField α]

/-- C11: the empty set is the identity of union. For every set `s` (null
included), `mk_union(s, mk_empty())` and `mk_union(mk_empty(), s)` are both the
pointer `s` itself, hence the same node with the same intervals,
justifications, clauses and full flag. -/
theorem mk_union_empty (mem : Nat) (s : interval_set_ptr α) :
    mk_union mem s mk_empty = s ∧ mk_union mem mk_empty s = s := by
  constructor
  · cases s with
    | none => simp [mk_union, mk_empty]
    | some n => simp [mk_union, mk_empty, ptr_eq]
  · simp [mk_union, mk_empty]

/-- C12: a full set absorbs under union. For every node `s` and every node `f`
whose flag `m_full` is set, `mk_union(s, f)` and `mk_union(f, s)` return a full
set, which is the first operand when it is full and `f` otherwise. -/
theorem mk_union_full (mem : Nat) (s f : interval_set α) (hf : f.m_full = true) :
    mk_union mem (some s) (some f) = (if s.m_full then some s else some f) ∧
      mk_union mem (some f) (some s) = some f ∧
      is_full (mk_union mem (some s) (some f)) = true ∧
      is_full (mk_union mem (some f) (some s)) = true := by
  have h1 : mk_union mem (some s) (some f) = (if s.m_full then some s else some f) := by
    by_cases hp : s = f
    · subst hp
      simp [mk_union, ptr_eq, hf]
    · cases hs : s.m_full <;> simp [mk_union, ptr_eq, hp, hf, hs]
  have h2 : mk_union mem (some f) (some s) = some f := by
    by_cases hp : f = s
    · subst hp
      simp [mk_union, ptr_eq]
    · simp [mk_union, ptr_eq, hp, hf]
  refine ⟨h1, h2, ?_, ?_⟩
  · rw [h1]
    cases hs : s.m_full <;> simp [is_full, hs, hf]
  · rw [h2]
    simp [is_full, hf]

/-- Witness of C12: the node of `{[1,2]}` and a full node. -/
theorem mk_union_full_witness :
    set_full.m_full = true ∧
      mk_union 3 (some node_A) (some set_full) =
        (if node_A.m_full then some node_A else some set_full) ∧
      mk_union 3 (some set_full) (some node_A) = some set_full ∧
      is_full (mk_union 3 (some node_A) (some set_full)) = true ∧
      is_full (mk_union 3 (some set_full) (some node_A)) = true :=
  ⟨rfl, mk_union_full 3 node_A set_full rfl⟩

/-- C13: `subset` and `set_eq` are reflexive on well-formed sets (null and full
included), and they stay true between two nodes with identical contents, at
the same address or not. -/
theorem subset_set_eq_refl (s s' : interval_set_ptr α) (h : well_formed s = true)
    (hc : same_contents s s') :
    subset s s = true ∧ set_eq s s = true ∧ subset s s' = true ∧ subset s' s = true ∧
      set_eq s s' = true ∧ set_eq s' s = true := by
  have h' : well_formed s' = true := by
    cases s with
    | none => cases s' with
      | none => rfl
      | some n' => exact hc.elim
    | some n => cases s' with
      | none => exact hc.elim
      | some n' =>
        obtain ⟨e1, e2⟩ := hc
        simp only [well_formed, e1, e2] at h ⊢
        exact h
  have hx : ∀ x, set_contains s x ↔ set_contains s' x := by
    intro x
    cases s with
    | none => cases s' with
      | none => exact Iff.rfl
      | some n' => exact hc.elim
    | some n => cases s' with
      | none => exact hc.elim
      | some n' =>
        obtain ⟨e1, -⟩ := hc
        simp only [set_contains, e1]
  refine ⟨?_, ?_, ?_, ?_, ?_, ?_⟩
  · rw [subset_spec s s h h]; exact fun x hx' => hx'
  · rw [set_eq_spec s s h h]; exact fun x => Iff.rfl
  · rw [subset_spec s s' h h']; exact fun x => (hx x).mp
  · rw [subset_spec s' s h' h]; exact fun x => (hx x).mpr
  · rw [set_eq_spec s s' h h']; exact hx
  · rw [set_eq_spec s' s h' h]; exact fun x => (hx x).symm

/-- Witness of C13: the set `{[1,2]}` in two nodes at different addresses. -/
theorem subset_set_eq_refl_witness :
    well_formed set_A = true ∧ same_contents set_A set_A_copy ∧ set_A ≠ set_A_copy ∧
      subset set_A set_A = true ∧ set_eq set_A set_A = true ∧
      subset set_A set_A_copy = true ∧ subset set_A_copy set_A = true ∧
      set_eq set_A set_A_copy = true ∧ set_eq set_A_copy set_A = true :=
  ⟨by decide, ⟨rfl, rfl⟩, by decide,
    subset_set_eq_refl set_A set_A_copy (by decide) ⟨rfl, rfl⟩⟩

/-- The compression keeps apart two intervals with different justifications. -/
theorem compress_loop_pair (a b : interval α)
    (h : a.m_justification ≠ b.m_justification) : compress_loop [] a [] [b] = [a, b] := by
  rw [compress_loop, if_neg (by simp [h])]
  rfl

/-- C14 fails as stated: the union of `{[1,3]}` justified by `L1` and `{[2,4]}`
justified by `L2` is not `{[1,3], (3,4]}`. Its first interval ends at 2, open,
and its second interval starts at 2, closed. -/
theorem mk_union_overlap_not_clipped_right :
    intervals (mk_union 3 set_C set_D) ≠
        [closed_interval 1 3 1, bounded_interval true 3 false 4 2] ∧
      intervals (mk_union 3 set_C set_D) =
        [bounded_interval false 1 true 2 1, closed_interval 2 4 2] := by
  constructor <;> decide

/-- C14, amended: for `A = {[1,3]}` justified by `L1` and `B = {[2,4]}` justified
by a different literal `L2`, `mk_union(A, B)` is the two-interval set
`{[1,2), [2,4]}`, not full: the interval that starts first is cut where the
other starts, its upper endpoint becoming 2 and open, and the other interval
is kept whole; each keeps its literal. -/
theorem mk_union_overlap (mem a1 a2 : Nat) (L1 L2 : literal) (h : L1 ≠ L2) :
    intervals (mk_union mem (plain_set a1 [literal_interval false 1 false 3 L1 none])
        (plain_set a2 [literal_interval false 2 false 4 L2 none])) =
        [literal_interval false 1 true 2 L1 none, literal_interval false 2 false 4 L2 none] ∧
      is_full (mk_union mem (plain_set a1 [literal_interval false 1 false 3 L1 none])
        (plain_set a2 [literal_interval false 2 false 4 L2 none])) = false := by
  have hne : plain_set a1 [literal_interval false 1 false 3 L1 none] ≠
      plain_set a2 [literal_interval false 2 false 4 L2 none] := by
    intro he
    simp [plain_set, literal_interval] at he
  have hc := compress_loop_pair (literal_interval false 1 true 2 L1 none)
    (literal_interval false 2 false 4 L2 none) h
  simp only [literal_interval] at hc
  constructor <;>
    simp [mk_union, ptr_eq, hne, plain_set, literal_interval, interval_set.m_num_intervals,
      union_loop, compare_lower_lower, compare_upper_upper, compare_upper_lower, am_compare,
      sign_neg, sign_zero, sign_pos, push_back, push_back_interval, hc, adjacent,
      find_slack, mk_interval, intervals, is_full] <;>
    norm_num [hc, find_slack, adjacent, am_compare, sign_neg, sign_zero, sign_pos]

/-- Witness of the amended C14 with the literals of the variables 1 and 2. -/
theorem mk_union_overlap_witness :
    (⟨1, false⟩ : literal) ≠ ⟨2, false⟩ ∧
      intervals (mk_union 3 (plain_set 1 [literal_interval false 1 false 3 ⟨1, false⟩ none])
        (plain_set 2 [literal_interval false 2 false 4 ⟨2, false⟩ none])) =
        [literal_interval false 1 true 2 ⟨1, false⟩ none,
          literal_interval false 2 false 4 ⟨2, false⟩ none] ∧
      is_full (mk_union 3 (plain_set 1 [literal_interval false 1 false 3 ⟨1, false⟩ none])
        (plain_set 2 [literal_interval false 2 false 4 ⟨2, false⟩ none])) = false :=
  ⟨by decide, mk_union_overlap 3 1 2 ⟨1, false⟩ ⟨2, false⟩ (by decide)⟩

/-- The compression writes no clause: when no cell of the buffer has one, no
cell of the result has one. -/
theorem compress_loop_clause (rest done mid : List (interval α)) (curr : interval α)
    (h1 : ∀ i ∈ done, i.m_clause = none) (h2 : curr.m_clause = none)
    (h3 : ∀ i ∈ mid, i.m_clause = none) (h4 : ∀ i ∈ rest, i.m_clause = none) :
    ∀ o ∈ compress_loop done curr mid rest, o.m_clause = none := by
  induction rest generalizing done mid curr with
  | nil =>
    intro o ho
    simp only [compress_loop, List.mem_append, List.mem_singleton] at ho
    rcases ho with ho | rfl
    · exact h1 o ho
    · exact h2
  | cons next rest ih =>
    have hn : next.m_clause = none := h4 next (List.mem_cons_self _ _)
    have hr : ∀ i ∈ rest, i.m_clause = none := fun i hi => h4 i (List.mem_cons_of_mem _ hi)
    have hd : ∀ i ∈ done ++ [curr], i.m_clause = none := by
      intro i hi
      rcases List.mem_append.mp hi with hi | hi
      · exact h1 i hi
      · rw [List.mem_singleton] at hi; rw [hi]; exact h2
    simp only [compress_loop]
    split_ifs
    · refine ih done _ _ h1 h2 ?_ hr
      intro i hi
      rcases List.mem_append.mp hi with hi | hi
      · exact h3 i hi
      · rw [List.mem_singleton] at hi; rw [hi]; exact hn
    · cases mid with
      | nil => exact ih _ _ _ hd hn (fun _ hi => absurd hi (List.not_mem_nil _)) hr
      | cons next_curr mid' =>
        refine ih _ _ _ hd (h3 next_curr (List.mem_cons_self _ _)) ?_ hr
        intro i hi
        rcases List.mem_append.mp hi with hi | hi
        · exact h3 i (List.mem_cons_of_mem _ hi)
        · rw [List.mem_singleton] at hi; rw [hi]; exact hn

/-- On the merge path, that is for two different non-null nodes none of which
is full, no interval of the union has a clause, whatever the clauses of the
operands. -/
theorem mk_union_clause_null (mem : Nat) (n1 n2 : interval_set α)
    (h1 : well_formed (some n1) = true) (h2 : well_formed (some n2) = true)
    (hp : ptr_eq (some n1) (some n2) = false) (hf1 : n1.m_full = false)
    (hf2 : n2.m_full = false) :
    ∀ I ∈ intervals (mk_union mem (some n1) (some n2)), I.m_clause = none := by
  obtain ⟨r, hr, -, -, -, -, -, -, -, -, first, rest, hu, hc⟩ :=
    mk_union_merge mem n1 n2 h1 h2 hp hf1 hf2
  obtain ⟨hne1, hg1, -⟩ := (well_formed_some_iff n1).mp h1
  obtain ⟨-, hg2, -⟩ := (well_formed_some_iff n2).mp h2
  have hfuel : 1 ≤ n1.m_num_intervals + n2.m_num_intervals := by
    have := List.length_pos.mpr hne1
    unfold interval_set.m_num_intervals; omega
  obtain ⟨-, -, kj⟩ := union_loop_spec _ _ _ ⊥ hfuel (le_refl _) hg1 hg2 (fun _ _ => bot_le)
    (fun _ _ => bot_le)
  rw [hu] at kj
  have hcl : ∀ e ∈ first :: rest, e.m_clause = none := by
    intro e he
    obtain ⟨src, -, hcf, -⟩ := kj e he
    exact hcf.2.2.1
  rw [hr]
  show ∀ I ∈ r.m_intervals, I.m_clause = none
  rw [hc]
  exact compress_loop_clause rest [] [] first (fun _ hi => absurd hi (List.not_mem_nil _))
    (hcl first (List.mem_cons_self _ _)) (fun _ hi => absurd hi (List.not_mem_nil _))
    (fun i hi => hcl i (List.mem_cons_of_mem _ hi))

/-- C15 fails on the code: the union of `{[1,2]}` justified by `L1` with clause
10 and `{[4,5]}` justified by `L2` with clause 20 keeps the two literals and
loses the two clauses. `get_justifications` returns the clause of each operand
and returns no clause for their union, whose intervals all have a null clause. -/
theorem mk_union_drops_clauses :
    (get_justifications (fun _ => false) set_A_clause).2 = ([⟨1, false⟩], [10]) ∧
      (get_justifications (fun _ => false) set_B_clause).2 = ([⟨2, false⟩], [20]) ∧
      (get_justifications (fun _ => false) (mk_union 3 set_A_clause set_B_clause)).2 =
        ([⟨1, false⟩, ⟨2, false⟩], []) ∧
      ∀ I ∈ intervals (mk_union 3 set_A_clause set_B_clause), I.m_clause = none := by
  refine ⟨by decide, by decide, by decide, ?_⟩
  exact mk_union_clause_null 3 _ _ (by decide) (by decide) (by decide) rfl rfl

end claims_identities

section claims_justifications

variable {α : Type} [LinearOrderedField α]

/-- The index of a literal determines the literal. -/
theorem literal_index_inj (a b : literal) : a.index = b.index ↔ a = b := by
  constructor
  · intro h
    cases a with
    | mk va sa =>
      cases b with
      | mk vb sb =>
        simp only [literal.index] at h
        have hv : va = vb := by
          cases sa <;> cases sb <;> simp at h <;> omega
        have hs : sa = sb := by
          cases sa <;> cases sb <;> simp at h ⊢ <;> omega
        rw [hv, hs]
  · intro h
    rw [h]

/-- The intervals that the first loop of `get_justifications` records: those
at which a literal occurs for the first time and whose literal is not marked
in the bitmap. -/
theorem collect_justifications_spec (l : List (interval α)) :
    ∀ (v : Nat → Bool) (js : List literal) (cls : List Nat),
      (collect_justifications l v js cls).2.1 =
          js ++ ((first_literal_intervals l).filter
            (fun k => !v k.m_justification.index)).map (fun k => k.m_justification) ∧
        (collect_justifications l v js cls).2.2 =
          cls ++ ((first_literal_intervals l).filter
            (fun k => !v k.m_justification.index)).filterMap (fun k => k.m_clause) := by
  induction l with
  | nil =>
    intro v js cls
    simp [collect_justifications, first_literal_intervals]
  | cons i rest ih =>
    intro v js cls
    simp only [collect_justifications, first_literal_intervals]
    by_cases hv : v i.m_justification.index = true
    · rw [if_pos hv]
      have hf : ((i :: (first_literal_intervals rest).filter
            (fun k => decide (k.m_justification ≠ i.m_justification))).filter
            (fun k => !v k.m_justification.index)) =
          (first_literal_intervals rest).filter (fun k => !v k.m_justification.index) := by
        rw [List.filter_cons_of_neg (by simp [hv]), List.filter_filter]
        apply List.filter_congr
        intro k _
        by_cases hk : k.m_justification = i.m_justification
        · simp [hk, hv]
        · simp [hk]
      rw [hf]
      exact ih v js cls
    · rw [if_neg hv]
      have hv' : v i.m_justification.index = false := by simpa using hv
      have hf : ((i :: (first_literal_intervals rest).filter
            (fun k => decide (k.m_justification ≠ i.m_justification))).filter
            (fun k => !v k.m_justification.index)) =
          i :: (first_literal_intervals rest).filter
            (fun k => !(Function.update v i.m_justification.index true)
              k.m_justification.index) := by
        rw [List.filter_cons_of_pos (by simp [hv']), List.filter_filter]
        congr 1
        apply List.filter_congr
        intro k _
        by_cases hk : k.m_justification = i.m_justification
        · rw [hk]
          simp
        · have hne : k.m_justification.index ≠ i.m_justification.index :=
            fun h => hk ((literal_index_inj _ _).mp h)
          simp [hk, Function.update_noteq hne]
      rw [hf]
      cases hc : i.m_clause with
      | none =>
        obtain ⟨h1, h2⟩ := ih (Function.update v i.m_justification.index true)
          (js ++ [i.m_justification]) cls
        simp only [h1, h2]
        constructor
        · simp
        · simp [List.filterMap_cons, hc]
      | some c =>
        obtain ⟨h1, h2⟩ := ih (Function.update v i.m_justification.index true)
          (js ++ [i.m_justification]) (cls ++ [c])
        simp only [h1, h2]
        constructor
        · simp
        · simp [List.filterMap_cons, hc]

/-- The literals of the intervals at which a literal first occurs are the
literals of the list without their later repetitions. -/
theorem first_literal_intervals_map (l : List (interval α)) :
    (first_literal_intervals l).map (fun k => k.m_justification) =
      remove_later_repetitions (l.map (fun k => k.m_justification)) := by
  induction l with
  | nil => rfl
  | cons i rest ih =>
    simp only [first_literal_intervals, List.map_cons, remove_later_repetitions]
    rw [← ih, List.filter_map]
    rfl

theorem remove_later_repetitions_mem (l : List literal) (b : literal) :
    b ∈ remove_later_repetitions l ↔ b ∈ l := by
  induction l with
  | nil => simp [remove_later_repetitions]
  | cons a l ih =>
    simp only [remove_later_repetitions, List.mem_cons, List.mem_filter, ih]
    by_cases h : b = a
    · simp [h]
    · simp [h]

theorem remove_later_repetitions_nodup (l : List literal) :
    (remove_later_repetitions l).Nodup := by
  induction l with
  | nil => simp [remove_later_repetitions]
  | cons a l ih =>
    simp only [remove_later_repetitions, List.nodup_cons]
    exact ⟨by simp [List.mem_filter], ih.sublist (List.filter_sublist _)⟩

theorem remove_later_repetitions_sublist (l : List literal) :
    (remove_later_repetitions l).Sublist l := by
  induction l with
  | nil => simp [remove_later_repetitions]
  | cons a l ih =>
    simp only [remove_later_repetitions]
    exact ((List.filter_sublist _).trans ih).cons₂ a

theorem first_literal_intervals_sublist (l : List (interval α)) :
    (first_literal_intervals l).Sublist l := by
  induction l with
  | nil => simp [first_literal_intervals]
  | cons a l ih =>
    simp only [first_literal_intervals]
    exact ((List.filter_sublist _).trans ih).cons₂ a

theorem first_literal_intervals_pairwise (l : List (interval α)) :
    (first_literal_intervals l).Pairwise
      (fun i k => i.m_justification ≠ k.m_justification) := by
  induction l with
  | nil => simp [first_literal_intervals]
  | cons a l ih =>
    simp only [first_literal_intervals, List.pairwise_cons]
    refine ⟨?_, ih.sublist (List.filter_sublist _)⟩
    intro k hk
    have := (List.mem_filter.mp hk).2
    simp only [decide_eq_true_eq] at this
    exact fun h => this h.symm

theorem first_literal_intervals_repr (l : List (interval α)) (i : interval α) (hi : i ∈ l) :
    ∃ k ∈ first_literal_intervals l, k.m_justification = i.m_justification := by
  induction l with
  | nil => simp at hi
  | cons a l ih =>
    simp only [first_literal_intervals]
    by_cases h : i.m_justification = a.m_justification
    · exact ⟨a, List.mem_cons_self _ _, h.symm⟩
    · rcases List.mem_cons.mp hi with rfl | hi'
      · exact absurd rfl h
      · obtain ⟨k, hk, hkj⟩ := ih hi'
        refine ⟨k, List.mem_cons_of_mem _ (List.mem_filter.mpr ⟨hk, ?_⟩), hkj⟩
        simp only [decide_eq_true_eq]
        rw [hkj]
        exact h

/-- The two output lists of `get_justifications` on a bitmap that is false
everywhere: the literals and the non-null clauses of the intervals at which a
literal occurs for the first time. -/
theorem get_justifications_spec (v : Nat → Bool) (s : interval_set_ptr α)
    (hv : ∀ i, v i = false) :
    (get_justifications v s).2.1 =
        (first_literal_intervals (intervals s)).map (fun k => k.m_justification) ∧
      (get_justifications v s).2.2 =
        (first_literal_intervals (intervals s)).filterMap (fun k => k.m_clause) := by
  have hf : (first_literal_intervals (intervals s)).filter
      (fun k => !v k.m_justification.index) = first_literal_intervals (intervals s) := by
    rw [List.filter_eq_self]
    intro a _
    simp [hv]
  obtain ⟨h1, h2⟩ := collect_justifications_spec (intervals s) v [] []
  rw [hf] at h1 h2
  unfold get_justifications
  simp only [h1, h2, List.nil_append, and_self]

/-- C16: on a bitmap that is false everywhere, the literal list of
`get_justifications(s)`, for a null or non-null `s`, is the sequence of the
interval justifications of `s` with the later repetitions removed. It holds
every justification of `s` and nothing else, holds no literal twice, keeps the
order of the intervals, and lists a literal and its negation separately. -/
theorem get_justifications_literals (v : Nat → Bool) (s : interval_set_ptr α)
    (hv : ∀ i, v i = false) :
    (get_justifications v s).2.1 =
        remove_later_repetitions ((intervals s).map (fun k => k.m_justification)) ∧
      (∀ l, l ∈ (get_justifications v s).2.1 ↔
        l ∈ (intervals s).map (fun k => k.m_justification)) ∧
      (get_justifications v s).2.1.Nodup ∧
      (get_justifications v s).2.1.Sublist ((intervals s).map (fun k => k.m_justification)) ∧
      (∀ i ∈ intervals s, ∀ k ∈ intervals s,
        i.m_justification.var = k.m_justification.var →
        i.m_justification.sign ≠ k.m_justification.sign →
        i.m_justification ≠ k.m_justification ∧
          i.m_justification ∈ (get_justifications v s).2.1 ∧
          k.m_justification ∈ (get_justifications v s).2.1) := by
  have hjs : (get_justifications v s).2.1 =
      remove_later_repetitions ((intervals s).map (fun k => k.m_justification)) := by
    rw [(get_justifications_spec v s hv).1, first_literal_intervals_map]
  rw [hjs]
  refine ⟨rfl, remove_later_repetitions_mem _, remove_later_repetitions_nodup _,
    remove_later_repetitions_sublist _, ?_⟩
  intro i hi k hk _ hsign
  refine ⟨fun h => hsign (by rw [h]), ?_, ?_⟩
  · exact (remove_later_repetitions_mem _ _).mpr (List.mem_map_of_mem _ hi)
  · exact (remove_later_repetitions_mem _ _).mpr (List.mem_map_of_mem _ hk)

/-- Witness of C16: the set `{[1,2], [3,4], [5,6]}` justified by `L1`, `L1` and
`L2` gives the literal list `[L1, L2]`. -/
theorem get_justifications_literals_witness :
    (∀ i, (fun _ : Nat => false) i = false) ∧
      remove_later_repetitions ((intervals set_J).map (fun k => k.m_justification)) =
        [⟨1, false⟩, ⟨2, false⟩] ∧
      (get_justifications (fun _ => false) set_J).2.1 =
        remove_later_repetitions ((intervals set_J).map (fun k => k.m_justification)) ∧
      (get_justifications (fun _ => false) set_J).2.1.Nodup :=
  ⟨fun _ => rfl, by decide,
    (get_justifications_literals (fun _ => false) set_J (fun _ => rfl)).1,
    (get_justifications_literals (fun _ => false) set_J (fun _ => rfl)).2.2.1⟩

/-- On a bitmap that is false everywhere, the clause list of
`get_justifications(s)` holds, in the order of the intervals, the non-null
clauses of the intervals at which a literal occurs in `s` for the first time.
Each of its clauses is attached to an interval of `s`. It holds every non-null
clause of `s` when intervals with the same literal have the same clause, and it
holds no clause twice when intervals with different literals have no non-null
clause in common. -/
theorem get_justifications_clauses_first (v : Nat → Bool) (s : interval_set_ptr α)
    (hv : ∀ i, v i = false) :
    (get_justifications v s).2.2 =
        (first_literal_intervals (intervals s)).filterMap (fun k => k.m_clause) ∧
      (∀ c ∈ (get_justifications v s).2.2, ∃ i ∈ intervals s, i.m_clause = some c) ∧
      ((∀ i ∈ intervals s, ∀ k ∈ intervals s,
          i.m_justification = k.m_justification → i.m_clause = k.m_clause) →
        ∀ i ∈ intervals s, ∀ c, i.m_clause = some c → c ∈ (get_justifications v s).2.2) ∧
      ((∀ i ∈ intervals s, ∀ k ∈ intervals s,
          i.m_justification ≠ k.m_justification →
          ∀ c, i.m_clause = some c → k.m_clause ≠ some c) →
        (get_justifications v s).2.2.Nodup) := by
  rw [(get_justifications_spec v s hv).2]
  refine ⟨rfl, ?_, ?_, ?_⟩
  · intro c hc
    obtain ⟨i, hi, hic⟩ := List.mem_filterMap.mp hc
    exact ⟨i, (first_literal_intervals_sublist _).subset hi, hic⟩
  · intro hsame i hi c hic
    obtain ⟨k, hk, hkj⟩ := first_literal_intervals_repr _ i hi
    refine List.mem_filterMap.mpr ⟨k, hk, ?_⟩
    rw [hsame k ((first_literal_intervals_sublist _).subset hk) i hi hkj]
    exact hic
  · intro hdiff
    have hp : (first_literal_intervals (intervals s)).Pairwise
        (fun i k => i ∈ intervals s ∧ k ∈ intervals s ∧
          i.m_justification ≠ k.m_justification) :=
      (first_literal_intervals_pairwise (intervals s)).imp_of_mem
        (fun ha hb h => ⟨(first_literal_intervals_sublist _).subset ha,
          (first_literal_intervals_sublist _).subset hb, h⟩)
    refine List.Pairwise.filterMap _ ?_ hp
    rintro a b ⟨ha, hb, hab⟩ c hc c' hc' hcc
    rw [Option.mem_def] at hc hc'
    exact hdiff a ha b hb hab c hc (by rw [hc', hcc])

end claims_justifications

section claims_witness_policy

variable {α : Type} [LinearOrderedField α]

/-- C18: the deterministic mode of `peek_in_complement`, on a set that passes
the assertion at the head of the function or in a build without assertions.
For the null set `w` is 0. For a non-null set whose first lower endpoint is
finite, `w` is `int_lt` of that endpoint, which is below it when `int_lt` is
below its argument. For a non-null set whose first lower endpoint is infinite
and whose last upper endpoint is finite, `w` is `int_gt` of that endpoint,
which is above it when `int_gt` is above its argument. In the three cases the
result is the same for every `is_int`, every state of the generator and every
initial `w`, and the generator is left as it was. -/
theorem peek_in_complement_deterministic (am : anum_services α) (debug : Bool)
    (s : interval_set_ptr α) (hpre : debug = false ∨ is_full s = false) :
    (s = none → ∀ (m_rand : Nat → Nat) (is_int : Bool) (w : α),
        peek_in_complement am debug m_rand s is_int w false = peek_outcome.returned 0 m_rand) ∧
      (∀ first, (intervals s).head? = some first → first.m_lower_inf = false →
        (∀ (m_rand : Nat → Nat) (is_int : Bool) (w : α),
          peek_in_complement am debug m_rand s is_int w false =
            peek_outcome.returned (am.int_lt first.m_lower) m_rand) ∧
        ((∀ a, am.int_lt a < a) → am.int_lt first.m_lower < first.m_lower)) ∧
      (∀ first last, (intervals s).head? = some first → (intervals s).getLast? = some last →
        first.m_lower_inf = true → last.m_upper_inf = false →
        (∀ (m_rand : Nat → Nat) (is_int : Bool) (w : α),
          peek_in_complement am debug m_rand s is_int w false =
            peek_outcome.returned (am.int_gt last.m_upper) m_rand) ∧
        ((∀ a, a < am.int_gt a) → last.m_upper < am.int_gt last.m_upper)) := by
  have hd : (debug && is_full s) = false := by
    rcases hpre with h | h <;> simp [h]
  refine ⟨?_, ?_, ?_⟩
  · intro hs m_rand is_int w
    subst hs
    simp [peek_in_complement, is_full]
  · intro first hh hfin
    refine ⟨fun m_rand is_int w => ?_, fun hlt => hlt _⟩
    cases s with
    | none => simp [intervals] at hh
    | some node =>
      simp only [intervals] at hh
      obtain ⟨last, hl⟩ : ∃ last, node.m_intervals.getLast? = some last := by
        cases hL : node.m_intervals with
        | nil => rw [hL] at hh; simp at hh
        | cons a l => exact ⟨(a :: l).getLast (by simp), List.getLast?_eq_getLast _ _⟩
      unfold peek_in_complement
      rw [hd]
      simp [hh, hl, hfin]
  · intro first last hh hl hinf hfin
    refine ⟨fun m_rand is_int w => ?_, fun hgt => hgt _⟩
    cases s with
    | none => simp [intervals] at hh
    | some node =>
      simp only [intervals] at hh hl
      unfold peek_in_complement
      rw [hd]
      simp [hh, hl, hinf, hfin, replace_choice]

/-- Witness of C18: on `{[-5,5]}` the deterministic mode gives -6, the value of
`int_lt` at -5, in a build with assertions. -/
theorem peek_in_complement_deterministic_witness :
    (true = false ∨ is_full set_F = false) ∧
      (intervals set_F).head? = some (closed_interval (-5) 5 1) ∧
      (closed_interval (-5) 5 1).m_lower_inf = false ∧
      rational_services.int_lt (closed_interval (-5) 5 1).m_lower = -6 ∧
      ∀ (m_rand : Nat → Nat) (is_int : Bool) (w : ℚ),
        peek_in_complement rational_services true m_rand set_F is_int w false =
          peek_outcome.returned
            (rational_services.int_lt (closed_interval (-5) 5 1).m_lower) m_rand :=
  ⟨Or.inr (by decide), rfl, rfl,
    by
      simp only [rational_services, closed_interval, bounded_interval]
      rw [show (-5 : ℚ) = ((-5 : ℤ) : ℚ) by norm_num, Int.ceil_intCast]
      norm_num,
    ((peek_in_complement_deterministic rational_services true set_F (Or.inr (by decide))).2.1
      (closed_interval (-5) 5 1) rfl rfl).1⟩

/-- The gap loop with the choice of `select` made explicit: when the loop has
counted a region, `w` is the initial value or the value of `select` on one of
the gaps the loop went through. -/
theorem gap_loop_select (am : anum_services α) (randomize : Bool) (P : α → Prop)
    (suf : List (interval α)) (n : Nat) (w : α) (m_rand : Nat → Nat)
    (hc : List.Chain' (fun prev next => prev.m_upper < next.m_lower →
      P (am.select prev.m_upper next.m_lower)) suf)
    (hw : 0 < n → P w) :
    (0 < (gap_loop am randomize suf n w m_rand).2.1 →
        P (gap_loop am randomize suf n w m_rand).2.2.1) ∧
      ((gap_loop am randomize suf n w m_rand).2.1 = 0 →
        n = 0 ∧ List.Chain' (fun prev next => ¬ prev.m_upper < next.m_lower) suf) := by
  induction suf generalizing n w m_rand with
  | nil =>
    simp only [gap_loop]
    exact ⟨hw, fun h => ⟨h, List.chain'_nil⟩⟩
  | cons prev suf ih =>
    cases suf with
    | nil =>
      simp only [gap_loop]
      exact ⟨hw, fun h => ⟨h, List.chain'_singleton _⟩⟩
    | cons next rest =>
      rw [List.chain'_cons] at hc
      simp only [gap_loop]
      by_cases hlt : prev.m_upper < next.m_lower
      · rw [if_pos hlt]
        have hw' : 0 < n + 1 → P (if (replace_choice (n + 1) m_rand).1 = true then
            am.select prev.m_upper next.m_lower else w) := by
          intro _
          split_ifs with hch
          · exact hc.1 hlt
          · apply hw
            by_contra h0
            have : n = 0 := by omega
            subst this
            simp [replace_choice] at hch
        cases randomize with
        | false =>
          simp only [Bool.not_false, if_true]
          exact ⟨hw', fun h => absurd h (Nat.succ_ne_zero _)⟩
        | true =>
          simp only [Bool.not_true, Bool.false_eq_true, if_false]
          obtain ⟨k1, k3⟩ := ih (n + 1) _ (replace_choice (n + 1) m_rand).2 hc.2 hw'
          exact ⟨k1, fun h => absurd (k3 h).1 (Nat.succ_ne_zero _)⟩
      · rw [if_neg hlt]
        obtain ⟨k1, k3⟩ := ih n w m_rand hc.2 hw
        refine ⟨k1, fun h => ⟨(k3 h).1, ?_⟩⟩
        rw [List.chain'_cons]
        exact ⟨hlt, (k3 h).2⟩

/-- C19 fails on the code in a build with assertions: on a set whose first
lower endpoint is minus infinity, whose last upper endpoint is plus infinity
and which has a gap between two consecutive intervals, the randomized mode of
`peek_in_complement` ends at the assertion that follows the two ray checks. In
a build without assertions it returns the value `select` gives for one of the
gaps, which is strictly inside the gap when `select` is between its
arguments. -/
theorem peek_in_complement_randomized_gap (am : anum_services α) (m_rand : Nat → Nat)
    (s : interval_set_ptr α) (first last : interval α) (is_int : Bool) (w : α)
    (hh : (intervals s).head? = some first) (hl : (intervals s).getLast? = some last)
    (hfirst : first.m_lower_inf = true) (hlast : last.m_upper_inf = true)
    (hgap : ∃ pre prev next rest, intervals s = pre ++ prev :: next :: rest ∧
      prev.m_upper < next.m_lower)
    (hsel : ∀ a b, a < b → a < am.select a b ∧ am.select a b < b) :
    peek_in_complement am true m_rand s is_int w true = peek_outcome.assertion_violation ∧
      ∃ pre prev next rest r, intervals s = pre ++ prev :: next :: rest ∧
        prev.m_upper < next.m_lower ∧
        peek_in_complement am false m_rand s is_int w true =
          peek_outcome.returned (am.select prev.m_upper next.m_lower) r ∧
        prev.m_upper < am.select prev.m_upper next.m_lower ∧
        am.select prev.m_upper next.m_lower < next.m_lower := by
  cases s with
  | none => simp [intervals] at hh
  | some node =>
    simp only [intervals] at hh hl hgap ⊢
    constructor
    · unfold peek_in_complement
      simp [hh, hl, hfirst, hlast]
    · obtain ⟨k1, k3⟩ := gap_loop_select am true
        (fun x => ∃ pre prev next rest, node.m_intervals = pre ++ prev :: next :: rest ∧
          prev.m_upper < next.m_lower ∧ x = am.select prev.m_upper next.m_lower)
        node.m_intervals 0 w m_rand
        (chain_of_pairs node.m_intervals _
          (fun pre prev next rest hL hlt => ⟨pre, prev, next, rest, hL, hlt, rfl⟩) []
          node.m_intervals rfl)
        (fun h => absurd h (lt_irrefl 0))
      have hpos : 0 < (gap_loop am true node.m_intervals 0 w m_rand).2.1 := by
        by_contra h0
        obtain ⟨-, hch⟩ := k3 (by omega)
        obtain ⟨pre, prev, next, rest, hL, hlt⟩ := hgap
        exact pair_of_chain node.m_intervals _ hch pre prev next rest hL hlt
      obtain ⟨pre, prev, next, rest, hL, hlt, hx⟩ := k1 hpos
      refine ⟨pre, prev, next, rest, (gap_loop am true node.m_intervals 0 w m_rand).2.2.2,
        hL, hlt, ?_, (hsel _ _ hlt).1, (hsel _ _ hlt).2⟩
      rw [← hx]
      unfold peek_in_complement
      simp only [Bool.false_and, Bool.false_eq_true, if_false, hh, hl, hfirst, hlast,
        Bool.not_true, Bool.and_false, peek_gap_seam]
      simp [hpos]

/-- Witness of C19: the set `{(-oo, 0], [2, +oo)}` with `is_int` unset. In a
build with assertions the call ends at the assertion; in a build without
assertions it returns 1, the value of `select` on the gap from 0 to 2. -/
theorem peek_in_complement_randomized_gap_witness :
    (intervals set_G).head? = some ray_below_zero ∧
      (intervals set_G).getLast? = some ray_above_two ∧
      ray_below_zero.m_lower_inf = true ∧ ray_above_two.m_upper_inf = true ∧
      well_formed set_G = true ∧ is_full set_G = false ∧
      ray_below_zero.m_upper < ray_above_two.m_lower ∧
      rational_services.select ray_below_zero.m_upper ray_above_two.m_lower = 1 ∧
      peek_in_complement rational_services true (fun _ => 0) set_G false 0 true =
        peek_outcome.assertion_violation ∧
      ∃ pre prev next rest r, intervals set_G = pre ++ prev :: next :: rest ∧
        prev.m_upper < next.m_lower ∧
        peek_in_complement rational_services false (fun _ => 0) set_G false 0 true =
          peek_outcome.returned (rational_services.select prev.m_upper next.m_lower) r ∧
        prev.m_upper < rational_services.select prev.m_upper next.m_lower ∧
        rational_services.select prev.m_upper next.m_lower < next.m_lower :=
  ⟨rfl, rfl, rfl, rfl, by decide, by decide, by decide,
    by norm_num [rational_services, ray_below_zero, ray_above_two],
    peek_in_complement_randomized_gap rational_services (fun _ => 0) set_G ray_below_zero
      ray_above_two false 0 rfl rfl rfl rfl
      ⟨[], ray_below_zero, ray_above_two, [], rfl, by decide⟩
      (fun a b h => by
        simp only [rational_services]
        constructor <;> linarith)⟩

/-- The value `peek_in_complement` leaves in `w` for the null set in the
randomized mode: the numerator over the denominator, after two numbers of the
generator. -/
theorem peek_in_complement_null_random (am : anum_services α) (debug : Bool)
    (m_rand : Nat → Nat) (is_int : Bool) (w : α) :
    peek_in_complement am debug m_rand none is_int w true =
      peek_outcome.returned ((random_num m_rand : α) / (random_den is_int m_rand : α))
        (fun k => m_rand (k + 2)) := by
  simp [peek_in_complement, is_full, random_num, random_den]

/-- The denominator drawn for a real variable is 1, 2, 4 or 8. -/
theorem random_den_values (m_rand : Nat → Nat) :
    random_den false m_rand = 1 ∨ random_den false m_rand = 2 ∨
      random_den false m_rand = 4 ∨ random_den false m_rand = 8 := by
  have h : m_rand 1 % 4 < 4 := Nat.mod_lt _ (by norm_num)
  simp only [random_den, MAX_RANDOM_DEN_K, Bool.false_eq_true, if_false]
  interval_cases (m_rand 1 % 4) <;> simp

/-- The numerator drawn is 1 or -1. -/
theorem random_num_values (m_rand : Nat → Nat) :
    random_num m_rand = 1 ∨ random_num m_rand = -1 := by
  unfold random_num
  split_ifs
  · exact Or.inl rfl
  · exact Or.inr rfl

/-- C20 fails as stated: the denominator 16 is never drawn. For a real
variable the denominator is never 16, for any state of the generator, and the
value left in `w` for the null set in the randomized mode is neither 1/16 nor
-1/16. -/
theorem random_den_never_sixteen :
    (∀ m_rand : Nat → Nat, random_den false m_rand ≠ 16) ∧
      ∀ (debug : Bool) (m_rand r : Nat → Nat) (w : ℚ),
        peek_in_complement rational_services debug m_rand none false w true ≠
            peek_outcome.returned (1 / 16) r ∧
          peek_in_complement rational_services debug m_rand none false w true ≠
            peek_outcome.returned (-1 / 16) r := by
  constructor
  · intro m_rand h
    rcases random_den_values m_rand with h1 | h1 | h1 | h1 <;> rw [h1] at h <;>
      exact absurd h (by decide)
  · intro debug m_rand r w
    rw [peek_in_complement_null_random]
    constructor <;>
    · intro h
      simp only [peek_outcome.returned.injEq] at h
      have hv := h.1
      rcases random_num_values m_rand with hn | hn <;>
        rcases random_den_values m_rand with hd | hd | hd | hd <;>
        rw [hn, hd] at hv <;> norm_num at hv

/-- C20, amended: for the null set in the randomized mode `peek_in_complement`
returns the rational `num/den` and takes two numbers from the generator. The
numerator is 1 or -1, and both are drawn. The denominator is 1 when `is_int`
is set. When `is_int` is unset the denominator is one of 1, 2, 4 and 8, and
each of these four is drawn for some state of the generator. -/
theorem peek_in_complement_null_randomized (am : anum_services α) (debug : Bool)
    (m_rand : Nat → Nat) (is_int : Bool) (w : α) :
    peek_in_complement am debug m_rand none is_int w true =
        peek_outcome.returned ((random_num m_rand : α) / (random_den is_int m_rand : α))
          (fun k => m_rand (k + 2)) ∧
      (random_num m_rand = 1 ∨ random_num m_rand = -1) ∧
      ((∃ r, random_num r = 1) ∧ ∃ r, random_num r = -1) ∧
      random_den true m_rand = 1 ∧
      (random_den false m_rand = 1 ∨ random_den false m_rand = 2 ∨
        random_den false m_rand = 4 ∨ random_den false m_rand = 8) ∧
      ((∃ r, random_den false r = 1) ∧ (∃ r, random_den false r = 2) ∧
        (∃ r, random_den false r = 4) ∧ ∃ r, random_den false r = 8) := by
  refine ⟨peek_in_complement_null_random am debug m_rand is_int w, random_num_values m_rand,
    ⟨⟨fun _ => 0, by decide⟩, ⟨fun _ => 1, by decide⟩⟩, by simp [random_den],
    random_den_values m_rand,
    ⟨fun _ => 0, by decide⟩, ⟨fun _ => 1, by decide⟩, ⟨fun _ => 2, by decide⟩,
    ⟨fun _ => 3, by decide⟩⟩

end claims_witness_policy

section claims_eq

variable {α : Type} [LinearOrderedField α]

/-- What the loop of `eq` compares in two cells: the four flags, the literal
and the two stored numbers. -/
theorem eq_loop_iff (l1 l2 : List (interval α)) (hlen : l1.length = l2.length) :
    eq_loop l1 l2 = true ↔
      ∀ (k : Nat) (i1 i2 : interval α), l1[k]? = some i1 → l2[k]? = some i2 →
        i1.m_lower_inf = i2.m_lower_inf ∧ i1.m_lower_open = i2.m_lower_open ∧
          i1.m_upper_inf = i2.m_upper_inf ∧ i1.m_upper_open = i2.m_upper_open ∧
          i1.m_justification = i2.m_justification ∧
          i1.m_lower = i2.m_lower ∧ i1.m_upper = i2.m_upper := by
  induction l1 generalizing l2 with
  | nil =>
    cases l2 with
    | nil => simp [eq_loop]
    | cons b l2 => simp at hlen
  | cons a l1 ih =>
    cases l2 with
    | nil => simp at hlen
    | cons b l2 =>
      simp only [List.length_cons, Nat.add_right_cancel_iff] at hlen
      simp only [eq_loop]
      constructor
      · intro h
        split_ifs at h with hc
        simp only [Bool.or_eq_true, bne_iff_ne, ne_eq, Bool.not_eq_true', decide_eq_false_iff_not,
          not_or, not_not] at hc
        obtain ⟨⟨⟨⟨⟨⟨c1, c2⟩, c3⟩, c4⟩, c5⟩, c6⟩, c7⟩ := hc
        intro k i1 i2 h1 h2
        cases k with
        | zero =>
          simp only [List.getElem?_cons_zero, Option.some.injEq] at h1 h2
          subst h1 h2
          exact ⟨c1, c2, c3, c4, c5, c6, c7⟩
        | succ k =>
          simp only [List.getElem?_cons_succ] at h1 h2
          exact (ih l2 hlen).mp h k i1 i2 h1 h2
      · intro h
        obtain ⟨c1, c2, c3, c4, c5, c6, c7⟩ := h 0 a b (by simp) (by simp)
        rw [if_neg (by simp [c1, c2, c3, c4, c5, c6, c7])]
        exact (ih l2 hlen).mpr (fun k i1 i2 h1 h2 => h (k + 1) i1 i2 (by simpa using h1) (by simpa using h2))

/-- Cells that agree on the flags and the numbers of their endpoints hold the
same numbers. -/
theorem contains_congr (i1 i2 : interval α) (x : α)
    (h : i1.m_lower_inf = i2.m_lower_inf ∧ i1.m_lower_open = i2.m_lower_open ∧
      i1.m_upper_inf = i2.m_upper_inf ∧ i1.m_upper_open = i2.m_upper_open ∧
      i1.m_justification = i2.m_justification ∧
      i1.m_lower = i2.m_lower ∧ i1.m_upper = i2.m_upper) :
    i1.contains x ↔ i2.contains x := by
  obtain ⟨c1, c2, c3, c4, -, c6, c7⟩ := h
  simp only [interval.contains, interval.lower_ok, interval.upper_ok, c1, c2, c3, c4, c6, c7]

theorem covers_of_pointwise (l1 l2 : List (interval α)) (x : α)
    (hlen : l1.length = l2.length)
    (h : ∀ (k : Nat) (i1 i2 : interval α), l1[k]? = some i1 → l2[k]? = some i2 →
      (i1.contains x ↔ i2.contains x)) :
    covers l1 x → covers l2 x := by
  rintro ⟨i, hi, hx⟩
  obtain ⟨k, hk, rfl⟩ := List.getElem_of_mem hi
  have hk2 : k < l2.length := hlen ▸ hk
  refine ⟨l2[k], List.getElem_mem _, ?_⟩
  exact (h k l1[k] l2[k] (List.getElem?_eq_getElem hk) (List.getElem?_eq_getElem hk2)).mp hx

/-- C22: `eq(s1, s2)` is true exactly when both sets are null, or both are
non-null with the same number of intervals and, at every index, the same four
flags, the same justification literal (variable and sign) and the same stored
lower and upper numbers. On well-formed sets `eq(s1, s2)` implies
`set_eq(s1, s2)`. -/
theorem eq_iff (s1 s2 : interval_set_ptr α) :
    (eq s1 s2 = true ↔
        (s1 = none ∧ s2 = none) ∨
          ∃ n1 n2, s1 = some n1 ∧ s2 = some n2 ∧
            n1.m_num_intervals = n2.m_num_intervals ∧
            ∀ (k : Nat) (i1 i2 : interval α),
              n1.m_intervals[k]? = some i1 → n2.m_intervals[k]? = some i2 →
              i1.m_lower_inf = i2.m_lower_inf ∧ i1.m_lower_open = i2.m_lower_open ∧
                i1.m_upper_inf = i2.m_upper_inf ∧ i1.m_upper_open = i2.m_upper_open ∧
                (i1.m_justification.var = i2.m_justification.var ∧
                  i1.m_justification.sign = i2.m_justification.sign) ∧
                i1.m_lower = i2.m_lower ∧ i1.m_upper = i2.m_upper) ∧
      (well_formed s1 = true → well_formed s2 = true → eq s1 s2 = true →
        set_eq s1 s2 = true) := by
  have hlit : ∀ a b : literal, a = b ↔ a.var = b.var ∧ a.sign = b.sign := by
    intro a b
    cases a; cases b; simp
  have key : eq s1 s2 = true ↔
      (s1 = none ∧ s2 = none) ∨
        ∃ n1 n2, s1 = some n1 ∧ s2 = some n2 ∧
          n1.m_num_intervals = n2.m_num_intervals ∧
          ∀ (k : Nat) (i1 i2 : interval α),
            n1.m_intervals[k]? = some i1 → n2.m_intervals[k]? = some i2 →
            i1.m_lower_inf = i2.m_lower_inf ∧ i1.m_lower_open = i2.m_lower_open ∧
              i1.m_upper_inf = i2.m_upper_inf ∧ i1.m_upper_open = i2.m_upper_open ∧
              i1.m_justification = i2.m_justification ∧
              i1.m_lower = i2.m_lower ∧ i1.m_upper = i2.m_upper := by
    cases s1 with
    | none =>
      cases s2 with
      | none => simp [eq, ptr_eq]
      | some n2 => simp [eq, ptr_eq]
    | some n1 =>
      cases s2 with
      | none => simp [eq, ptr_eq]
      | some n2 =>
        simp only [eq, reduceCtorEq, false_and, Option.some.injEq, false_or]
        by_cases hn : n1.m_num_intervals = n2.m_num_intervals
        · rw [if_neg (by simpa using hn), eq_loop_iff _ _ hn]
          constructor
          · intro h
            exact ⟨n1, n2, rfl, rfl, hn, h⟩
          · rintro ⟨m1, m2, rfl, rfl, -, h⟩
            exact h
        · rw [if_pos hn]
          simp only [Bool.false_eq_true, false_iff, not_exists, not_and]
          rintro m1 m2 rfl rfl h
          exact absurd h hn
  refine ⟨?_, ?_⟩
  · rw [key]
    simp only [hlit]
  · intro h1 h2 he
    rw [set_eq_spec s1 s2 h1 h2]
    rcases key.mp he with ⟨rfl, rfl⟩ | ⟨n1, n2, rfl, rfl, hn, h⟩
    · intro x; rfl
    · intro x
      simp only [set_contains]
      constructor
      · exact covers_of_pointwise _ _ x hn
          (fun k i1 i2 e1 e2 => contains_congr i1 i2 x (h k i1 i2 e1 e2))
      · exact covers_of_pointwise _ _ x hn.symm
          (fun k i2 i1 e2 e1 => (contains_congr i1 i2 x (h k i1 i2 e1 e2)).symm)

/-- Witness of C22: the set `{[1,2]}` in two nodes at different addresses. -/
theorem eq_iff_witness :
    well_formed set_A = true ∧ well_formed set_A_copy = true ∧
      eq set_A set_A_copy = true ∧ set_eq set_A set_A_copy = true :=
  ⟨by decide, by decide, by decide,
    (eq_iff set_A set_A_copy).2 (by decide) (by decide) (by decide)⟩

end claims_eq

section claims_ref_count

variable {α : Type} [LinearOrderedField α]

/-- C23: the reference-count round trip. `mk` returns a node whose count is 0.
On a node with count `c` below the 31-bit maximum, `inc_ref` raises the count
to `c + 1` and the `dec_ref` that follows completes, with or without
assertions, and brings the count back to `c`; it frees the node exactly when
`c = 0`, and for `c >= 1` the node is still in the store, unchanged. No other
address of the store is touched. -/
theorem inc_ref_dec_ref (debug : Bool) (store : node_store α) (s : Nat) (n : interval_set α)
    (hs : store s = some n) (hc : n.m_ref_count < 2 ^ 31 - 1) :
    (∀ (mem : Nat) (lower_open lower_inf : Bool) (lower : α) (upper_open upper_inf : Bool)
        (upper : α) (justification : literal) (cls : clause_ptr),
        ∃ node, mk mem lower_open lower_inf lower upper_open upper_inf upper justification cls =
          some node ∧ node.m_ref_count = 0) ∧
      ∃ store1 store2, inc_ref store s = some store1 ∧
        store1 s = some { n with m_ref_count := n.m_ref_count + 1 } ∧
        dec_ref debug store1 s = some store2 ∧
        (n.m_ref_count = 0 → store2 s = none) ∧
        (1 ≤ n.m_ref_count → store2 s = some n) ∧
        (store2 s = none ↔ n.m_ref_count = 0) ∧
        (∀ q, q ≠ s → store2 q = store q) := by
  refine ⟨fun mem lo li l uo ui u j cls => ⟨_, rfl, rfl⟩, ?_⟩
  have h1 : (n.m_ref_count + 1) % 2 ^ 31 = n.m_ref_count + 1 := Nat.mod_eq_of_lt (by omega)
  have h2 : (n.m_ref_count + 1 + (2 ^ 31 - 1)) % 2 ^ 31 = n.m_ref_count := by
    have : n.m_ref_count + 1 + (2 ^ 31 - 1) = n.m_ref_count + 2 ^ 31 := by omega
    rw [this, Nat.add_mod_right]
    exact Nat.mod_eq_of_lt (by omega)
  have hi : inc_ref store s =
      some (Function.update store s (some { n with m_ref_count := n.m_ref_count + 1 })) := by
    simp only [inc_ref, hs, h1]
  by_cases h0 : n.m_ref_count = 0
  · refine ⟨_, Function.update store s none, hi, by simp, ?_, fun _ => by simp, ?_,
      by simp [h0], fun q hq => by simp [Function.update_noteq hq]⟩
    · simp only [dec_ref, Function.update_same, h2, h0]
      simp [del, h0]
    · intro h
      omega
  · refine ⟨_, store, hi, by simp, ?_, fun h => absurd h h0, fun _ => hs,
      by simp [hs, h0], fun q _ => rfl⟩
    simp only [dec_ref, Function.update_same, h2]
    rw [if_neg (by simp), if_neg h0, Function.update_idem]
    have he : Function.update store s (some { n with m_ref_count := n.m_ref_count }) = store := by
      rw [Function.update_eq_self_iff, hs]
    exact congrArg some he

/-- Witness of C23: the node `{[1,2]}` at address 1 with count 0 is freed by the
round trip, and with count 1 it stays in the store. -/
theorem inc_ref_dec_ref_witness :
    store_A 1 = some node_A ∧ node_A.m_ref_count < 2 ^ 31 - 1 ∧
      (inc_ref store_A 1).bind (fun st => (dec_ref true st 1).map (fun st2 => st2 1)) =
        some none ∧
      (inc_ref store_B 1).bind (fun st => (dec_ref true st 1).map (fun st2 => st2 1)) =
        some (store_B 1) ∧
      ∃ store1 store2, inc_ref store_A 1 = some store1 ∧
        store1 1 = some { node_A with m_ref_count := node_A.m_ref_count + 1 } ∧
        dec_ref true store1 1 = some store2 ∧
        (node_A.m_ref_count = 0 → store2 1 = none) ∧
        (1 ≤ node_A.m_ref_count → store2 1 = some node_A) ∧
        (store2 1 = none ↔ node_A.m_ref_count = 0) ∧
        (∀ q, q ≠ 1 → store2 q = store_A q) :=
  ⟨rfl, by decide, by decide, by decide,
    (inc_ref_dec_ref true store_A 1 node_A rfl (by decide)).2⟩

end claims_ref_count

section claims_comparators

variable {α : Type} [LinearOrderedField α]

/-- C26: `compare_lower_lower` by cases. Both lower endpoints infinite: zero;
only the first: negative; only the second: positive. Both finite with
different values: the sign of the comparison of the values. Both finite with
the same value: zero for the same openness, negative when the first is closed
and the second open, positive when the first is open and the second closed. -/
theorem compare_lower_lower_cases (i1 i2 : interval α) :
    (i1.m_lower_inf = true → i2.m_lower_inf = true → compare_lower_lower i1 i2 = sign_zero) ∧
      (i1.m_lower_inf = true → i2.m_lower_inf = false →
        compare_lower_lower i1 i2 = sign_neg) ∧
      (i1.m_lower_inf = false → i2.m_lower_inf = true →
        compare_lower_lower i1 i2 = sign_pos) ∧
      (i1.m_lower_inf = false → i2.m_lower_inf = false →
        (i1.m_lower ≠ i2.m_lower →
          compare_lower_lower i1 i2 = am_compare i1.m_lower i2.m_lower) ∧
        (i1.m_lower < i2.m_lower → compare_lower_lower i1 i2 = sign_neg) ∧
        (i2.m_lower < i1.m_lower → compare_lower_lower i1 i2 = sign_pos) ∧
        (i1.m_lower = i2.m_lower →
          (i1.m_lower_open = i2.m_lower_open → compare_lower_lower i1 i2 = sign_zero) ∧
          (i1.m_lower_open = false → i2.m_lower_open = true →
            compare_lower_lower i1 i2 = sign_neg) ∧
          (i1.m_lower_open = true → i2.m_lower_open = false →
            compare_lower_lower i1 i2 = sign_pos))) := by
  unfold compare_lower_lower am_compare sign_neg sign_zero sign_pos
  refine ⟨fun h1 h2 => by simp [h1, h2], fun h1 h2 => by simp [h1, h2],
    fun h1 h2 => by simp [h1, h2], fun h1 h2 => ?_⟩
  simp only [h1, h2, Bool.false_eq_true, Bool.and_false, if_false]
  rcases lt_trichotomy i1.m_lower i2.m_lower with h | h | h
  · simp [h, h.ne, not_lt.mpr h.le]
  · cases i1.m_lower_open <;> cases i2.m_lower_open <;> simp [h]
  · simp [h, h.ne', not_lt.mpr h.le]

/-- Instances of C26 on rational intervals: `[1,2]` against `(1,2]` is
negative, `(1,2]` against `[1,2]` is positive, `[1,2]` against `[3,4]` is
negative. -/
theorem compare_lower_lower_cases_witness :
    compare_lower_lower (closed_interval 1 2 1) (bounded_interval true 1 false 2 1) = sign_neg ∧
      compare_lower_lower (bounded_interval true 1 false 2 1) (closed_interval 1 2 1) =
        sign_pos ∧
      compare_lower_lower (closed_interval 1 2 1) (closed_interval 3 4 1) = sign_neg :=
  ⟨((compare_lower_lower_cases (closed_interval 1 2 1)
      (bounded_interval true 1 false 2 1)).2.2.2 rfl rfl).2.2.2 rfl |>.2.1 rfl rfl,
    ((compare_lower_lower_cases (bounded_interval true 1 false 2 1)
      (closed_interval 1 2 1)).2.2.2 rfl rfl).2.2.2 rfl |>.2.2 rfl rfl,
    ((compare_lower_lower_cases (closed_interval 1 2 1)
      (closed_interval 3 4 1)).2.2.2 rfl rfl).2.1 (by decide)⟩

/-- The value of `compare_upper_lower` by cases. -/
theorem compare_upper_lower_values (i1 i2 : interval α) :
    ((i1.m_upper_inf = true ∨ i2.m_lower_inf = true) →
        compare_upper_lower i1 i2 = sign_pos) ∧
      (i1.m_upper_inf = false → i2.m_lower_inf = false →
        (i1.m_upper ≠ i2.m_lower →
          compare_upper_lower i1 i2 = am_compare i1.m_upper i2.m_lower) ∧
        (i1.m_upper < i2.m_lower → compare_upper_lower i1 i2 = sign_neg) ∧
        (i2.m_lower < i1.m_upper → compare_upper_lower i1 i2 = sign_pos) ∧
        (i1.m_upper = i2.m_lower →
          (i1.m_upper_open = false → i2.m_lower_open = false →
            compare_upper_lower i1 i2 = sign_zero) ∧
          ((i1.m_upper_open = true ∨ i2.m_lower_open = true) →
            compare_upper_lower i1 i2 = sign_neg))) := by
  unfold compare_upper_lower am_compare sign_neg sign_zero sign_pos
  refine ⟨fun h => by rcases h with h | h <;> simp [h], fun h1 h2 => ?_⟩
  simp only [h1, h2, Bool.false_eq_true, Bool.or_false, if_false]
  rcases lt_trichotomy i1.m_upper i2.m_lower with h | h | h
  · simp [h, h.ne, not_lt.mpr h.le]
  · cases i1.m_upper_open <;> cases i2.m_lower_open <;> simp [h]
  · simp [h, h.ne', not_lt.mpr h.le]

/-- On valid intervals `compare_upper_lower` is negative exactly when every
number of the first interval is below every number of the second. -/
theorem compare_upper_lower_neg_iff (i1 i2 : interval α) (h1 : check_interval i1 = true)
    (h2 : check_interval i2 = true) :
    compare_upper_lower i1 i2 < 0 ↔ ∀ x y, i1.contains x → i2.contains y → x < y := by
  rw [compare_upper_lower_lt]
  constructor
  · intro h x y hx hy
    rw [contains_iff] at hx hy
    have := (hx.2.trans h).trans hy.1
    rw [cfin_le_cfin] at this
    rcases this with h | ⟨-, h⟩
    · exact h
    · exact absurd (h rfl) (by simp)
  · intro h
    by_contra hn
    rw [not_le] at hn
    have hv1 := lcut_lt_ucut i1 h1
    have hv2 := lcut_lt_ucut i2 h2
    obtain ⟨y, hy1, hy2⟩ := exists_between_cuts (lcut i2) (min (ucut i2) (ucut i1))
      (lt_min hv2 hn)
    have hy3 : cfin y false < ucut i1 :=
      lt_of_lt_of_le (cfin_false_lt_true y) (hy2.trans (min_le_right _ _))
    obtain ⟨x, hx1, hx2⟩ := exists_between_cuts (max (lcut i1) (cfin y false)) (ucut i1)
      (max_lt hv1 hy3)
    have hx : i1.contains x := (contains_iff i1 x).mpr ⟨(le_max_left _ _).trans hx1, hx2⟩
    have hy : i2.contains y := (contains_iff i2 y).mpr ⟨hy1, hy2.trans (min_le_left _ _)⟩
    have hyx : cfin y false ≤ cfin x false := (le_max_right _ _).trans hx1
    rw [cfin_le_cfin] at hyx
    have hlt := h x y hx hy
    rcases hyx with h' | ⟨h', -⟩
    · exact absurd hlt (not_lt.mpr h'.le)
    · rw [h'] at hlt
      exact absurd hlt (lt_irrefl _)

/-- C25: `compare_upper_lower` by cases, and what its sign means on valid
intervals. It is positive when the upper endpoint of `i1` is plus infinity or
the lower endpoint of `i2` is minus infinity; otherwise it is the sign of the
comparison of the two values when they differ, and at equal values it is zero
when both endpoints are closed and negative otherwise. On valid intervals it
is negative exactly when every number of `i1` is below every number of `i2`,
and zero exactly when the upper endpoint of `i1` and the lower endpoint of
`i2` are the same closed finite endpoint, which is then the one number the
two intervals share. -/
theorem compare_upper_lower_cases (i1 i2 : interval α) :
    ((i1.m_upper_inf = true ∨ i2.m_lower_inf = true) →
        compare_upper_lower i1 i2 = sign_pos) ∧
      (i1.m_upper_inf = false → i2.m_lower_inf = false →
        (i1.m_upper ≠ i2.m_lower →
          compare_upper_lower i1 i2 = am_compare i1.m_upper i2.m_lower) ∧
        (i1.m_upper < i2.m_lower → compare_upper_lower i1 i2 = sign_neg) ∧
        (i2.m_lower < i1.m_upper → compare_upper_lower i1 i2 = sign_pos) ∧
        (i1.m_upper = i2.m_lower →
          (i1.m_upper_open = false → i2.m_lower_open = false →
            compare_upper_lower i1 i2 = sign_zero) ∧
          ((i1.m_upper_open = true ∨ i2.m_lower_open = true) →
            compare_upper_lower i1 i2 = sign_neg))) ∧
      (check_interval i1 = true → check_interval i2 = true →
        (compare_upper_lower i1 i2 < 0 ↔
          ∀ x y, i1.contains x → i2.contains y → x < y) ∧
        (compare_upper_lower i1 i2 = 0 ↔
          ∃ p, (i1.m_upper_inf = false ∧ i1.m_upper_open = false ∧ i1.m_upper = p) ∧
            (i2.m_lower_inf = false ∧ i2.m_lower_open = false ∧ i2.m_lower = p) ∧
            ∀ x, (i1.contains x ∧ i2.contains x) ↔ x = p)) := by
  refine ⟨(compare_upper_lower_values i1 i2).1, (compare_upper_lower_values i1 i2).2,
    fun h1 h2 => ⟨compare_upper_lower_neg_iff i1 i2 h1 h2, ?_⟩⟩
  rw [compare_upper_lower_eq]
  constructor
  · rintro ⟨e1, e2, e3, e4, e5⟩
    refine ⟨i1.m_upper, ⟨e1, e4, rfl⟩, ⟨e2, e5, e3.symm⟩, fun x => ?_⟩
    have hu : ucut i1 = cfin i1.m_upper true := by simp [ucut, e1, e4]
    have hl : lcut i2 = cfin i1.m_upper false := by simp [lcut, e2, e5, e3]
    have hv1 := lcut_lt_ucut i1 h1
    have hv2 := lcut_lt_ucut i2 h2
    rw [contains_iff, contains_iff, hu, hl]
    constructor
    · rintro ⟨⟨-, a1⟩, ⟨a2, -⟩⟩
      rw [cfin_le_cfin] at a1 a2
      rcases a1 with a1 | ⟨a1, -⟩
      · rcases a2 with a2 | ⟨a2, -⟩
        · exact absurd a1 (not_lt.mpr a2.le)
        · exact a2.symm
      · exact a1
    · rintro rfl
      rw [hu] at hv1
      rw [hl] at hv2
      exact ⟨⟨(lt_cfin_true_iff _ _).mp hv1, le_refl _⟩,
        ⟨le_refl _, (cfin_false_lt_iff _ _).mp hv2⟩⟩
  · rintro ⟨p, ⟨e1, e4, e3⟩, ⟨e2, e5, e6⟩, -⟩
    exact ⟨e1, e2, e3.trans e6.symm, e4, e5⟩

/-- Witness of C25: `[1,2]` against `[2,4]` gives zero and the two intervals
share the number 2; `[1,2]` against `[4,5]` gives a negative sign. -/
theorem compare_upper_lower_cases_witness :
    check_interval (closed_interval 1 2 1) = true ∧
      check_interval (closed_interval 2 4 2) = true ∧
      compare_upper_lower (closed_interval 1 2 1) (closed_interval 2 4 2) = 0 ∧
      compare_upper_lower (closed_interval 1 2 1) (closed_interval 4 5 2) < 0 ∧
      (compare_upper_lower (closed_interval 1 2 1) (closed_interval 2 4 2) = 0 ↔
        ∃ p, ((closed_interval 1 2 1).m_upper_inf = false ∧
            (closed_interval 1 2 1).m_upper_open = false ∧
            (closed_interval 1 2 1).m_upper = p) ∧
          ((closed_interval 2 4 2).m_lower_inf = false ∧
            (closed_interval 2 4 2).m_lower_open = false ∧
            (closed_interval 2 4 2).m_lower = p) ∧
          ∀ x, ((closed_interval 1 2 1).contains x ∧ (closed_interval 2 4 2).contains x) ↔
            x = p) :=
  ⟨by decide, by decide, by decide, by decide,
    ((compare_upper_lower_cases (closed_interval 1 2 1) (closed_interval 2 4 2)).2.2
      (by decide) (by decide)).2⟩

/-- The comparators take their values among the three signs. -/
theorem am_compare_antisymm (a b : α) : am_compare b a = -am_compare a b := by
  unfold am_compare sign_neg sign_zero sign_pos
  rcases lt_trichotomy a b with h | h | h
  · simp [h, h.ne', not_lt.mpr h.le]
  · simp [h]
  · simp [h, h.ne', not_lt.mpr h.le]

theorem compare_lower_lower_antisymm (i1 i2 : interval α) :
    compare_lower_lower i2 i1 = -compare_lower_lower i1 i2 := by
  unfold compare_lower_lower
  rw [am_compare_antisymm i1.m_lower i2.m_lower]
  unfold am_compare sign_neg sign_zero sign_pos
  cases i1.m_lower_inf <;> cases i2.m_lower_inf <;> simp
  rcases lt_trichotomy i1.m_lower i2.m_lower with h | h | h
  · simp [h, h.ne]
  · cases i1.m_lower_open <;> cases i2.m_lower_open <;> simp [h]
  · simp [h, h.ne', not_lt.mpr h.le]

theorem compare_upper_upper_antisymm (i1 i2 : interval α) :
    compare_upper_upper i2 i1 = -compare_upper_upper i1 i2 := by
  unfold compare_upper_upper
  rw [am_compare_antisymm i1.m_upper i2.m_upper]
  unfold am_compare sign_neg sign_zero sign_pos
  cases i1.m_upper_inf <;> cases i2.m_upper_inf <;> simp
  rcases lt_trichotomy i1.m_upper i2.m_upper with h | h | h
  · simp [h, h.ne]
  · cases i1.m_upper_open <;> cases i2.m_upper_open <;> simp [h]
  · simp [h, h.ne', not_lt.mpr h.le]

theorem compare_upper_upper_le (i1 i2 : interval α) :
    compare_upper_upper i1 i2 ≤ 0 ↔ ucut i1 ≤ ucut i2 := by
  rw [le_iff_lt_or_eq, le_iff_lt_or_eq, compare_upper_upper_lt, compare_upper_upper_eq]

/-- C27: `compare_lower_lower` and `compare_upper_upper` order the endpoints.
Each is zero on an interval against itself, changes sign when its arguments
are exchanged, and its relation `<= 0` is transitive and total; this holds for
all intervals, valid or not. For `compare_upper_upper`, at the same value an
open upper endpoint is below a closed one, and nothing is above plus
infinity. -/
theorem comparators_total_order (i1 i2 i3 : interval α) :
    (compare_lower_lower i1 i1 = 0 ∧ compare_upper_upper i1 i1 = 0) ∧
      (compare_lower_lower i2 i1 = -compare_lower_lower i1 i2 ∧
        compare_upper_upper i2 i1 = -compare_upper_upper i1 i2) ∧
      ((compare_lower_lower i1 i2 ≤ 0 → compare_lower_lower i2 i3 ≤ 0 →
          compare_lower_lower i1 i3 ≤ 0) ∧
        (compare_upper_upper i1 i2 ≤ 0 → compare_upper_upper i2 i3 ≤ 0 →
          compare_upper_upper i1 i3 ≤ 0)) ∧
      ((compare_lower_lower i1 i2 ≤ 0 ∨ compare_lower_lower i2 i1 ≤ 0) ∧
        (compare_upper_upper i1 i2 ≤ 0 ∨ compare_upper_upper i2 i1 ≤ 0)) ∧
      (i1.m_upper_inf = false → i2.m_upper_inf = false → i1.m_upper = i2.m_upper →
        i1.m_upper_open = true → i2.m_upper_open = false → compare_upper_upper i1 i2 < 0) ∧
      (i2.m_upper_inf = true → compare_upper_upper i1 i2 ≤ 0) ∧
      (i2.m_upper_inf = true → i1.m_upper_inf = false → compare_upper_upper i1 i2 < 0) := by
  refine ⟨⟨(compare_lower_lower_eq i1 i1).mpr rfl, (compare_upper_upper_eq i1 i1).mpr rfl⟩,
    ⟨compare_lower_lower_antisymm i1 i2, compare_upper_upper_antisymm i1 i2⟩,
    ⟨?_, ?_⟩, ⟨?_, ?_⟩, ?_, ?_, ?_⟩
  · simp only [compare_lower_lower_le]
    exact fun h1 h2 => h1.trans h2
  · simp only [compare_upper_upper_le]
    exact fun h1 h2 => h1.trans h2
  · simp only [compare_lower_lower_le]
    exact le_total _ _
  · simp only [compare_upper_upper_le]
    exact le_total _ _
  · intro h1 h2 h3 h4 h5
    rw [compare_upper_upper_lt]
    simp [ucut, h1, h2, h3, h4, h5, cfin_lt_cfin]
  · intro h
    rw [compare_upper_upper_le]
    have : ucut i2 = ctop := by simp [ucut, h]
    rw [this]
    exact le_ctop _
  · intro h h'
    rw [compare_upper_upper_lt]
    simp [ucut, h, h', cfin_lt_ctop]

/-- Instances of C27 on rational intervals: `[1,2)` against `[1,2]` is
negative for the upper endpoints, and the three intervals `[1,2]`, `[2,4]`,
`[4,5]` are in order for both comparators. -/
theorem comparators_total_order_witness :
    compare_upper_upper (bounded_interval false 1 true 2 1) (closed_interval 1 2 1) < 0 ∧
      compare_lower_lower (closed_interval 1 2 1) (closed_interval 2 4 2) ≤ 0 ∧
      compare_lower_lower (closed_interval 2 4 2) (closed_interval 4 5 2) ≤ 0 ∧
      compare_lower_lower (closed_interval 1 2 1) (closed_interval 4 5 2) ≤ 0 :=
  ⟨(comparators_total_order (bounded_interval false 1 true 2 1) (closed_interval 1 2 1)
      (closed_interval 1 2 1)).2.2.2.2.1 rfl rfl rfl rfl rfl,
    by decide, by decide,
    (comparators_total_order (closed_interval 1 2 1) (closed_interval 2 4 2)
      (closed_interval 4 5 2)).2.2.1.1 (by decide) (by decide)⟩

end claims_comparators

section claims_adjacency

variable {α : Type} [LinearOrderedField α]

/-- C29 fails as stated: the two intervals of the well-formed set
`{[0,1), (1,2]}` are consecutive, the upper endpoint of the first and the lower
endpoint of the second have the same value 1 and both touching sides are open,
and `adjacent` returns false on them. -/
theorem adjacent_false_on_open_seam :
    well_formed set_P = true ∧
      intervals set_P =
        [bounded_interval false 0 true 1 1, bounded_interval true 1 false 2 2] ∧
      (bounded_interval false 0 true 1 1).m_upper = (bounded_interval true 1 false 2 2).m_lower ∧
      ((bounded_interval false 0 true 1 1).m_upper_open = true ∨
        (bounded_interval true 1 false 2 2).m_lower_open = true) ∧
      adjacent (bounded_interval false 0 true 1 1) (bounded_interval true 1 false 2 2) =
        false := by
  refine ⟨by decide, rfl, rfl, Or.inl rfl, by decide⟩

/-- C29, amended: for consecutive intervals `curr` and `next` of a well-formed
set, whose touching endpoints are finite, `adjacent(curr, next)` returns true
exactly when `curr.upper` and `next.lower` have the same value and at least
one of the two touching sides is closed, that is, when exactly one of them is
open and no number lies between the two intervals. -/
theorem adjacent_iff (s : interval_set_ptr α) (pre rest : List (interval α))
    (curr next : interval α) (hwf : well_formed s = true)
    (hc : intervals s = pre ++ curr :: next :: rest) :
    (curr.m_upper_inf = false ∧ next.m_lower_inf = false) ∧
      (adjacent curr next = true ↔
        curr.m_upper = next.m_lower ∧
          (curr.m_upper_open = false ∨ next.m_lower_open = false)) ∧
      (adjacent curr next = true ↔
        curr.m_upper = next.m_lower ∧ curr.m_upper_open ≠ next.m_lower_open) ∧
      (adjacent curr next = true ↔ ∀ x, curr.upper_ok x ∨ next.lower_ok x) := by
  cases s with
  | none =>
    simp only [intervals] at hc
    exact absurd hc (by simp)
  | some n =>
    simp only [intervals] at hc
    obtain ⟨-, hg, -⟩ := (well_formed_some_iff n).mp hwf
    rw [hc] at hg
    have hno := no_overlap_of_good pre curr next rest hg
    have hfin : curr.m_upper_inf = false ∧ next.m_lower_inf = false := by
      revert hno
      unfold ucut lcut
      cases curr.m_upper_inf <;> cases next.m_lower_inf <;>
        simp [not_ctop_le_cfin, not_cfin_le_bot, not_ctop_le_bot, cfin_ne_bot, ctop_ne_bot]
    obtain ⟨hu, hl⟩ := finite_of_no_overlap curr next hno
    have hno' := hno
    rw [hu, hl, cfin_le_cfin] at hno'
    have h1 : adjacent curr next = true ↔
        curr.m_upper = next.m_lower ∧
          (curr.m_upper_open = false ∨ next.m_lower_open = false) := by
      unfold adjacent
      simp only [am_compare_eq_zero]
      by_cases he : curr.m_upper = next.m_lower
      · simp [he]
      · simp [he]
    refine ⟨hfin, h1, ?_, ?_⟩
    · rw [h1]
      constructor
      · rintro ⟨he, ho⟩
        refine ⟨he, ?_⟩
        rcases hno' with hlt | ⟨-, himp⟩
        · exact absurd he hlt.ne
        · revert himp ho
          cases curr.m_upper_open <;> cases next.m_lower_open <;> simp
      · rintro ⟨he, ho⟩
        refine ⟨he, ?_⟩
        revert ho
        cases curr.m_upper_open <;> cases next.m_lower_open <;> simp
    · rw [adjacent_iff_of_no_overlap curr next hno]
      constructor
      · intro he x
        rw [upper_ok_iff, lower_ok_iff, he]
        by_cases hx : lcut next ≤ cfin x false
        · exact Or.inr hx
        · left
          rw [← lt_cfin_true_iff] at hx
          exact not_lt.mp hx
      · intro h
        by_contra hne
        obtain ⟨x, hx1, hx2⟩ := exists_between_cuts _ _ (lt_of_le_of_ne hno hne)
        rcases h x with hx | hx
        · rw [upper_ok_iff] at hx
          exact absurd (lt_of_lt_of_le (cfin_false_lt_true x) (hx.trans hx1)) (lt_irrefl _)
        · rw [lower_ok_iff] at hx
          exact absurd (lt_of_lt_of_le (cfin_false_lt_true x) (hx2.trans hx)) (lt_irrefl _)

/-- Witness of C29: the two intervals of `{[0,1), [1,2]}` are adjacent. -/
theorem adjacent_iff_witness :
    well_formed set_S = true ∧
      intervals set_S = [] ++ bounded_interval false 0 true 1 1 :: closed_interval 1 2 1 :: [] ∧
      adjacent (bounded_interval false 0 true 1 1) (closed_interval 1 2 1) = true ∧
      (adjacent (bounded_interval false 0 true 1 1) (closed_interval 1 2 1) = true ↔
        (bounded_interval false 0 true 1 1).m_upper = (closed_interval 1 2 1).m_lower ∧
          (bounded_interval false 0 true 1 1).m_upper_open ≠
            (closed_interval 1 2 1).m_lower_open) :=
  ⟨by decide, rfl, by decide,
    (adjacent_iff set_S [] [] (bounded_interval false 0 true 1 1) (closed_interval 1 2 1)
      (by decide) rfl).2.2.1⟩

/-- C28 fails on the code: the set `{(-oo, 0], [2, +oo)}`, built by `mk_union`
from two sets built by `mk`, is well formed, non-null and not full, and its
first lower endpoint and its last upper endpoint are both infinite. In the
default mode `peek_in_complement` passes the two ray checks on it without
returning: with assertions it stops at the assertion that follows them, and
without assertions it goes on to the gap search and returns the value of
`select` between 0 and 2. -/
theorem peek_in_complement_default_passes_ray_checks :
    mk_union 13 (mk 1 true true 0 false false 0 ⟨1, false⟩ none)
        (mk 2 false false 2 true true 0 ⟨2, false⟩ none) = set_G ∧
      produced set_G ∧ well_formed set_G = true ∧ set_G ≠ none ∧ is_full set_G = false ∧
      (intervals set_G).head? = some ray_below_zero ∧
      (intervals set_G).getLast? = some ray_above_two ∧
      ray_below_zero.m_lower_inf = true ∧ ray_above_two.m_upper_inf = true ∧
      (∀ (am : anum_services ℚ) (m_rand : Nat → Nat) (is_int : Bool) (w : ℚ),
        peek_in_complement am true m_rand set_G is_int w false =
          peek_outcome.assertion_violation) ∧
      ∀ (am : anum_services ℚ) (m_rand : Nat → Nat) (is_int : Bool) (w : ℚ),
        peek_in_complement am false m_rand set_G is_int w false =
          peek_outcome.returned (am.select 0 2) m_rand := by
  have hu : mk_union 13 (mk 1 true true 0 false false 0 ⟨1, false⟩ none)
      (mk 2 false false 2 true true 0 ⟨2, false⟩ none) = set_G := by decide
  refine ⟨hu, ?_, by decide, by decide, by decide, rfl, rfl, rfl, rfl, ?_, ?_⟩
  · rw [← hu]
    exact produced.union 13 _ _
      (produced.single 1 true true 0 false false 0 ⟨1, false⟩ none (by decide))
      (produced.single 2 false false 2 true true 0 ⟨2, false⟩ none (by decide))
  · intro am m_rand is_int w
    simp [peek_in_complement, set_G, plain_set, is_full, ray_below_zero, ray_above_two]
  · intro am m_rand is_int w
    simp [peek_in_complement, set_G, plain_set, ray_below_zero, ray_above_two,
      peek_gap_seam, gap_loop, replace_choice]

end claims_adjacency

section claims_table

variable {α : Type} [LinearOrderedField α]

/-- For all values of the four signs exactly one row of the emission table
applies. -/
theorem table_row_exists_unique (L U UL12 UL21 : Int) :
    ∃ row : table_row, row.applies L U UL12 UL21 ∧
      ∀ row' : table_row, row'.applies L U UL12 UL21 → row' = row := by
  have huniq : ∀ row row' : table_row, row.applies L U UL12 UL21 →
      row'.applies L U UL12 UL21 → row' = row := by
    intro row row' h h'
    cases row <;> cases row' <;> simp only [table_row.applies] at h h' <;>
      first
      | rfl
      | (exfalso; omega)
  have hex : ∃ row : table_row, row.applies L U UL12 UL21 := by
    by_cases h1 : L ≤ 0
    · by_cases h2 : U = 0
      · exact ⟨table_row.row1, h1, h2⟩
      by_cases h3 : U > 0
      · exact ⟨table_row.row2, h1, h3⟩
      have h4 : U < 0 := by omega
      by_cases h5 : UL12 < 0
      · exact ⟨table_row.row3, h1, h4, h5⟩
      by_cases h6 : UL12 = 0
      · by_cases h7 : L < 0
        · exact ⟨table_row.row4, h1, h4, h6, h7⟩
        · exact ⟨table_row.row5, h1, h4, h6, by omega⟩
      have h8 : UL12 > 0 := by omega
      by_cases h7 : L < 0
      · exact ⟨table_row.row7, h1, h4, h8, h7⟩
      · exact ⟨table_row.row6, h1, h4, h8, by omega⟩
    · have h1' : L > 0 := by omega
      by_cases h2 : U = 0
      · exact ⟨table_row.row8, h1', h2⟩
      by_cases h3 : U < 0
      · exact ⟨table_row.row9, h1', h3⟩
      have h4 : U > 0 := by omega
      by_cases h5 : UL21 < 0
      · exact ⟨table_row.row10, h1', h4, h5⟩
      by_cases h6 : UL21 = 0
      · exact ⟨table_row.row11, h1', h4, h6⟩
      · exact ⟨table_row.row12, h1', h4, by omega⟩
  obtain ⟨row, h⟩ := hex
  exact ⟨row, h, fun row' h' => huniq row row' h h'⟩

/-- One iteration of the merge pass does what the row that applies names; the
interval emitted is the one of the row, copied without its clause. -/
theorem union_step_of_row (int1 int2 : interval α) (row : table_row)
    (h : row.applies (compare_lower_lower int1 int2) (compare_upper_upper int1 int2)
      (compare_upper_lower int1 int2) (compare_upper_lower int2 int1)) :
    union_step int1 int2 =
      ((row.action int1 int2).1.map copy_cell, (row.action int1 int2).2) := by
  cases row <;> simp only [table_row.applies] at h
  · obtain ⟨h1, h2⟩ := h
    simp [union_step, table_row.action, h1, h2]
  · obtain ⟨h1, h2⟩ := h
    have h3 : ¬ compare_upper_upper int1 int2 = 0 := by omega
    simp [union_step, table_row.action, h1, h2, h3]
  · obtain ⟨h1, h2, h3⟩ := h
    have h4 : ¬ compare_upper_upper int1 int2 = 0 := by omega
    have h5 : ¬ compare_upper_upper int1 int2 > 0 := by omega
    simp only [gt_iff_lt] at h5
    simp [union_step, table_row.action, h1, h3, h4, h5]
  · obtain ⟨h1, h2, h3, h4⟩ := h
    have h5 : ¬ compare_upper_upper int1 int2 = 0 := by omega
    have h6 : ¬ compare_upper_upper int1 int2 > 0 := by omega
    have h7 : ¬ compare_lower_lower int1 int2 = 0 := by omega
    simp only [gt_iff_lt] at h6
    obtain ⟨e1, -⟩ := (compare_upper_lower_eq int1 int2).mp h3
    simp [union_step, table_row.action, h1, h3, h5, h6, h7, copy_cell, mk_cell,
      upper_forced_open, e1]
  · obtain ⟨h1, h2, h3, h4⟩ := h
    have h5 : ¬ compare_upper_upper int1 int2 = 0 := by omega
    have h6 : ¬ compare_upper_upper int1 int2 > 0 := by omega
    simp only [gt_iff_lt] at h6
    simp [union_step, table_row.action, h3, h4, h5, h6]
  · obtain ⟨h1, h2, h3, h4⟩ := h
    have h5 : ¬ compare_upper_upper int1 int2 = 0 := by omega
    have h6 : ¬ compare_upper_upper int1 int2 > 0 := by omega
    have h7 : ¬ compare_upper_lower int1 int2 < 0 := by omega
    have h8 : ¬ compare_upper_lower int1 int2 = 0 := by omega
    simp only [gt_iff_lt] at h6
    simp [union_step, table_row.action, h4, h5, h6, h7, h8]
  · obtain ⟨h1, h2, h3, h4⟩ := h
    have h5 : ¬ compare_upper_upper int1 int2 = 0 := by omega
    have h6 : ¬ compare_upper_upper int1 int2 > 0 := by omega
    have h7 : ¬ compare_upper_lower int1 int2 < 0 := by omega
    have h8 : ¬ compare_upper_lower int1 int2 = 0 := by omega
    have h9 : ¬ compare_lower_lower int1 int2 = 0 := by omega
    simp only [gt_iff_lt] at h6
    simp [union_step, table_row.action, h1, h5, h6, h7, h8, h9, copy_cell, mk_cell, head_part]
  · obtain ⟨h1, h2⟩ := h
    have h3 : ¬ compare_lower_lower int1 int2 ≤ 0 := by omega
    simp [union_step, table_row.action, h2, h3]
  · obtain ⟨h1, h2⟩ := h
    have h3 : ¬ compare_lower_lower int1 int2 ≤ 0 := by omega
    have h4 : ¬ compare_upper_upper int1 int2 = 0 := by omega
    simp [union_step, table_row.action, h2, h3, h4]
  · obtain ⟨h1, h2, h3⟩ := h
    have h4 : ¬ compare_lower_lower int1 int2 ≤ 0 := by omega
    have h5 : ¬ compare_upper_upper int1 int2 = 0 := by omega
    have h6 : ¬ compare_upper_upper int1 int2 < 0 := by omega
    simp [union_step, table_row.action, h3, h4, h5, h6]
  · obtain ⟨h1, h2, h3⟩ := h
    have h4 : ¬ compare_lower_lower int1 int2 ≤ 0 := by omega
    have h5 : ¬ compare_upper_upper int1 int2 = 0 := by omega
    have h6 : ¬ compare_upper_upper int1 int2 < 0 := by omega
    obtain ⟨e1, -⟩ := (compare_upper_lower_eq int2 int1).mp h3
    simp [union_step, table_row.action, h3, h4, h5, h6, copy_cell, mk_cell,
      upper_forced_open, e1]
  · obtain ⟨h1, h2, h3⟩ := h
    have h4 : ¬ compare_lower_lower int1 int2 ≤ 0 := by omega
    have h5 : ¬ compare_upper_upper int1 int2 = 0 := by omega
    have h6 : ¬ compare_upper_upper int1 int2 < 0 := by omega
    have h7 : ¬ compare_upper_lower int2 int1 < 0 := by omega
    have h8 : ¬ compare_upper_lower int2 int1 = 0 := by omega
    simp [union_step, table_row.action, h4, h5, h6, h7, h8, copy_cell, mk_cell, head_part]

/-- One turn of the merge loop on any buffer, in terms of `union_step`. -/
theorem union_loop_step (fuel : Nat) (int1 int2 : interval α)
    (r1 r2 result : List (interval α)) :
    union_loop (fuel + 1) (int1 :: r1) (int2 :: r2) result =
      union_loop fuel (if (union_step int1 int2).2.1 then r1 else int1 :: r1)
        (if (union_step int1 int2).2.2 then r2 else int2 :: r2)
        (result ++ (union_step int1 int2).1.toList) := by
  rw [union_loop_acc, union_loop_cons_cons, ← List.append_assoc, ← union_loop_acc]

/-- C24: the merge step of `mk_union` follows the emission table. For every
pair of current intervals exactly one row of the table applies to the signs
`L(1,2)`, `U(1,2)`, `UL(1,2)` and `UL(2,1)`; the iteration of the loop appends
to the buffer the interval that row names (the whole interval, the interval
with its upper endpoint forced open, the part up to the lower endpoint of the
other interval, or nothing), with the justification the row names and without
a clause, and advances the cursors the row names. -/
theorem merge_step_follows_table (fuel : Nat) (int1 int2 : interval α)
    (r1 r2 result : List (interval α)) :
    ∃ row : table_row,
      row.applies (compare_lower_lower int1 int2) (compare_upper_upper int1 int2)
        (compare_upper_lower int1 int2) (compare_upper_lower int2 int1) ∧
      (∀ row' : table_row,
        row'.applies (compare_lower_lower int1 int2) (compare_upper_upper int1 int2)
          (compare_upper_lower int1 int2) (compare_upper_lower int2 int1) → row' = row) ∧
      union_loop (fuel + 1) (int1 :: r1) (int2 :: r2) result =
        union_loop fuel (if (row.action int1 int2).2.1 then r1 else int1 :: r1)
          (if (row.action int1 int2).2.2 then r2 else int2 :: r2)
          (result ++ ((row.action int1 int2).1.map copy_cell).toList) ∧
      (∀ e, (row.action int1 int2).1 = some e →
        (e.m_justification = int1.m_justification ∧ e.m_lower = int1.m_lower ∧
            e.m_lower_inf = int1.m_lower_inf ∧ e.m_lower_open = int1.m_lower_open) ∨
          (e.m_justification = int2.m_justification ∧ e.m_lower = int2.m_lower ∧
            e.m_lower_inf = int2.m_lower_inf ∧ e.m_lower_open = int2.m_lower_open)) := by
  obtain ⟨row, h, hu⟩ := table_row_exists_unique (compare_lower_lower int1 int2)
    (compare_upper_upper int1 int2) (compare_upper_lower int1 int2)
    (compare_upper_lower int2 int1)
  refine ⟨row, h, hu, ?_, ?_⟩
  · rw [union_loop_step, union_step_of_row int1 int2 row h]
  · intro e he
    cases row <;> simp only [table_row.action, Option.some.injEq, reduceCtorEq] at he <;>
      subst he <;> simp [upper_forced_open, head_part]

end claims_table

section claims_reservoir

variable {α : Type} [LinearOrderedField α]

theorem reservoir_append (l1 l2 : List α) (n : Nat) (w : α) (m_rand : Nat → Nat) :
    reservoir (l1 ++ l2) n w m_rand =
      reservoir l2 (reservoir l1 n w m_rand).1 (reservoir l1 n w m_rand).2.1
        (reservoir l1 n w m_rand).2.2 := by
  induction l1 generalizing n w m_rand with
  | nil => rfl
  | cons c l1 ih =>
    rw [List.cons_append]
    simp only [reservoir]
    split_ifs <;> exact ih _ _ _

theorem reservoir_count (l : List α) (n : Nat) (w : α) (m_rand : Nat → Nat) :
    (reservoir l n w m_rand).1 = n + l.length := by
  induction l generalizing n w m_rand with
  | nil => rfl
  | cons c l ih =>
    simp only [reservoir, List.length_cons]
    split_ifs <;> (rw [ih]; omega)

/-- In the randomized mode the gap loop is the reservoir rule over the
witnesses of the gaps. -/
theorem gap_loop_reservoir (am : anum_services α) (ints : List (interval α)) (n : Nat) (w : α)
    (m_rand : Nat → Nat) :
    gap_loop am true ints n w m_rand =
      (false, reservoir (gap_candidates am ints) n w m_rand) := by
  induction ints generalizing n w m_rand with
  | nil => rfl
  | cons prev rest ih =>
    cases rest with
    | nil => rfl
    | cons next rest =>
      simp only [gap_loop, gap_candidates]
      by_cases hlt : prev.m_upper < next.m_lower
      · simp only [hlt, if_true, Bool.not_true, Bool.false_eq_true, if_false,
          List.singleton_append, reservoir, replace_choice]
        rw [ih]
        by_cases hn : n + 1 = 1
        · simp [hn]
        · simp [hn]
      · simp only [hlt, if_false, List.nil_append]
        exact ih _ _ _

/-- C30: the reservoir rule of the randomized mode. For a non-null set, in a
build without assertions, `peek_in_complement` with `randomize` set runs the
reservoir rule over the candidate regions in the order left outer ray (first
lower endpoint finite), right outer ray (last upper endpoint finite), interior
gaps of positive width by increasing index: candidate number `n` replaces the
choice exactly when `n = 1`, with no number drawn, or when the number drawn for
it is divisible by `n`. When there is a candidate the call returns the choice
left by the rule, with the generator after the numbers drawn; in any build a
value returned when there is a candidate is that choice. -/
theorem peek_in_complement_reservoir (am : anum_services α) (debug : Bool)
    (m_rand : Nat → Nat) (s : interval_set α) (is_int : Bool) (w : α)
    (hne : s.m_intervals ≠ []) (hc : candidate_regions am s.m_intervals ≠ []) :
    (reservoir (candidate_regions am s.m_intervals) 0 w m_rand).1 =
        (candidate_regions am s.m_intervals).length ∧
      (∀ (c : α) (rest : List α) (w0 : α) (r : Nat → Nat),
        reservoir (c :: rest) 0 w0 r = reservoir rest 1 c r) ∧
      (∀ (c : α) (rest : List α) (n : Nat) (w0 : α) (r : Nat → Nat), 1 ≤ n →
        reservoir (c :: rest) n w0 r =
          reservoir rest (n + 1) (if r 0 % (n + 1) = 0 then c else w0) (fun k => r (k + 1))) ∧
      peek_in_complement am false m_rand (some s) is_int w true =
        peek_outcome.returned (reservoir (candidate_regions am s.m_intervals) 0 w m_rand).2.1
          (reservoir (candidate_regions am s.m_intervals) 0 w m_rand).2.2 ∧
      ∀ w1 r1, peek_in_complement am debug m_rand (some s) is_int w true =
          peek_outcome.returned w1 r1 →
        w1 = (reservoir (candidate_regions am s.m_intervals) 0 w m_rand).2.1 ∧
          r1 = (reservoir (candidate_regions am s.m_intervals) 0 w m_rand).2.2 := by
  obtain ⟨first, hh⟩ : ∃ first, s.m_intervals.head? = some first := by
    cases hL : s.m_intervals with
    | nil => exact absurd hL hne
    | cons a l => exact ⟨a, rfl⟩
  obtain ⟨last, hl⟩ : ∃ last, s.m_intervals.getLast? = some last :=
    ⟨s.m_intervals.getLast hne, List.getLast?_eq_getLast _ _⟩
  have hrel : peek_in_complement am false m_rand (some s) is_int w true =
      peek_outcome.returned (reservoir (candidate_regions am s.m_intervals) 0 w m_rand).2.1
        (reservoir (candidate_regions am s.m_intervals) 0 w m_rand).2.2 := by
    have hpos : 0 < (candidate_regions am s.m_intervals).length := List.length_pos.mpr hc
    revert hpos
    cases h1 : first.m_lower_inf <;> cases h2 : last.m_upper_inf <;> intro hpos <;>
      simp [peek_in_complement, candidate_regions, hh, hl, h1, h2, peek_gap_seam,
        gap_loop_reservoir, reservoir, replace_choice, reservoir_count] at hpos ⊢
    intro h
    rw [h] at hpos
    exact absurd hpos (by simp)
  refine ⟨by rw [reservoir_count, zero_add], fun c rest w0 r => by simp [reservoir],
    fun c rest n w0 r hn => ?_, hrel, fun w1 r1 h => ?_⟩
  · have : ¬ n + 1 = 1 := by omega
    simp [reservoir, this]
  · cases debug with
    | false =>
      rw [hrel] at h
      simp only [peek_outcome.returned.injEq] at h
      exact ⟨h.1.symm, h.2.symm⟩
    | true =>
      exfalso
      revert h
      unfold peek_in_complement
      simp only [Bool.true_and, hh, hl, Bool.not_true, Bool.and_false, Bool.false_eq_true,
        if_false, if_true]
      split_ifs <;> simp

/-- Witness of C30: on `{[1,2]}` the candidates are the two outer rays, with
witnesses 0 and 3; with a generator that returns 0 the second candidate
replaces the first and the call returns 3. -/
theorem peek_in_complement_reservoir_witness :
    node_A.m_intervals ≠ [] ∧
      candidate_regions rational_services node_A.m_intervals = [0, 3] ∧
      candidate_regions rational_services node_A.m_intervals ≠ [] ∧
      (reservoir (candidate_regions rational_services node_A.m_intervals) 0 0
        (fun _ => 0)).2.1 = 3 ∧
      peek_in_complement rational_services false (fun _ => 0) (some node_A) false 0 true =
        peek_outcome.returned
          (reservoir (candidate_regions rational_services node_A.m_intervals) 0 0
            (fun _ => 0)).2.1
          (reservoir (candidate_regions rational_services node_A.m_intervals) 0 0
            (fun _ => 0)).2.2 :=
  have hc : candidate_regions rational_services node_A.m_intervals = [0, 3] := by
    simp only [candidate_regions, node_A, closed_interval, bounded_interval, rational_services,
      gap_candidates, List.head?_cons, List.getLast?_singleton, Bool.false_eq_true, if_false,
      List.append_nil, List.singleton_append]
    rw [show (1 : ℚ) = ((1 : ℤ) : ℚ) by norm_num, Int.ceil_intCast,
      show (2 : ℚ) = ((2 : ℤ) : ℚ) by norm_num, Int.floor_intCast]
    norm_num
  ⟨by decide, hc, by rw [hc]; simp, by rw [hc]; simp [reservoir],
    (peek_in_complement_reservoir rational_services false (fun _ => 0) node_A false 0
      (by decide) (by rw [hc]; simp)).2.2.2.1⟩

end claims_reservoir

section claims_assertions

variable {α : Type} [LinearOrderedField α]

theorem push_back_debug_eq (buf : List (interval α)) (lo li : Bool) (l : α) (uo ui : Bool)
    (u : α) (j : literal) (h : check_interval (mk_cell lo li l uo ui u j) = true) :
    push_back_debug buf lo li l uo ui u j = some (buf ++ [mk_cell lo li l uo ui u j]) := by
  unfold push_back_debug push_back
  simp only [List.getLast?_append, List.getLast?_singleton, Option.or_some]
  unfold mk_cell at h
  simp [sassert, h, mk_cell]

theorem push_back_interval_debug_eq (buf : List (interval α)) (i : interval α)
    (h : check_interval i = true) :
    push_back_interval_debug buf i = some (buf ++ [copy_cell i]) :=
  push_back_debug_eq buf _ _ _ _ _ _ _ h

theorem copy_rest_debug_eq (l result : List (interval α))
    (hv : ∀ i ∈ l, check_interval i = true) :
    copy_rest_debug l result = some (result ++ l.map copy_cell) := by
  induction l generalizing result with
  | nil => simp [copy_rest_debug]
  | cons a l ih =>
    simp only [copy_rest_debug, push_back_interval_debug_eq result a (hv a (List.mem_cons_self _ _))]
    rw [ih _ (fun i hi => hv i (List.mem_cons_of_mem _ hi))]
    simp

theorem good_of_append_left (a b : List (interval α)) (h : good (a ++ b)) : good a :=
  ⟨fun i hi => h.1 i (List.mem_append_left _ hi), (List.pairwise_append.mp h.2).1⟩

theorem loop_end_check_of_good (result : List (interval α)) (hg : good result) :
    loop_end_check result = true := by
  unfold loop_end_check
  rcases hr : result.reverse with _ | ⟨last, _ | ⟨before, tl⟩⟩
  · rfl
  · rfl
  · simp only []
    have he : result = tl.reverse ++ before :: last :: [] := by
      have := congrArg List.reverse hr
      simpa using this
    rw [he] at hg
    exact (check_no_overlap_iff _ _).mpr (no_overlap_of_good _ _ _ _ hg)

/-- On two valid intervals no assertion of the body of the merge loop fails,
and the body does what `union_step` computes. -/
theorem merge_body_debug_eq (int1 int2 : interval α) (r1 r2 result : List (interval α))
    (hv1 : check_interval int1 = true) (hv2 : check_interval int2 = true) :
    merge_body_debug int1 int2 r1 r2 result =
      some (result ++ (union_step int1 int2).1.toList,
        if (union_step int1 int2).2.1 then r1 else int1 :: r1,
        if (union_step int1 int2).2.2 then r2 else int2 :: r2) := by
  have hve : ∀ e a1 a2, union_step int1 int2 = (some e, a1, a2) → check_interval e = true := by
    intro e a1 a2 h
    obtain ⟨hsrc, hlt, -, -⟩ := union_step_emit int1 int2 e a1 a2 h (lcut_lt_ucut _ hv1)
      (lcut_lt_ucut _ hv2)
    rcases hsrc with ⟨hc, -, -⟩ | ⟨hc, -, -⟩
    · exact check_interval_of_cut_from e int1 hc hv1 hlt
    · exact check_interval_of_cut_from e int2 hc hv2 hlt
  by_cases h1 : compare_lower_lower int1 int2 ≤ 0
  · by_cases h2 : compare_upper_upper int1 int2 = 0
    · have hs : union_step int1 int2 = (some (copy_cell int1), true, true) := by
        simp [union_step, h1, h2]
      simp [merge_body_debug, h1, h2, hs, push_back_interval_debug_eq result int1 hv1]
    by_cases h3 : compare_upper_upper int1 int2 > 0
    · have hs : union_step int1 int2 = (none, false, true) := by
        simp [union_step, h1, h2, h3]
      simp [merge_body_debug, h1, h2, h3, hs]
    have h3' : compare_upper_upper int1 int2 < 0 := by omega
    by_cases h4 : compare_upper_lower int1 int2 < 0
    · have hs : union_step int1 int2 = (some (copy_cell int1), true, false) := by
        simp [union_step, h1, h2, h3, h4]
      have hl : compare_lower_lower int1 int2 < 0 := by
        rw [compare_lower_lower_lt]
        exact lt_of_lt_of_le (lcut_lt_ucut _ hv1) ((compare_upper_lower_lt _ _).mp h4)
      simp [merge_body_debug, h1, h2, h3, h3', h4, hl, hs, sassert,
        push_back_interval_debug_eq result int1 hv1]
    by_cases h5 : compare_upper_lower int1 int2 = 0
    · obtain ⟨-, e2, -, e4, e5⟩ := (compare_upper_lower_eq int1 int2).mp h5
      by_cases h6 : compare_lower_lower int1 int2 = 0
      · have hs : union_step int1 int2 = (none, true, false) := by
          simp [union_step, h1, h2, h3, h4, h5, h6]
        simp [merge_body_debug, h2, h3, h3', h5, h6, hs, sassert, e2, e4, e5]
      · have hs : union_step int1 int2 =
            (some (mk_cell int1.m_lower_open int1.m_lower_inf int1.m_lower true false
              int1.m_upper int1.m_justification), true, false) := by
          simp [union_step, h1, h2, h3, h4, h5, h6]
        have hl : compare_lower_lower int1 int2 < 0 := by omega
        simp [merge_body_debug, h1, h2, h3, h3', h4, h5, h6, hl, hs, sassert, e2, e4, e5,
          push_back_debug_eq result _ _ _ _ _ _ _ (hve _ _ _ hs)]
    have h5' : compare_upper_lower int1 int2 > 0 := by omega
    by_cases h6 : compare_lower_lower int1 int2 = 0
    · have hs : union_step int1 int2 = (none, true, false) := by
        simp [union_step, h1, h2, h3, h4, h5, h6]
      simp [merge_body_debug, h2, h3, h3', h4, h5, h5', h6, hs, sassert]
    · have hs : union_step int1 int2 =
          (some (mk_cell int1.m_lower_open int1.m_lower_inf int1.m_lower (!int2.m_lower_open)
            false int2.m_lower int1.m_justification), true, false) := by
        simp [union_step, h1, h2, h3, h4, h5, h6]
      have hl : compare_lower_lower int1 int2 < 0 := by omega
      simp [merge_body_debug, h1, h2, h3, h3', h4, h5, h5', h6, hl, hs, sassert,
        push_back_debug_eq result _ _ _ _ _ _ _ (hve _ _ _ hs)]
  · have h1' : compare_lower_lower int1 int2 > 0 := by omega
    by_cases h2 : compare_upper_upper int1 int2 = 0
    · have hs : union_step int1 int2 = (some (copy_cell int2), true, true) := by
        simp [union_step, h1, h2]
      simp [merge_body_debug, h1, h1', h2, hs, sassert,
        push_back_interval_debug_eq result int2 hv2]
    by_cases h3 : compare_upper_upper int1 int2 < 0
    · have hs : union_step int1 int2 = (none, true, false) := by
        simp [union_step, h1, h2, h3]
      simp [merge_body_debug, h1, h1', h2, h3, hs, sassert]
    have h3' : compare_upper_upper int1 int2 > 0 := by omega
    by_cases h4 : compare_upper_lower int2 int1 < 0
    · have hs : union_step int1 int2 = (some (copy_cell int2), false, true) := by
        simp [union_step, h1, h2, h3, h4]
      simp [merge_body_debug, h1, h1', h2, h3, h4, hs, sassert,
        push_back_interval_debug_eq result int2 hv2]
    by_cases h5 : compare_upper_lower int2 int1 = 0
    · obtain ⟨-, e2, -, e4, e5⟩ := (compare_upper_lower_eq int2 int1).mp h5
      have hs : union_step int1 int2 =
          (some (mk_cell int2.m_lower_open int2.m_lower_inf int2.m_lower true false
            int2.m_upper int2.m_justification), false, true) := by
        simp [union_step, h1, h2, h3, h4, h5]
      simp [merge_body_debug, h1, h1', h2, h3, h4, h5, hs, sassert, e2, e4, e5,
        push_back_debug_eq result _ _ _ _ _ _ _ (hve _ _ _ hs)]
    · have h5' : compare_upper_lower int2 int1 > 0 := by omega
      have hs : union_step int1 int2 =
          (some (mk_cell int2.m_lower_open int2.m_lower_inf int2.m_lower (!int1.m_lower_open)
            false int1.m_lower int2.m_justification), false, true) := by
        simp [union_step, h1, h2, h3, h4, h5]
      simp [merge_body_debug, h1, h1', h2, h3, h3', h4, h5, h5', hs, sassert,
        push_back_debug_eq result _ _ _ _ _ _ _ (hve _ _ _ hs)]

theorem valid_ite (a : Bool) (i : interval α) (r : List (interval α))
    (h : ∀ j ∈ i :: r, check_interval j = true) :
    ∀ j ∈ (if a then r else i :: r), check_interval j = true := by
  cases a
  · exact h
  · exact fun j hj => h j (List.mem_cons_of_mem _ hj)

/-- When the buffer the merge pass ends with is valid, sorted and disjoint, no
assertion fails during the pass. -/
theorem union_loop_debug_eq (fuel : Nat) (l1 l2 result : List (interval α))
    (hv1 : ∀ i ∈ l1, check_interval i = true) (hv2 : ∀ i ∈ l2, check_interval i = true)
    (hg : good (union_loop fuel l1 l2 result)) :
    union_loop_debug fuel l1 l2 result = some (union_loop fuel l1 l2 result) := by
  induction fuel generalizing l1 l2 result with
  | zero => simp [union_loop_debug, union_loop]
  | succ fuel ih =>
    cases l1 with
    | nil =>
      simp only [union_loop_debug, union_loop, foldl_push_back_interval]
      exact copy_rest_debug_eq l2 result hv2
    | cons int1 r1 =>
      cases l2 with
      | nil =>
        simp only [union_loop_debug, union_loop, foldl_push_back_interval]
        exact copy_rest_debug_eq (int1 :: r1) result hv1
      | cons int2 r2 =>
        rw [union_loop_step] at hg ⊢
        simp only [union_loop_debug, merge_body_debug_eq int1 int2 r1 r2 result
          (hv1 int1 (List.mem_cons_self _ _)) (hv2 int2 (List.mem_cons_self _ _))]
        have hpre : good (result ++ (union_step int1 int2).1.toList) := by
          rw [union_loop_acc] at hg
          exact good_of_append_left _ _ hg
        rw [loop_end_check_of_good _ hpre]
        simp only [sassert, if_true]
        exact ih _ _ _ (valid_ite _ _ _ hv1) (valid_ite _ _ _ hv2) hg

/-- The assertions of `adjacent` hold on two cells the first of which ends
before the second starts. -/
theorem adjacent_debug_eq (curr next : interval α) (h : ucut curr ≤ lcut next) :
    adjacent_debug curr next = some (adjacent curr next) := by
  have hc := (check_no_overlap_iff curr next).mpr h
  unfold check_no_overlap at hc
  simp only [Bool.and_eq_true, Bool.not_eq_true', decide_eq_true_eq, Bool.or_eq_true,
    decide_eq_false_iff_not, am_compare_le_zero, am_compare_eq_zero] at hc
  obtain ⟨⟨⟨c1, c2⟩, c3⟩, c4⟩ := hc
  unfold adjacent_debug adjacent
  have hs : am_compare curr.m_upper next.m_lower ≠ sign_pos := by
    have := (am_compare_le_zero curr.m_upper next.m_lower).mpr c3
    unfold sign_pos
    omega
  simp only [sassert, c1, c2, Bool.not_false, if_true, hs, ne_eq, not_false_eq_true,
    decide_True]
  by_cases he : am_compare curr.m_upper next.m_lower = 0
  · have hv := (am_compare_eq_zero _ _).mp he
    have ho : (curr.m_upper_open || next.m_lower_open) = true := by
      rcases c4 with (c | c) | c
      · exact absurd hv c
      · simp [c]
      · simp [c]
    simp [he, ho]
  · simp [he]

theorem chain_ucut_congr (a b : interval α) (l : List (interval α)) (h : ucut a = ucut b)
    (hc : List.Chain' (fun x y : interval α => ucut x ≤ lcut y) (b :: l)) :
    List.Chain' (fun x y : interval α => ucut x ≤ lcut y) (a :: l) := by
  cases l with
  | nil => exact List.chain'_singleton _
  | cons c l =>
    rw [List.chain'_cons] at hc ⊢
    exact ⟨h ▸ hc.1, hc.2⟩

/-- No assertion fails in the compression of a buffer whose cells each end
before the next one starts. -/
theorem compress_loop_debug_eq (rest : List (interval α)) (done : List (interval α))
    (curr : interval α) (mid : List (interval α))
    (hc : List.Chain' (fun x y : interval α => ucut x ≤ lcut y) (curr :: rest)) :
    compress_loop_debug done curr mid rest = some (compress_loop done curr mid rest) := by
  induction rest generalizing done curr mid with
  | nil => simp [compress_loop_debug, compress_loop]
  | cons next rest ih =>
    have hc' := List.chain'_cons.mp hc
    simp only [compress_loop_debug, compress_loop, adjacent_debug_eq curr next hc'.1]
    by_cases hj : curr.m_justification = next.m_justification
    · cases ha : adjacent curr next
      · simp only [hj, if_true, Bool.and_false, Bool.false_eq_true, if_false, decide_True]
        cases mid with
        | nil => exact ih _ _ _ hc'.2
        | cons next_curr mid' =>
          simp only []
          exact ih _ _ _ (chain_ucut_congr _ next rest rfl hc'.2)
      · simp only [hj, if_true, Bool.and_true, decide_True]
        exact ih _ _ _ (chain_ucut_congr _ next rest rfl hc'.2)
    · simp only [hj, if_false, decide_False, Bool.false_and, Bool.false_eq_true]
      cases mid with
      | nil => exact ih _ _ _ hc'.2
      | cons next_curr mid' =>
        simp only []
        exact ih _ _ _ (chain_ucut_congr _ next rest rfl hc'.2)

/-- No assertion fails in the full detection on such a buffer. -/
theorem find_slack_debug_eq (b : Bool) (l : List (interval α))
    (hc : List.Chain' (fun x y : interval α => ucut x ≤ lcut y) l) :
    find_slack_debug b l = some (find_slack b l) := by
  induction l generalizing b with
  | nil => cases b <;> rfl
  | cons a l ih =>
    cases l with
    | nil => cases b <;> rfl
    | cons c l =>
      have hc' := List.chain'_cons.mp hc
      cases b
      · simp only [find_slack_debug, find_slack, adjacent_debug_eq a c hc'.1]
        exact ih _ hc'.2
      · rfl

theorem chain_of_good (l : List (interval α)) (hg : good l) :
    List.Chain' (fun x y : interval α => ucut x ≤ lcut y) l :=
  List.Pairwise.chain' hg.2

/-- C21: union never fails on well-formed input. For all well-formed `s1` and
`s2`, null or not, `mk_union(s1, s2)` in a build with assertions runs to its
end and returns what it returns without them: no assertion is violated, among
them the assertions of the case analysis in the merge pass, `check_no_overlap`
at the end of each iteration, the non-emptiness of the buffer, the assertions
of `adjacent` in the compression and in the full detection, `check_interval`
on every interval pushed and `check_interval_set` on the buffer and on the new
node. -/
theorem mk_union_debug_eq (mem : Nat) (s1 s2 : interval_set_ptr α)
    (h1 : well_formed s1 = true) (h2 : well_formed s2 = true) :
    mk_union_debug mem s1 s2 = some (mk_union mem s1 s2) := by
  rcases mk_union_cases mem s1 s2 with ⟨rfl, h⟩ | ⟨rfl, h⟩ | ⟨rfl, h⟩ | ⟨hf, h⟩ | ⟨hf, h⟩ |
    ⟨n1, n2, rfl, rfl, hp, hf1, hf2⟩
  · simp [mk_union_debug, mk_union]
  · simp [mk_union_debug, mk_union, ptr_eq]
  · cases s1 with
    | none => simp [mk_union_debug, mk_union]
    | some n1 => simp [mk_union_debug, mk_union, ptr_eq]
  · cases s1 with
    | none => simp [is_full] at hf
    | some n1 =>
      simp only [is_full] at hf
      cases s2 with
      | none => simp [mk_union_debug, mk_union, ptr_eq]
      | some n2 =>
        by_cases hp : some n1 = some n2
        · simp [mk_union_debug, mk_union, ptr_eq, hp]
        · simp [mk_union_debug, mk_union, ptr_eq, hp, hf]
  · cases s2 with
    | none => simp [is_full] at hf
    | some n2 =>
      simp only [is_full] at hf
      cases s1 with
      | none => simp [mk_union_debug, mk_union]
      | some n1 =>
        by_cases hp : some n1 = some n2
        · simp [mk_union_debug, mk_union, ptr_eq, hp]
        · by_cases hf1 : n1.m_full = true
          · simp [mk_union_debug, mk_union, ptr_eq, hp, hf1]
          · simp [mk_union_debug, mk_union, ptr_eq, hp, hf1, hf]
  · obtain ⟨r, hr, -, -, hne, hg, hfull, -, -, -, first, rest, hu, hcomp⟩ :=
      mk_union_merge mem n1 n2 h1 h2 hp hf1 hf2
    obtain ⟨hne1, hg1, -⟩ := (well_formed_some_iff n1).mp h1
    obtain ⟨hne2, hg2, -⟩ := (well_formed_some_iff n2).mp h2
    have hfuel : 1 ≤ n1.m_num_intervals + n2.m_num_intervals := by
      have := List.length_pos.mpr hne1
      unfold interval_set.m_num_intervals; omega
    obtain ⟨kg, -, -⟩ := union_loop_spec _ _ _ ⊥ hfuel (le_refl _) hg1 hg2 (fun _ _ => bot_le)
      (fun _ _ => bot_le)
    have hloop := union_loop_debug_eq (n1.m_num_intervals + n2.m_num_intervals) n1.m_intervals
      n2.m_intervals [] hg1.1 hg2.1 kg
    rw [hu] at hloop kg
    have hcl := compress_loop_debug_eq rest [] first [] (chain_of_good _ kg)
    rw [← hcomp] at hcl
    have hfs := fun b => find_slack_debug_eq b r.m_intervals (chain_of_good _ hg)
    have hcheck1 : check_interval_set (first :: rest) = true := (check_interval_set_iff _).mpr kg
    have hcheck2 : check_interval_set r.m_intervals = true := (check_interval_set_iff _).mpr hg
    have hlen : 1 ≤ r.m_intervals.length := List.length_pos.mpr hne
    have hmk : mk_union mem (some n1) (some n2) =
        some (mk_interval mem r.m_intervals
          (!find_slack
            (match r.m_intervals.head?, r.m_intervals.getLast? with
            | some r0, some rl => !r0.m_lower_inf || !rl.m_upper_inf
            | _, _ => true) r.m_intervals)) := by
      unfold mk_union
      rw [if_neg (by simp [hp])]
      simp only [hf1, hf2, Bool.false_eq_true, if_false, hu, ← hcomp]
    rw [hmk]
    unfold mk_union_debug
    rw [if_neg (by simp [hp])]
    simp only [hf1, hf2, Bool.false_eq_true, if_false, hloop, hcl, hfs, sassert, hcheck1, hcheck2,
      List.isEmpty_cons, Bool.not_false, if_true, mk_interval, ge_iff_le, hlen, decide_True]

/-- Witness of C21: the union of `{[1,3]}` and `{[2,4]}` in a build with
assertions. -/
theorem mk_union_debug_eq_witness :
    well_formed set_C = true ∧ well_formed set_D = true ∧
      mk_union_debug 3 set_C set_D = some (mk_union 3 set_C set_D) ∧
      mk_union_debug 3 set_C set_D =
        some (plain_set 3 [bounded_interval false 1 true 2 1, closed_interval 2 4 2]) :=
  ⟨by decide, by decide, mk_union_debug_eq 3 set_C set_D (by decide) (by decide), by decide⟩

end claims_assertions

section claims_seam

variable {α : Type} [LinearOrderedField α]

/-- The gap loop on a list without a gap between consecutive intervals leaves
`n`, `w` and the generator as they are. -/
theorem gap_loop_no_gap (am : anum_services α) (randomize : Bool) (suf : List (interval α))
    (n : Nat) (w : α) (m_rand : Nat → Nat)
    (hn : List.Chain' (fun prev next : interval α => ¬ prev.m_upper < next.m_lower) suf) :
    gap_loop am randomize suf n w m_rand = (false, n, w, m_rand) := by
  induction suf with
  | nil => rfl
  | cons prev suf ih =>
    cases suf with
    | nil => rfl
    | cons next rest =>
      rw [List.chain'_cons] at hn
      simp only [gap_loop, if_neg hn.1]
      exact ih hn.2

/-- The seam loop returns the first rational seam value; when there is none it
ends with the index kept so far or, with none kept, the index of the first
seam. -/
theorem seam_loop_eq (am : anum_services α) (suf : List (interval α)) (i : Nat)
    (irr : Option Nat) (hi : 1 ≤ i) :
    seam_loop am suf i irr =
      match (seam_values suf).find? am.is_rational with
      | some v => Sum.inl v
      | none => Sum.inr (irr.orElse (fun _ => first_seam_index suf (i - 1))) := by
  induction suf generalizing i irr with
  | nil => cases irr <;> rfl
  | cons prev suf ih =>
    cases suf with
    | nil => cases irr <;> rfl
    | cons next rest =>
      simp only [seam_loop, seam_values, first_seam_index]
      by_cases ho : (prev.m_upper_open && next.m_lower_open) = true
      · simp only [ho, if_true, List.singleton_append, List.find?_cons]
        by_cases hr : am.is_rational prev.m_upper = true
        · simp [hr]
        · simp only [hr, if_false, Bool.false_eq_true]
          rw [ih (i + 1) _ (by omega)]
          cases (seam_values (next :: rest)).find? am.is_rational with
          | some v => rfl
          | none => cases irr <;> simp
      · simp only [ho, if_false, Bool.false_eq_true, List.nil_append]
        rw [ih (i + 1) irr (by omega)]
        have : i + 1 - 1 = i - 1 + 1 := by omega
        rw [this]

/-- The first seam index points at a cell open above whose successor is open
below, and the value of its upper endpoint is the first seam value. -/
theorem first_seam_index_spec (suf pre : List (interval α)) (k : Nat)
    (h : first_seam_index suf pre.length = some k) :
    ∃ pre' prev next rest, pre ++ suf = pre' ++ prev :: next :: rest ∧ pre'.length = k ∧
      prev.m_upper_open = true ∧ next.m_lower_open = true ∧
      (seam_values suf).head? = some prev.m_upper := by
  induction suf generalizing pre with
  | nil => simp [first_seam_index] at h
  | cons prev suf ih =>
    cases suf with
    | nil => simp [first_seam_index] at h
    | cons next rest =>
      simp only [first_seam_index] at h
      by_cases ho : (prev.m_upper_open && next.m_lower_open) = true
      · rw [if_pos ho] at h
        simp only [Option.some.injEq] at h
        rw [Bool.and_eq_true] at ho
        exact ⟨pre, prev, next, rest, rfl, h, ho.1, ho.2, by simp [seam_values, ho.1, ho.2]⟩
      · rw [if_neg ho] at h
        have hlen : (pre ++ [prev]).length = pre.length + 1 := by simp
        obtain ⟨pre', p, n, r, e1, e2, e3, e4, e5⟩ := ih (pre ++ [prev]) (by rw [hlen]; exact h)
        refine ⟨pre', p, n, r, by rw [← e1]; simp, e2, e3, e4, ?_⟩
        simp only [seam_values, ho, if_false, Bool.false_eq_true, List.nil_append]
        exact e5

theorem first_seam_index_none (suf : List (interval α)) (k : Nat)
    (h : first_seam_index suf k = none) :
    List.Chain' (fun prev next : interval α =>
      ¬(prev.m_upper_open = true ∧ next.m_lower_open = true)) suf := by
  induction suf generalizing k with
  | nil => exact List.chain'_nil
  | cons prev suf ih =>
    cases suf with
    | nil => exact List.chain'_singleton _
    | cons next rest =>
      simp only [first_seam_index] at h
      by_cases ho : (prev.m_upper_open && next.m_lower_open) = true
      · rw [if_pos ho] at h
        exact absurd h (by simp)
      · rw [if_neg ho] at h
        rw [List.chain'_cons]
        refine ⟨?_, ih _ h⟩
        rw [Bool.and_eq_true] at ho
        exact ho

/-- A seam value is the upper endpoint of a cell open above whose successor is
open below, and every such endpoint is a seam value. -/
theorem mem_seam_values (suf : List (interval α)) (v : α) :
    v ∈ seam_values suf ↔
      ∃ pre prev next rest, suf = pre ++ prev :: next :: rest ∧
        prev.m_upper_open = true ∧ next.m_lower_open = true ∧ v = prev.m_upper := by
  induction suf with
  | nil => simp [seam_values]
  | cons a suf ih =>
    cases suf with
    | nil =>
      simp only [seam_values, List.not_mem_nil, false_iff, not_exists, not_and]
      intro pre prev next rest h
      have := congrArg List.length h
      simp at this
      omega
    | cons b rest =>
      simp only [seam_values, List.mem_append, ih]
      constructor
      · rintro (h | ⟨pre, prev, next, r, e, h1, h2, h3⟩)
        · by_cases ho : (a.m_upper_open && b.m_lower_open) = true
          · rw [if_pos ho, List.mem_singleton] at h
            rw [Bool.and_eq_true] at ho
            exact ⟨[], a, b, rest, rfl, ho.1, ho.2, h⟩
          · rw [if_neg ho] at h
            exact absurd h (List.not_mem_nil _)
        · exact ⟨a :: pre, prev, next, r, by rw [e]; rfl, h1, h2, h3⟩
      · rintro ⟨pre, prev, next, r, e, h1, h2, h3⟩
        cases pre with
        | nil =>
          simp only [List.nil_append, List.cons.injEq] at e
          obtain ⟨rfl, rfl, rfl⟩ := e
          left
          simp [h1, h2, h3]
        | cons c pre =>
          simp only [List.cons_append, List.cons.injEq] at e
          exact Or.inr ⟨pre, prev, next, r, e.2, h1, h2, h3⟩

/-- What the seam search returns on a well-formed set that is not full, has no
finite outer ray and no gap: the upper endpoint of a cell that meets its
successor with both sides open, a rational one when there is one. -/
theorem seam_search_spec (am : anum_services α) (L : List (interval α))
    (first last : interval α) (hg : good L) (hh : L.head? = some first)
    (hl : L.getLast? = some last) (hfull : full_cond L = false)
    (hfirst : first.m_lower_inf = true) (hlast : last.m_upper_inf = true)
    (hn : List.Chain' (fun prev next : interval α => ¬ prev.m_upper < next.m_lower) L) :
    ∃ pre prev next rest, L = pre ++ prev :: next :: rest ∧
      prev.m_upper_open = true ∧ next.m_lower_open = true ∧ prev.m_upper = next.m_lower ∧
      (am.is_rational prev.m_upper = true ∨ ∀ v ∈ seam_values L, am.is_rational v = false) ∧
      (seam_loop am L 1 none = Sum.inl prev.m_upper ∨
        seam_loop am L 1 none = Sum.inr (some pre.length)) ∧
      (seam_loop am L 1 none = Sum.inl prev.m_upper → am.is_rational prev.m_upper = true) ∧
      (seam_loop am L 1 none = Sum.inr (some pre.length) →
        ∀ v ∈ seam_values L, am.is_rational v = false) := by
  have hpair : ∀ pre prev next rest, L = pre ++ prev :: next :: rest →
      prev.m_upper = next.m_lower := by
    intro pre prev next rest hL
    have hnp := pair_of_chain L _ hn pre prev next rest hL
    rw [hL] at hg
    exact touching_of_no_gap prev next (no_overlap_of_good _ _ _ _ hg) hnp
  have hsl := seam_loop_eq am L 1 none (le_refl 1)
  cases hf : (seam_values L).find? am.is_rational with
  | some v =>
    rw [hf] at hsl
    have hv := List.find?_some hf
    obtain ⟨pre, prev, next, rest, hL, h1, h2, h3⟩ :=
      (mem_seam_values L v).mp (List.mem_of_find?_eq_some hf)
    subst h3
    exact ⟨pre, prev, next, rest, hL, h1, h2, hpair _ _ _ _ hL, Or.inl hv, Or.inl hsl,
      fun _ => hv, fun h => by rw [hsl] at h; exact absurd h (by simp)⟩
  | none =>
    rw [hf] at hsl
    simp only [Option.orElse, Nat.sub_self] at hsl
    have hnone : ∀ v ∈ seam_values L, am.is_rational v = false := by
      intro v hv
      have := List.find?_eq_none.mp hf v hv
      simpa using this
    cases hk : first_seam_index L 0 with
    | none =>
      exfalso
      have hs := first_seam_index_none L 0 hk
      have hadj := all_adjacent_of_no_seam L hg hn hs
      have : full_cond L = true := by
        unfold full_cond
        rw [hh, hl]
        simp [hfirst, hlast, hadj]
      rw [this] at hfull
      exact absurd hfull (by simp)
    | some k =>
      rw [hk] at hsl
      obtain ⟨pre, prev, next, rest, e1, e2, e3, e4, -⟩ :=
        first_seam_index_spec L [] k (by simpa using hk)
      simp only [List.nil_append] at e1
      subst e2
      exact ⟨pre, prev, next, rest, e1, e3, e4, hpair _ _ _ _ e1, Or.inr hnone, Or.inr hsl,
        fun h => by rw [hsl] at h; exact absurd h (by simp), fun _ => hnone⟩

theorem getElem?_append_succ (pre : List (interval α)) (a b : interval α)
    (l : List (interval α)) : (pre ++ a :: b :: l)[pre.length + 1]? = some b := by
  induction pre with
  | nil => simp
  | cons c pre ih => simpa using ih

/-- The call of `peek_in_complement` without assertions on a set with no
finite outer ray, in terms of the gap search and the seam search. -/
theorem peek_in_complement_no_ray (am : anum_services α) (m_rand : Nat → Nat)
    (node : interval_set α) (first last : interval α) (is_int : Bool) (w : α)
    (randomize : Bool) (hh : node.m_intervals.head? = some first)
    (hl : node.m_intervals.getLast? = some last) (hfirst : first.m_lower_inf = true)
    (hlast : last.m_upper_inf = true) :
    peek_in_complement am false m_rand (some node) is_int w randomize =
      peek_gap_seam am randomize node.m_intervals 0 w m_rand := by
  unfold peek_in_complement
  simp [hh, hl, hfirst, hlast]

/-- C31 fails on the code in a build with assertions: on a well-formed set
that is not full, has no finite outer ray and no gap of positive width,
`peek_in_complement` stops, in either mode, at the assertion that follows the
two ray checks. In a build without assertions it returns the common value of
two consecutive endpoints whose touching sides are both open and leaves the
generator as it was; the value is a rational one when one of the seams has a
rational value, and an irrational one only when none has. -/
theorem peek_in_complement_seam (am : anum_services α) (m_rand : Nat → Nat)
    (s : interval_set_ptr α) (first last : interval α) (is_int : Bool) (w : α)
    (randomize : Bool) (hwf : well_formed s = true) (hnf : is_full s = false)
    (hh : (intervals s).head? = some first) (hl : (intervals s).getLast? = some last)
    (hfirst : first.m_lower_inf = true) (hlast : last.m_upper_inf = true)
    (hnogap : ∀ pre prev next rest, intervals s = pre ++ prev :: next :: rest →
      ¬ prev.m_upper < next.m_lower) :
    peek_in_complement am true m_rand s is_int w randomize =
        peek_outcome.assertion_violation ∧
      ∃ pre prev next rest, intervals s = pre ++ prev :: next :: rest ∧
        prev.m_upper_open = true ∧ next.m_lower_open = true ∧
        prev.m_upper = next.m_lower ∧
        peek_in_complement am false m_rand s is_int w randomize =
          peek_outcome.returned prev.m_upper m_rand ∧
        (am.is_rational prev.m_upper = true ∨
          ∀ pre' prev' next' rest', intervals s = pre' ++ prev' :: next' :: rest' →
            prev'.m_upper_open = true → next'.m_lower_open = true →
            am.is_rational prev'.m_upper = false) := by
  cases s with
  | none => simp [intervals] at hh
  | some node =>
    simp only [intervals] at hh hl hnogap ⊢
    simp only [is_full] at hnf
    obtain ⟨hne, hg, hfull⟩ := (well_formed_some_iff node).mp hwf
    rw [hnf] at hfull
    have hn : List.Chain' (fun prev next : interval α => ¬ prev.m_upper < next.m_lower)
        node.m_intervals :=
      chain_of_pairs node.m_intervals _ hnogap [] node.m_intervals rfl
    constructor
    · unfold peek_in_complement
      simp [hh, hl, hfirst, hlast]
    · obtain ⟨pre, prev, next, rest, hL, h1, h2, h3, h4, h5, -, -⟩ :=
        seam_search_spec am node.m_intervals first last hg hh hl hfull.symm hfirst hlast hn
      refine ⟨pre, prev, next, rest, hL, h1, h2, h3, ?_, ?_⟩
      · rw [peek_in_complement_no_ray am m_rand node first last is_int w randomize hh hl
          hfirst hlast]
        unfold peek_gap_seam
        simp only [gap_loop_no_gap am randomize node.m_intervals 0 w m_rand hn,
          Bool.false_eq_true, if_false, gt_iff_lt, lt_irrefl]
        rcases h5 with h5 | h5
        · rw [h5]
        · rw [h5]
          have : node.m_intervals[pre.length]? = some prev := by
            rw [hL]; exact getElem?_append_length _ _ _
          simp only [this]
      · rcases h4 with h4 | h4
        · exact Or.inl h4
        · right
          intro pre' prev' next' rest' hL' o1 o2
          exact h4 _ ((mem_seam_values _ _).mpr ⟨pre', prev', next', rest', hL', o1, o2, rfl⟩)

/-- Witness of C31: on `{(-oo, 1), (1, +oo)}` the call stops at the assertion
in a build with assertions and returns 1 in a build without. -/
theorem peek_in_complement_seam_witness :
    well_formed set_Q = true ∧ is_full set_Q = false ∧
      peek_in_complement rational_services true (fun _ => 0) set_Q false 0 false =
        peek_outcome.assertion_violation ∧
      ∃ pre prev next rest, intervals set_Q = pre ++ prev :: next :: rest ∧
        prev.m_upper_open = true ∧ next.m_lower_open = true ∧
        prev.m_upper = next.m_lower ∧
        peek_in_complement rational_services false (fun _ => 0) set_Q false 0 false =
          peek_outcome.returned prev.m_upper (fun _ => 0) ∧
        (rational_services.is_rational prev.m_upper = true ∨
          ∀ pre' prev' next' rest', intervals set_Q = pre' ++ prev' :: next' :: rest' →
            prev'.m_upper_open = true → next'.m_lower_open = true →
            rational_services.is_rational prev'.m_upper = false) :=
  ⟨by decide, by decide,
    peek_in_complement_seam rational_services (fun _ => 0) set_Q _ _ false 0 false
      (by decide) (by decide) rfl rfl rfl rfl
      (fun pre prev next rest h => by
        have hlen := congrArg List.length h
        simp only [set_Q, plain_set, intervals, List.length_cons, List.length_nil,
          List.length_append] at hlen
        have hpre : pre = [] := List.length_eq_zero.mp (by omega)
        have hrest : rest = [] := List.length_eq_zero.mp (by omega)
        subst hpre hrest
        simp only [set_Q, plain_set, intervals, List.nil_append, List.cons.injEq,
          and_true] at h
        obtain ⟨rfl, rfl⟩ := h
        norm_num)⟩

/-- C36: the last-resort seam lookup is defined. On a well-formed non-null set
whose full flag is false, whose first lower endpoint is minus infinity, whose
last upper endpoint is plus infinity and which has no gap of positive width,
two consecutive intervals are both open at their common endpoint; so the seam
search never ends with `irrational_i` unset, and when it ends with an index `k`
(no rational seam found) both `k` and `k + 1` are indices of the array, the
cells there are open where they meet, and the call without assertions reads
inside the array. -/
theorem seam_lookup_defined (am : anum_services α) (s : interval_set_ptr α)
    (first last : interval α) (hwf : well_formed s = true) (hnn : s ≠ none)
    (hnf : is_full s = false) (hh : (intervals s).head? = some first)
    (hl : (intervals s).getLast? = some last) (hfirst : first.m_lower_inf = true)
    (hlast : last.m_upper_inf = true)
    (hnogap : ∀ pre prev next rest, intervals s = pre ++ prev :: next :: rest →
      ¬ prev.m_upper < next.m_lower) :
    (∃ i prev next, (intervals s)[i]? = some prev ∧ (intervals s)[i + 1]? = some next ∧
        prev.m_upper_open = true ∧ next.m_lower_open = true ∧ prev.m_upper = next.m_lower) ∧
      seam_loop am (intervals s) 1 none ≠ Sum.inr none ∧
      (∀ k, seam_loop am (intervals s) 1 none = Sum.inr (some k) →
        k + 1 < num_intervals s ∧
          ∃ prev next, (intervals s)[k]? = some prev ∧
            (intervals s)[k + 1]? = some next ∧
            prev.m_upper_open = true ∧ next.m_lower_open = true ∧
            prev.m_upper = next.m_lower ∧ am.is_rational prev.m_upper = false) ∧
      ∀ (m_rand : Nat → Nat) (is_int : Bool) (w : α) (randomize : Bool),
        peek_in_complement am false m_rand s is_int w randomize ≠
          peek_outcome.out_of_bounds := by
  cases s with
  | none => exact absurd rfl hnn
  | some node =>
    simp only [intervals, num_intervals] at hh hl hnogap ⊢
    simp only [is_full] at hnf
    obtain ⟨hne, hg, hfull⟩ := (well_formed_some_iff node).mp hwf
    rw [hnf] at hfull
    have hn : List.Chain' (fun prev next : interval α => ¬ prev.m_upper < next.m_lower)
        node.m_intervals :=
      chain_of_pairs node.m_intervals _ hnogap [] node.m_intervals rfl
    obtain ⟨pre, prev, next, rest, hL, h1, h2, h3, h4, h5, h6, h7⟩ :=
      seam_search_spec am node.m_intervals first last hg hh hl hfull.symm hfirst hlast hn
    have e1 : node.m_intervals[pre.length]? = some prev := by
      rw [hL]; exact getElem?_append_length _ _ _
    have e2 : node.m_intervals[pre.length + 1]? = some next := by
      rw [hL]; exact getElem?_append_succ _ _ _ _
    refine ⟨⟨pre.length, prev, next, e1, e2, h1, h2, h3⟩, ?_, ?_, ?_⟩
    · rcases h5 with h5 | h5 <;> rw [h5] <;> simp
    · intro k hk
      rcases h5 with h5 | h5
      · rw [h5] at hk
        exact absurd hk (by simp)
      · have hirr := h7 h5
        rw [h5] at hk
        simp only [Sum.inr.injEq, Option.some.injEq] at hk
        subst hk
        refine ⟨?_, prev, next, e1, e2, h1, h2, h3, ?_⟩
        · unfold interval_set.m_num_intervals
          rw [hL]
          simp
        · exact hirr _ ((mem_seam_values _ _).mpr ⟨pre, prev, next, rest, hL, h1, h2, rfl⟩)
    · intro m_rand is_int w randomize
      rw [peek_in_complement_no_ray am m_rand node first last is_int w randomize hh hl
        hfirst hlast]
      unfold peek_gap_seam
      simp only [gap_loop_no_gap am randomize node.m_intervals 0 w m_rand hn,
        Bool.false_eq_true, if_false, gt_iff_lt, lt_irrefl]
      rcases h5 with h5 | h5
      · rw [h5]; simp
      · rw [h5]
        simp only [e1]
        simp

/-- Witness of C36: in `{(-oo, 1), (1, +oo)}` the intervals 0 and 1 are both
open at 1; with a rationality test that always fails the seam search ends with
the index 0. -/
theorem seam_lookup_defined_witness :
    well_formed set_Q = true ∧ set_Q ≠ none ∧ is_full set_Q = false ∧
      seam_loop { rational_services with is_rational := fun _ => false } (intervals set_Q) 1
        none = Sum.inr (some 0) ∧
      (∀ k, seam_loop { rational_services with is_rational := fun _ => false }
          (intervals set_Q) 1 none = Sum.inr (some k) → k + 1 < num_intervals set_Q) :=
  ⟨by decide, by decide, by decide, by decide,
    fun k hk =>
      ((seam_lookup_defined { rational_services with is_rational := fun _ => false } set_Q _ _
        (by decide) (by decide) (by decide) rfl rfl rfl rfl
        (fun pre prev next rest h => by
          have hlen := congrArg List.length h
          simp only [set_Q, plain_set, intervals, List.length_cons, List.length_nil,
            List.length_append] at hlen
          have hpre : pre = [] := List.length_eq_zero.mp (by omega)
          have hrest : rest = [] := List.length_eq_zero.mp (by omega)
          subst hpre hrest
          simp only [set_Q, plain_set, intervals, List.nil_append, List.cons.injEq,
            and_true] at h
          obtain ⟨rfl, rfl⟩ := h
          norm_num)).2.2.1 k hk).1⟩

end claims_seam

section claims_scratch_state

variable {α : Type} [LinearOrderedField α]

/-- The first loop of `get_justifications` sets the entries of the literals of
the intervals it visits and changes no other entry. -/
theorem collect_justifications_visited (l : List (interval α)) :
    ∀ (v : Nat → Bool) (js : List literal) (cls : List Nat) (i : Nat),
      (collect_justifications l v js cls).1 i =
        (v i || l.any (fun k => k.m_justification.index == i)) := by
  induction l with
  | nil =>
    intro v js cls i
    simp [collect_justifications]
  | cons a l ih =>
    intro v js cls i
    simp only [collect_justifications, List.any_cons]
    by_cases hv : v a.m_justification.index = true
    · rw [if_pos hv, ih]
      by_cases hi : a.m_justification.index = i
      · subst hi
        simp [hv]
      · have hb : (a.m_justification.index == i) = false := by simpa using hi
        simp [hb]
    · rw [if_neg hv, ih]
      by_cases hi : a.m_justification.index = i
      · subst hi
        simp
      · have hb : (a.m_justification.index == i) = false := by simpa using hi
        simp [hb, Function.update_noteq (Ne.symm hi)]

/-- The second loop of `get_justifications` clears the entries of the literals
of the intervals and changes no other entry. -/
theorem reset_visited_apply (l : List (interval α)) :
    ∀ (v : Nat → Bool) (i : Nat),
      reset_visited l v i =
        (if l.any (fun k => k.m_justification.index == i) then false else v i) := by
  induction l with
  | nil =>
    intro v i
    simp [reset_visited]
  | cons a l ih =>
    intro v i
    simp only [reset_visited, List.any_cons, ih]
    by_cases hi : a.m_justification.index = i
    · subst hi
      by_cases h : l.any (fun k => k.m_justification.index == a.m_justification.index) = true
      · simp [h]
      · simp [h]
    · have hb : (a.m_justification.index == i) = false := by simpa using hi
      simp [hb, Function.update_noteq (Ne.symm hi)]

/-- C32: `get_justifications` restores its scratch state. When every entry of
the visited bitmap is false before the call, every entry is false after it,
whatever the set; a second call, on the same set or on any other, then
returns the literal and clause lists it returns on a bitmap that was never
used. -/
theorem get_justifications_restores (v : Nat → Bool) (s s2 : interval_set_ptr α)
    (hv : ∀ i, v i = false) :
    (∀ i, (get_justifications v s).1 i = false) ∧
      (get_justifications (get_justifications v s).1 s2).2 =
        (get_justifications (fun _ => false) s2).2 ∧
      (get_justifications (get_justifications v s).1 s).2 = (get_justifications v s).2 ∧
      (∀ i, (get_justifications (get_justifications v s).1 s2).1 i = false) := by
  have key : ∀ (u : Nat → Bool) (t : interval_set_ptr α), (∀ i, u i = false) →
      ∀ i, (get_justifications u t).1 i = false := by
    intro u t hu i
    simp only [get_justifications, reset_visited_apply, collect_justifications_visited, hu,
      Bool.false_or]
    split_ifs with h
    · rfl
    · simpa using h
  have h1 : (get_justifications v s).1 = fun _ => false := funext (key v s hv)
  have h2 : v = fun _ => false := funext hv
  refine ⟨key v s hv, ?_, ?_, ?_⟩
  · rw [h1]
  · rw [h1, h2]
  · exact key _ s2 (key v s hv)

/-- Witness of C32: after a call on `{[1,2], [3,4], [5,6]}` the bitmap is
false everywhere and a second call returns `[L1, L2]` again. -/
theorem get_justifications_restores_witness :
    (∀ i, (fun _ : Nat => false) i = false) ∧
      (∀ i, (get_justifications (fun _ => false) set_J).1 i = false) ∧
      (get_justifications (get_justifications (fun _ => false) set_J).1 set_J).2 =
        (get_justifications (fun _ => false) set_J).2 ∧
      (get_justifications (fun _ => false) set_J).2 = ([⟨1, false⟩, ⟨2, false⟩], []) :=
  ⟨fun _ => rfl,
    (get_justifications_restores (fun _ => false) set_J set_J (fun _ => rfl)).1,
    (get_justifications_restores (fun _ => false) set_J set_J (fun _ => rfl)).2.2.1,
    by decide⟩

end claims_scratch_state

section claims_termination

variable {α : Type} [LinearOrderedField α]

/-- An iteration of the merge pass that appends nothing advances one cursor
only. -/
theorem union_step_none (int1 int2 : interval α) (a1 a2 : Bool)
    (h : union_step int1 int2 = (none, a1, a2)) : ¬(a1 = true ∧ a2 = true) := by
  rcases union_step_cases int1 int2 with ⟨-, -, h'⟩ | ⟨-, -, h'⟩ | ⟨-, -, -, h'⟩ |
    ⟨-, -, -, e, h', -⟩ | ⟨-, -, h'⟩ | ⟨-, -, h'⟩ | ⟨-, -, h'⟩ | ⟨-, -, -, h'⟩ |
    ⟨-, -, -, e, h', -⟩ <;>
    rw [h'] at h <;> simp at h <;> (obtain ⟨rfl, rfl⟩ := h; simp)

/-- What is left to merge after an iteration, plus what the iteration appends,
is no more than what was left before. -/
theorem union_step_budget (int1 int2 : interval α) (r1 r2 : List (interval α)) :
    (union_step int1 int2).1.toList.length +
        ((if (union_step int1 int2).2.1 then r1 else int1 :: r1).length +
          (if (union_step int1 int2).2.2 then r2 else int2 :: r2).length) ≤
      r1.length + r2.length + 2 := by
  have h1 := union_step_length int1 int2 r1 r2
  have h2 : (union_step int1 int2).1.toList.length ≤ 1 := by
    cases (union_step int1 int2).1 <;> simp
  omega

/-- The buffer the merge pass ends with has at most as many cells as the
buffer it starts with plus the intervals left in the two operands. -/
theorem union_loop_length_le (fuel : Nat) (l1 l2 result : List (interval α)) :
    (union_loop fuel l1 l2 result).length ≤ result.length + (l1.length + l2.length) := by
  induction fuel generalizing l1 l2 result with
  | zero => simp [union_loop]
  | succ fuel ih =>
    cases l1 with
    | nil => simp [union_loop, foldl_push_back_interval]
    | cons int1 r1 =>
      cases l2 with
      | nil => simp [union_loop, foldl_push_back_interval, push_back_interval_eq]
      | cons int2 r2 =>
        rw [union_loop_step]
        have h := ih (if (union_step int1 int2).2.1 then r1 else int1 :: r1)
          (if (union_step int1 int2).2.2 then r2 else int2 :: r2)
          (result ++ (union_step int1 int2).1.toList)
        have hb := union_step_budget int1 int2 r1 r2
        simp only [List.length_append, List.length_cons] at h ⊢
        omega

/-- The merge pass of two operands that are not both exhausted ends with a
buffer that is not empty. -/
theorem union_loop_ne_nil (fuel : Nat) (l1 l2 : List (interval α)) (hf : 1 ≤ fuel)
    (hlen : l1.length + l2.length ≤ fuel) (hne : l1 ≠ [] ∨ l2 ≠ []) :
    union_loop fuel l1 l2 [] ≠ [] := by
  induction fuel generalizing l1 l2 with
  | zero => omega
  | succ fuel ih =>
    cases l1 with
    | nil =>
      rw [union_loop_nil_left _ _ hf]
      rcases hne with h | h
      · exact absurd rfl h
      · simpa using h
    | cons int1 r1 =>
      cases l2 with
      | nil =>
        rw [union_loop_nil_right _ _ hf]
        simp
      | cons int2 r2 =>
        rw [union_loop_cons_cons]
        have hp := union_step_length int1 int2 r1 r2
        simp only [List.length_cons] at hlen
        rcases hstep : union_step int1 int2 with ⟨_ | e, a1, a2⟩
        · have hnb := union_step_none int1 int2 a1 a2 hstep
          simp only [hstep] at hp
          simp only [Option.toList, List.nil_append]
          have hne' : (if a1 = true then r1 else int1 :: r1) ≠ [] ∨
              (if a2 = true then r2 else int2 :: r2) ≠ [] := by
            cases a1 <;> cases a2 <;> simp at hnb ⊢
          have hpos : 1 ≤ (if a1 = true then r1 else int1 :: r1).length +
              (if a2 = true then r2 else int2 :: r2).length := by
            rcases hne' with h | h
            · have := List.length_pos.mpr h; omega
            · have := List.length_pos.mpr h; omega
          exact ih _ _ (by omega) (by omega) hne'
        · simp [Option.toList]

/-- The number of iterations of the merge pass is at most the number of
intervals left in the two operands, and at least one. -/
theorem union_loop_steps_le (fuel : Nat) (l1 l2 : List (interval α)) (hf : 1 ≤ fuel)
    (hlen : l1.length + l2.length ≤ fuel) :
    ∃ k, union_loop_steps fuel l1 l2 = some k ∧ 1 ≤ k ∧ k ≤ max 1 (l1.length + l2.length) := by
  induction fuel generalizing l1 l2 with
  | zero => omega
  | succ fuel ih =>
    cases l1 with
    | nil => exact ⟨1, rfl, le_refl _, le_max_left _ _⟩
    | cons int1 r1 =>
      cases l2 with
      | nil => exact ⟨1, rfl, le_refl _, le_max_left _ _⟩
      | cons int2 r2 =>
        have hp := union_step_length int1 int2 r1 r2
        simp only [List.length_cons] at hlen ⊢
        obtain ⟨k, hk, h1, h2⟩ := ih (if (union_step int1 int2).2.1 then r1 else int1 :: r1)
          (if (union_step int1 int2).2.2 then r2 else int2 :: r2) (by omega) (by omega)
        refine ⟨k + 1, by simp [union_loop_steps, hk], by omega, ?_⟩
        have : k ≤ max 1 (r1.length + r2.length + 1) := le_trans h2 (max_le_max (le_refl _) hp)
        rw [max_eq_right (by omega)] at this
        rw [max_eq_right (by omega)]
        omega

/-- The compression keeps at least one cell and adds none. -/
theorem compress_loop_length (rest : List (interval α)) (done : List (interval α))
    (curr : interval α) (mid : List (interval α)) :
    done.length + 1 ≤ (compress_loop done curr mid rest).length ∧
      (compress_loop done curr mid rest).length ≤ done.length + 1 + rest.length := by
  induction rest generalizing done curr mid with
  | nil => simp [compress_loop]
  | cons next rest ih =>
    simp only [compress_loop]
    split_ifs
    · have := ih done { curr with
          m_upper_inf := next.m_upper_inf
          m_upper_open := next.m_upper_open
          m_upper := next.m_upper } (mid ++ [{ next with m_upper := curr.m_upper }])
      simp only [List.length_cons]
      omega
    · cases mid with
      | nil =>
        have := ih (done ++ [curr]) next []
        simp only [List.length_append, List.length_cons, List.length_nil] at this ⊢
        omega
      | cons next_curr mid' =>
        simp only []
        have := ih (done ++ [curr])
          { next_curr with
            m_lower_inf := next.m_lower_inf
            m_lower_open := next.m_lower_open
            m_lower := next.m_lower
            m_upper_inf := next.m_upper_inf
            m_upper_open := next.m_upper_open
            m_upper := next.m_upper
            m_justification := next.m_justification }
          (mid' ++ [{ next with m_lower := next_curr.m_lower, m_upper := next_curr.m_upper }])
        simp only [List.length_append, List.length_cons, List.length_nil] at this ⊢
        omega

/-- C34: the merge loop of `mk_union` terminates and bounds its output. Every
iteration on two current intervals advances at least one cursor and appends at
most one interval. For non-null `s1` and `s2` that are not full, with `n1 >= 1`
and `n2 >= 1` intervals, the loop ends after at most `n1 + n2` iterations (a
larger bound on the iterations changes nothing), and the result has at least
one and at most `n1 + n2` intervals. -/
theorem mk_union_terminates (mem : Nat) (n1 n2 : interval_set α)
    (hf1 : n1.m_full = false) (hf2 : n2.m_full = false)
    (hne1 : n1.m_intervals ≠ []) (hne2 : n2.m_intervals ≠ []) :
    (∀ (fuel : Nat) (int1 int2 : interval α) (r1 r2 result : List (interval α)),
        ∃ (e : Option (interval α)) (a1 a2 : Bool), (a1 = true ∨ a2 = true) ∧
          union_loop (fuel + 1) (int1 :: r1) (int2 :: r2) result =
            union_loop fuel (if a1 then r1 else int1 :: r1) (if a2 then r2 else int2 :: r2)
              (result ++ e.toList)) ∧
      (∃ k, union_loop_steps (n1.m_num_intervals + n2.m_num_intervals) n1.m_intervals
          n2.m_intervals = some k ∧ 1 ≤ k ∧ k ≤ n1.m_num_intervals + n2.m_num_intervals) ∧
      (∀ extra, union_loop (n1.m_num_intervals + n2.m_num_intervals + extra) n1.m_intervals
          n2.m_intervals [] =
        union_loop (n1.m_num_intervals + n2.m_num_intervals) n1.m_intervals n2.m_intervals []) ∧
      1 ≤ num_intervals (mk_union mem (some n1) (some n2)) ∧
      num_intervals (mk_union mem (some n1) (some n2)) ≤
        n1.m_num_intervals + n2.m_num_intervals := by
  have hl1 : 1 ≤ n1.m_intervals.length := List.length_pos.mpr hne1
  have hl2 : 1 ≤ n2.m_intervals.length := List.length_pos.mpr hne2
  have hfuel : 1 ≤ n1.m_num_intervals + n2.m_num_intervals := by
    unfold interval_set.m_num_intervals; omega
  have hlen : n1.m_intervals.length + n2.m_intervals.length ≤
      n1.m_num_intervals + n2.m_num_intervals := le_refl _
  refine ⟨fun fuel int1 int2 r1 r2 result => ⟨(union_step int1 int2).1,
      (union_step int1 int2).2.1, (union_step int1 int2).2.2, union_step_progress int1 int2,
      union_loop_step fuel int1 int2 r1 r2 result⟩, ?_,
    fun extra => union_loop_fuel _ extra _ _ _ hfuel hlen, ?_⟩
  · obtain ⟨k, hk, h1, h2⟩ := union_loop_steps_le _ n1.m_intervals n2.m_intervals hfuel hlen
    refine ⟨k, hk, h1, ?_⟩
    rw [max_eq_right (by omega)] at h2
    exact h2
  · by_cases hp : (some n1 : interval_set_ptr α) = some n2
    · have : mk_union mem (some n1) (some n2) = some n2 := by
        simp [mk_union, ptr_eq, hp]
      rw [this]
      simp only [num_intervals, interval_set.m_num_intervals]
      omega
    · have hnn := union_loop_ne_nil _ n1.m_intervals n2.m_intervals hfuel hlen (Or.inl hne1)
      have hle := union_loop_length_le (n1.m_num_intervals + n2.m_num_intervals)
        n1.m_intervals n2.m_intervals []
      rcases hout : union_loop (n1.m_num_intervals + n2.m_num_intervals) n1.m_intervals
          n2.m_intervals [] with _ | ⟨first, rest⟩
      · exact absurd hout hnn
      · rw [hout] at hle
        have hc := compress_loop_length rest [] first []
        have : ∃ b, mk_union mem (some n1) (some n2) =
            some (mk_interval mem (compress_loop [] first [] rest) b) := by
          unfold mk_union
          rw [if_neg (by simp [ptr_eq, hp])]
          simp only [hf1, hf2, Bool.false_eq_true, if_false, hout]
          exact ⟨_, rfl⟩
        obtain ⟨b, hb⟩ := this
        rw [hb]
        simp only [num_intervals, interval_set.m_num_intervals, mk_interval, List.length_nil,
          List.length_cons, zero_add] at hc hle ⊢
        omega

/-- Witness of C34: the union of `{[1,2]}` justified by `L1` and `{[1,2]}`
justified by `L2` takes two iterations and has between one and two intervals. -/
theorem mk_union_terminates_witness :
    node_A.m_full = false ∧ node_A2.m_full = false ∧ node_A.m_intervals ≠ [] ∧
      node_A2.m_intervals ≠ [] ∧
      union_loop_steps 2 node_A.m_intervals node_A2.m_intervals = some 2 ∧
      1 ≤ num_intervals (mk_union 3 (some node_A) (some node_A2)) ∧
      num_intervals (mk_union 3 (some node_A) (some node_A2)) ≤
        node_A.m_num_intervals + node_A2.m_num_intervals :=
  ⟨rfl, rfl, by decide, by decide, by decide,
    (mk_union_terminates 3 node_A node_A2 rfl rfl (by decide) (by decide)).2.2.2⟩

end claims_termination

section claims_tie

variable {α : Type} [LinearOrderedField α]

/-- The union of two one-interval sets that are not full and have the same
endpoints holds one interval, the copy of the interval of the first. -/
theorem mk_union_same_endpoints (mem : Nat) (A B : interval_set α) (a b : interval α)
    (hA : A.m_intervals = [a]) (hB : B.m_intervals = [b])
    (hfA : A.m_full = false) (hfB : B.m_full = false)
    (hlo : a.m_lower_open = b.m_lower_open) (hli : a.m_lower_inf = b.m_lower_inf)
    (hl : a.m_lower = b.m_lower) (huo : a.m_upper_open = b.m_upper_open)
    (hui : a.m_upper_inf = b.m_upper_inf) (hu : a.m_upper = b.m_upper)
    (hj : a.m_justification ≠ b.m_justification) :
    ∃ full, mk_union mem (some A) (some B) = some (mk_interval mem [copy_cell a] full) := by
  have hne : (some A : interval_set_ptr α) ≠ some B := by
    intro h
    simp only [Option.some.injEq] at h
    rw [h, hB] at hA
    simp only [List.cons.injEq, and_true] at hA
    exact hj (by rw [hA])
  have hL : compare_lower_lower a b = 0 := by
    rw [compare_lower_lower_eq]
    simp [lcut, hlo, hli, hl]
  have hU : compare_upper_upper a b = 0 := by
    rw [compare_upper_upper_eq]
    simp [ucut, huo, hui, hu]
  unfold mk_union
  rw [if_neg (by simp [ptr_eq, hne])]
  simp only [hfA, hfB, Bool.false_eq_true, if_false, interval_set.m_num_intervals, hA, hB,
    List.length_singleton, Nat.reduceAdd, union_loop, hL, hU, le_refl, if_true,
    push_back_interval_eq, List.nil_append, List.foldl_nil, compress_loop]
  exact ⟨_, rfl⟩

/-- C35: on ties the justification of the first operand wins. For
one-interval sets `A` and `B` with the same endpoint flags and values, the same
full flag (as for well-formed sets with these endpoints) and different
justifications, `eq(mk_union(A, B), A)` and `eq(mk_union(B, A), B)` are true
and `eq(mk_union(A, B), mk_union(B, A))` is false. -/
theorem mk_union_tie (mem mem2 : Nat) (A B : interval_set α) (a b : interval α)
    (hA : A.m_intervals = [a]) (hB : B.m_intervals = [b]) (hfull : A.m_full = B.m_full)
    (hlo : a.m_lower_open = b.m_lower_open) (hli : a.m_lower_inf = b.m_lower_inf)
    (hl : a.m_lower = b.m_lower) (huo : a.m_upper_open = b.m_upper_open)
    (hui : a.m_upper_inf = b.m_upper_inf) (hu : a.m_upper = b.m_upper)
    (hj : a.m_justification ≠ b.m_justification) :
    eq (mk_union mem (some A) (some B)) (some A) = true ∧
      eq (mk_union mem2 (some B) (some A)) (some B) = true ∧
      eq (mk_union mem (some A) (some B)) (mk_union mem2 (some B) (some A)) = false := by
  have hne : (some A : interval_set_ptr α) ≠ some B := by
    intro h
    simp only [Option.some.injEq] at h
    rw [h, hB] at hA
    simp only [List.cons.injEq, and_true] at hA
    exact hj (by rw [hA])
  have hjb : (a.m_justification != b.m_justification) = true := by simpa using hj
  have hjb' : (b.m_justification != a.m_justification) = true := by simpa using Ne.symm hj
  cases hfA : A.m_full
  · have hfB : B.m_full = false := by rw [← hfull, hfA]
    obtain ⟨f1, h1⟩ := mk_union_same_endpoints mem A B a b hA hB hfA hfB hlo hli hl huo hui hu hj
    obtain ⟨f2, h2⟩ := mk_union_same_endpoints mem2 B A b a hB hA hfB hfA hlo.symm hli.symm
      hl.symm huo.symm hui.symm hu.symm (Ne.symm hj)
    rw [h1, h2]
    simp [eq, eq_loop, mk_interval, interval_set.m_num_intervals, hA, hB, copy_cell, mk_cell,
      hjb]
  · have hfB : B.m_full = true := by rw [← hfull, hfA]
    have h1 : mk_union mem (some A) (some B) = some A := by
      simp [mk_union, ptr_eq, hne, hfA]
    have h2 : mk_union mem2 (some B) (some A) = some B := by
      simp [mk_union, ptr_eq, Ne.symm hne, hfB]
    rw [h1, h2]
    simp [eq, eq_loop, interval_set.m_num_intervals, hA, hB, hjb]

/-- Witness of C35: `{[1,2]}` justified by `L1` and `{[1,2]}` justified by
`L2`. -/
theorem mk_union_tie_witness :
    node_A.m_intervals = [closed_interval 1 2 1] ∧
      node_A2.m_intervals = [closed_interval 1 2 2] ∧
      (closed_interval 1 2 1 : interval ℚ).m_justification ≠
        (closed_interval 1 2 2).m_justification ∧
      eq (mk_union 3 (some node_A) (some node_A2)) (some node_A) = true ∧
      eq (mk_union 4 (some node_A2) (some node_A)) (some node_A2) = true ∧
      eq (mk_union 3 (some node_A) (some node_A2)) (mk_union 4 (some node_A2) (some node_A)) =
        false :=
  ⟨rfl, rfl, by decide,
    mk_union_tie 3 4 node_A node_A2 (closed_interval 1 2 1) (closed_interval 1 2 2) rfl rfl rfl
      rfl rfl rfl rfl rfl rfl (by decide)⟩

end claims_tie

section claims_distribution

/-- The value `rand_GD(i, j)` returns: the mean plus the square root of the
spread times the Box-Muller term of the two draws. -/
theorem rand_GD_value {D : Type} [Field D] (m : math_services D) (gen : Nat → Nat) (i j : D) :
    (rand_GD m gen i j).1 =
      i + m.sqrt j *
        (m.sqrt (-2 * (m.log (((gen 0 % 8192 : Nat) : D) / 8192) / m.log (m.exp 1))) *
          m.cos (2 * (31415926 / 10000000) * (((gen 1 % 8192 : Nat) : D) / 8192))) := by
  simp only [rand_GD, RANDOM_PRECISION, distribution_PI, Nat.cast_ofNat]
  ring

/-- C33 fails on the code: `rand_GD(i, j)` scales the Box-Muller term by the
square root of its second argument, not by the argument, whatever the
functions `sqrt`, `log`, `exp` and `cos` are. With the real
functions for `sqrt`, `log`, `exp` and `cos`, mean 0, spread 4 and the draws
4096 and 0 (so `u1 = 1/2` and `u2 = 0`) the value returned is
`2 * sqrt(2 ln 2)`, where the formula of the claim gives `4 * sqrt(2 ln 2)`;
`CDF` and `PPF` use the same spread 4 as a factor: `CDF(z) = NormSDist(z / 4)`
and `PPF(z) = normsinv(z) * 4`. -/
theorem rand_GD_scales_by_sqrt :
    (∀ (m : math_services ℝ) (gen : Nat → Nat) (i j : ℝ),
        (rand_GD m gen i j).1 =
          i + m.sqrt j *
            (m.sqrt (-2 * (m.log (((gen 0 % 8192 : Nat) : ℝ) / 8192) / m.log (m.exp 1))) *
              m.cos (2 * (31415926 / 10000000) * (((gen 1 % 8192 : Nat) : ℝ) / 8192)))) ∧
      (rand_GD ⟨Real.sqrt, Real.log, Real.exp, Real.cos⟩
        (fun k => if k = 0 then 4096 else 0) 0 4).1 = 2 * Real.sqrt (2 * Real.log 2) ∧
      (0 : ℝ) + 4 * Real.sqrt (-2 * Real.log (((4096 % 8192 : Nat) : ℝ) / 8192)) *
          Real.cos (2 * (31415926 / 10000000) * (((0 % 8192 : Nat) : ℝ) / 8192)) =
        4 * Real.sqrt (2 * Real.log 2) ∧
      (rand_GD ⟨Real.sqrt, Real.log, Real.exp, Real.cos⟩
        (fun k => if k = 0 then 4096 else 0) 0 4).1 ≠
        (0 : ℝ) + 4 * Real.sqrt (-2 * Real.log (((4096 % 8192 : Nat) : ℝ) / 8192)) *
          Real.cos (2 * (31415926 / 10000000) * (((0 % 8192 : Nat) : ℝ) / 8192)) ∧
      (∀ (normsinv : ℝ → ℝ) (z : ℝ), PPF normsinv 0 4 z = normsinv z * 4) ∧
      (∀ (NormSDist : ℝ → ℝ) (z : ℝ), CDF NormSDist 0 4 z = NormSDist (z / 4)) := by
  have hlog : Real.log (((4096 % 8192 : Nat) : ℝ) / 8192) = -Real.log 2 := by
    have : (((4096 % 8192 : Nat) : ℝ) / 8192) = (2 : ℝ)⁻¹ := by norm_num
    rw [this, Real.log_inv]
  have hcos : Real.cos (2 * (31415926 / 10000000) * (((0 % 8192 : Nat) : ℝ) / 8192)) = 1 := by
    have : (2 * (31415926 / 10000000) * (((0 % 8192 : Nat) : ℝ) / 8192)) = 0 := by norm_num
    rw [this, Real.cos_zero]
  have hsqrt4 : Real.sqrt 4 = 2 := by
    rw [show (4 : ℝ) = 2 ^ 2 by norm_num]
    exact Real.sqrt_sq (by norm_num)
  have hpos : 0 < Real.sqrt (2 * Real.log 2) := by
    apply Real.sqrt_pos.mpr
    have := Real.log_pos (show (1 : ℝ) < 2 by norm_num)
    linarith
  have h1 : (rand_GD ⟨Real.sqrt, Real.log, Real.exp, Real.cos⟩
      (fun k => if k = 0 then 4096 else 0) 0 4).1 = 2 * Real.sqrt (2 * Real.log 2) := by
    rw [rand_GD_value]
    simp only [if_true, one_ne_zero, if_false, Real.log_exp, div_one, hlog, hcos, hsqrt4]
    have : (-2 * -Real.log 2) = 2 * Real.log 2 := by ring
    rw [this]
    ring
  have h2 : (0 : ℝ) + 4 * Real.sqrt (-2 * Real.log (((4096 % 8192 : Nat) : ℝ) / 8192)) *
      Real.cos (2 * (31415926 / 10000000) * (((0 % 8192 : Nat) : ℝ) / 8192)) =
      4 * Real.sqrt (2 * Real.log 2) := by
    rw [hlog, hcos]
    have : (-2 * -Real.log 2) = 2 * Real.log 2 := by ring
    rw [this]
    ring
  refine ⟨fun m gen i j => rand_GD_value m gen i j, h1, h2, ?_,
    fun normsinv z => by simp [PPF], fun NormSDist z => by simp [CDF]⟩
  rw [h1, h2]
  intro h
  linarith

end claims_distribution

end nlsat
